import Mathlib

/-!
# Shallow embedding of `generator.cpp`

The block-diagram code generator: the `Graph` / `Block` data model, the
scheduler `CodeGenerator::topologicalSort` (Kahn's algorithm), the emitter
(`genHeader`, `genStruct`, `genInit`, `genStep`, `genExtPorts`, `generate`)
and the connection part of the loader (`XMLParser::parseEndpoint`,
`XMLParser::createConnection`).

Modelling conventions.

* `int` is `Int`, without overflow (the counters of the scheduler move by one
  per connection, far from the 32-bit range).  A comparison `id < v.size()` or `id >= v.size()` between an
  `int` and a `size_t` converts the `int` to unsigned first, so a negative
  identifier is never in range; `Graph.blockAt` and `Graph.outputsAt` say so.
* `std::string` is `String`, read as its sequence of characters.
* `std::unordered_map<K, V>` is an association list `List (K × V)`:
  `find`/`count`/`at` are `List.lookup`, `size` is the length, and range-`for`
  iteration walks the list from its head (the iteration order of a hash map is
  whatever the library makes it; every theorem below holds for every order).
  A list with a repeated key stands for no map; the theorems do not need to
  exclude such lists, and no concrete graph below has one.
* `std::unordered_map<int, int> inDegree`, which is only accessed through
  `operator[]` (a missing key reads as `0`), is a total function `Int → Int`.
* A thrown `std::runtime_error` is an `Except.error` carrying a `GenError` that
  records which `throw` statement fired and the data of its message.
* Dereferencing an empty or out-of-range slot `graph.blocks[id]` is undefined
  behaviour in the source; the model stops with `GenError.emptySlot`.
* In the loader, `operator[]` on an `unordered_map` updates the entry of an
  existing key in place and adds a new key at the end of the list (`pushBack`,
  `assign`). `std::stoi` is library code; `stoi` follows the C++ standard for
  base 10. The exceptions of the loader are the constructors of `LoadError`.
-/

namespace Generator

/-- `DestPair`: `{destination_sid, destination_port}`. -/
abbrev DestPair := Int × Int

/-- `PortMap`: for each output port, the destinations fed by it. -/
abbrev PortMap := List (Int × List DestPair)

/-- `class Block`. -/
structure Block where
  params : List (String × String)
  inputs : List (Int × Int)
  name : String
  type : String
  id : Int
deriving DecidableEq, Repr

/-- `class Graph`: both vectors are indexed by SID. -/
structure Graph where
  blockOutputs : List PortMap
  blocks : List (Option Block)
deriving DecidableEq, Repr

/-- The `throw` statements of the generator, and the undefined behaviours. -/
inductive GenError where
  /-- "The graph contains a cycle. Topological sorting is not possible." -/
  | cycle
  /-- "Block '<name>' (SID: <id>) has no connection to input port <port>" -/
  | noConnection (name : String) (id : Int) (port : Int)
  /-- "Source block with SID '<sid>' not found." -/
  | sourceNotFound (sid : Int)
  /-- "Outport '<name>' has no input connection." -/
  | outportNoInput (name : String)
  /-- "Source block for Outport '<name>' not found." -/
  | outportSourceNotFound (name : String)
  /-- `graph.blocks[id]->...` on an empty or out-of-range slot. -/
  | emptySlot (id : Int)
  /-- The `while (!q.empty())` loop did not finish within the model's fuel
  (shown never to happen, see `kahnLoop_fuel_enough`). -/
  | outOfFuel
deriving DecidableEq, Repr

/-- `Block::sanitizeName`: `std::replace(begin, end, ' ', '_')`. -/
def sanitizeName (name : String) : String :=
  ⟨name.data.map (fun c => if c = ' ' then '_' else c)⟩

/-- `Block::Block(id, name, type)`. -/
def Block.new (id : Int) (name : String) (type : String) : Block :=
  { params := [], inputs := [], name := sanitizeName name, type := type, id := id }

/-- `graph.blocks[id]` guarded by `id < graph.blocks.size() && graph.blocks[id]`:
`none` for a negative or too large `id` and for an empty slot. -/
def Graph.blockAt (g : Graph) (id : Int) : Option Block :=
  if id < 0 then none else (g.blocks.getD id.toNat none)

/-- `graph.blockOutputs[id]` under the guard `id < graph.blockOutputs.size()`;
when the guard fails the loop body is skipped, as for an empty map. -/
def Graph.outputsAt (g : Graph) (id : Int) : PortMap :=
  if id < 0 then [] else (g.blockOutputs.getD id.toNat [])

/-- `Block::getCInputVar`. -/
def Block.getCInputVar (b : Block) (port : Int) (g : Graph) : Except GenError String :=
  match b.inputs.lookup port with
  | none => .error (.noConnection b.name b.id port)
  | some sourceBlockId =>
    match g.blockAt sourceBlockId with
    | none => .error (.sourceNotFound sourceBlockId)
    | some src => .ok ("nwocg." ++ src.name)

/-! ## Scheduler -/

/-- `inDegree[k] = v`. -/
def setDeg (inDegree : Int → Int) (k v : Int) : Int → Int :=
  fun x => if x = k then v else inDegree x

/-- The initial in-degree of a block:
`(block->type == "UnitDelay") ? 0 : block->inputs.size()`. -/
def Block.initDegree (block : Block) : Int :=
  if block.type = "UnitDelay" then 0 else (block.inputs.length : Int)

/-- One iteration of the first loop of `topologicalSort`. -/
def initStep (st : (Int → Int) × List Int) (slot : Option Block) : (Int → Int) × List Int :=
  match slot with
  | none => st
  | some block =>
    (setDeg st.1 block.id block.initDegree,
      if block.initDegree = 0 then st.2 ++ [block.id] else st.2)

/-- The first loop of `topologicalSort`: initial in-degrees and initial queue. -/
def initInDegree (blocks : List (Option Block)) : (Int → Int) × List Int :=
  blocks.foldl initStep (fun _ => 0, [])

/-- `if ((--inDegree[dstId]) == 0) q.push(dstId);` -/
def relax (st : (Int → Int) × List Int) (dstId : Int) : (Int → Int) × List Int :=
  (setDeg st.1 dstId (st.1 dstId - 1),
    if st.1 dstId - 1 = 0 then st.2 ++ [dstId] else st.2)

/-- The two nested `for` loops over `port_map` and `destinations`. -/
def relaxPorts (st : (Int → Int) × List Int) (portMap : PortMap) : (Int → Int) × List Int :=
  portMap.foldl (fun st entry => entry.2.foldl (fun st destPair => relax st destPair.1) st) st

/-- The `while (!q.empty())` loop.  `fuel` bounds the number of iterations;
`none` means the fuel ran out before the queue was empty. -/
def kahnLoop (g : Graph) : Nat → (Int → Int) → List Int → List Int → Option (List Int)
  | 0, _, _, _ => none
  | fuel + 1, inDegree, q, sortedOrder =>
    match q with
    | [] => some sortedOrder
    | id :: rest =>
      let st := relaxPorts (inDegree, rest) (g.outputsAt id)
      kahnLoop g fuel st.1 st.2 (sortedOrder ++ [id])

/-- `totalBlocksInLogic`: the non-empty blocks whose type is not `"Outport"`. -/
def totalBlocksInLogic (g : Graph) : Nat :=
  g.blocks.countP (fun slot =>
    match slot with
    | none => false
    | some block => decide (block.type ≠ "Outport"))

/-- `CodeGenerator::topologicalSort`. -/
def topologicalSort (g : Graph) : Except GenError (List Int) :=
  let st := initInDegree g.blocks
  match kahnLoop g (g.blocks.length + 1) st.1 st.2 [] with
  | none => .error .outOfFuel
  | some sortedOrder =>
    if sortedOrder.length < totalBlocksInLogic g then .error .cycle
    else .ok sortedOrder

/-! ## Emitter -/

/-- The loop of `generate` that collects `delayBlocks`. -/
def collectDelayBlocks (g : Graph) : List Int → Except GenError (List Int)
  | [] => .ok []
  | id :: ids =>
    match g.blockAt id with
    | none => .error (.emptySlot id)
    | some block =>
      match collectDelayBlocks g ids with
      | .error e => .error e
      | .ok rest => .ok (if block.type = "UnitDelay" then id :: rest else rest)

/-- `genHeader`. -/
def genHeader : List String :=
  ["#include \"nwocg_run.h\"", "", "#include <math.h>", ""]

/-- The loop of `genStruct`. -/
def structFields (g : Graph) : List Int → Except GenError (List String)
  | [] => .ok []
  | id :: ids =>
    match g.blockAt id with
    | none => .error (.emptySlot id)
    | some block =>
      match structFields g ids with
      | .error e => .error e
      | .ok rest =>
        .ok (if block.type ≠ "Outport" then ("    double " ++ block.name ++ ";") :: rest else rest)

/-- `genStruct`. -/
def genStruct (g : Graph) (sortedBlockIds : List Int) : Except GenError (List String) :=
  match structFields g sortedBlockIds with
  | .error e => .error e
  | .ok fields => .ok (["static struct", "\x7b"] ++ fields ++ ["\x7d nwocg;", ""])

/-- The loop of `genInit`. -/
def initLines (g : Graph) : List Int → Except GenError (List String)
  | [] => .ok []
  | id :: ids =>
    match g.blockAt id with
    | none => .error (.emptySlot id)
    | some block =>
      match initLines g ids with
      | .error e => .error e
      | .ok rest => .ok (("    nwocg." ++ block.name ++ " = 0.0;") :: rest)

/-- `genInit`. -/
def genInit (g : Graph) (delayBlocks : List Int) : Except GenError (List String) :=
  match initLines g delayBlocks with
  | .error e => .error e
  | .ok body => .ok (["void nwocg_generated_init()", "\x7b"] ++ body ++ ["\x7d", ""])

/-- The `for (size_t i = 1; i < inputsStr.length(); ++i)` loop of the `Sum`
branch: `chars` are the characters `inputsStr[i], inputsStr[i+1], ...` still
to be visited and `expr` is the content of `exprStream` so far. -/
def sumLoop (b : Block) (g : Graph) : List Char → Nat → String → Except GenError String
  | [], _, expr => .ok expr
  | c :: chars, i, expr =>
    match b.getCInputVar ((i : Int) + 1) g with
    | .error e => .error e
    | .ok v => sumLoop b g chars (i + 1) (expr ++ " " ++ String.singleton c ++ " " ++ v)

/-- The `Sum` branch of `genStep`: the computation line of a `Sum` block. -/
def sumLine (b : Block) (g : Graph) : Except GenError String :=
  let inputsStr : String := (b.params.lookup "Inputs").getD "++"
  match b.getCInputVar 1 g with
  | .error e => .error e
  | .ok first =>
    match sumLoop b g (inputsStr.data.drop 1) 1 first with
    | .error e => .error e
    | .ok expr => .ok ("    nwocg." ++ b.name ++ " = " ++ expr ++ ";")

/-- The `Gain` branch of `genStep`: the computation line of a `Gain` block. -/
def gainLine (b : Block) (g : Graph) : Except GenError String :=
  let gainVal : String := (b.params.lookup "Gain").getD "1.0"
  match b.getCInputVar 1 g with
  | .error e => .error e
  | .ok v => .ok ("    nwocg." ++ b.name ++ " = " ++ v ++ " * " ++ gainVal ++ ";")

/-- The body of the computing loop of `genStep` for one block: the lines it
appends (one for a `Sum` or a `Gain`, none for any other type). -/
def computeLines (b : Block) (g : Graph) : Except GenError (List String) :=
  if b.type = "Sum" then
    match sumLine b g with
    | .error e => .error e
    | .ok l => .ok [l]
  else if b.type = "Gain" then
    match gainLine b g with
    | .error e => .error e
    | .ok l => .ok [l]
  else .ok []

/-- The computing part of `genStep`. -/
def computePart (g : Graph) : List Int → Except GenError (List String)
  | [] => .ok []
  | id :: ids =>
    match g.blockAt id with
    | none => .error (.emptySlot id)
    | some block =>
      match computeLines block g with
      | .error e => .error e
      | .ok ls =>
        match computePart g ids with
        | .error e => .error e
        | .ok rest => .ok (ls ++ rest)

/-- The state-update line of one `UnitDelay` block. -/
def updateLine (b : Block) (g : Graph) : Except GenError String :=
  match b.getCInputVar 1 g with
  | .error e => .error e
  | .ok v => .ok ("    nwocg." ++ b.name ++ " = " ++ v ++ ";")

/-- The updating part of `genStep`. -/
def updatePart (g : Graph) : List Int → Except GenError (List String)
  | [] => .ok []
  | id :: ids =>
    match g.blockAt id with
    | none => .error (.emptySlot id)
    | some block =>
      match updateLine block g with
      | .error e => .error e
      | .ok l =>
        match updatePart g ids with
        | .error e => .error e
        | .ok rest => .ok (l :: rest)

/-- `genStep`. -/
def genStep (g : Graph) (sortedBlockIds delayBlocks : List Int) : Except GenError (List String) :=
  match computePart g sortedBlockIds with
  | .error e => .error e
  | .ok comp =>
    match updatePart g delayBlocks with
    | .error e => .error e
    | .ok upd =>
      .ok (["void nwocg_generated_step()", "\x7b"] ++ comp
        ++ ["", "    // Update delay blocks state"] ++ upd ++ ["\x7d", ""])

/-- The table line of an `Inport` block. -/
def inportLine (block : Block) : String :=
  let portName : String := (block.params.lookup "PortName").getD block.name
  "    \x7b \"" ++ portName ++ "\", &nwocg." ++ block.name ++ ", 1 \x7d,"

/-- The table line of an `Outport` block, or the error it raises. -/
def outportLine (g : Graph) (block : Block) : Except GenError String :=
  match block.inputs.lookup 1 with
  | none => .error (.outportNoInput block.name)
  | some srcBlockId =>
    match g.blockAt srcBlockId with
    | none => .error (.outportSourceNotFound block.name)
    | some src => .ok ("    \x7b \"" ++ block.name ++ "\", &nwocg." ++ src.name ++ ", 0 \x7d,")

/-- The loop of `genExtPorts` over `graph.blocks`, started with the lines
collected so far; it returns `(outportLines, inportLines)`. -/
def extPortsLoop (g : Graph) :
    List (Option Block) → List String → List String → Except GenError (List String × List String)
  | [], outportLines, inportLines => .ok (outportLines, inportLines)
  | none :: slots, outportLines, inportLines => extPortsLoop g slots outportLines inportLines
  | some block :: slots, outportLines, inportLines =>
    if block.type = "Inport" then
      extPortsLoop g slots outportLines (inportLines ++ [inportLine block])
    else if block.type = "Outport" then
      match outportLine g block with
      | .error e => .error e
      | .ok l => extPortsLoop g slots (outportLines ++ [l]) inportLines
    else extPortsLoop g slots outportLines inportLines

/-- `genExtPorts`. -/
def genExtPorts (g : Graph) : Except GenError (List String) :=
  match extPortsLoop g g.blocks [] [] with
  | .error e => .error e
  | .ok (outportLines, inportLines) =>
    .ok (["static const nwocg_ExtPort ext_ports[] = \x7b"] ++ outportLines ++ inportLines
      ++ ["    \x7b 0, 0, 0 \x7d", "\x7d;", "",
          "const nwocg_ExtPort* const nwocg_generated_ext_ports = ext_ports;",
          "const size_t nwocg_generated_ext_ports_size = sizeof(ext_ports);"])

/-- `CodeGenerator::generate`: the lines handed to `writeToFile`, or the error
that aborts the run before `writeToFile` is reached. -/
def generate (g : Graph) : Except GenError (List String) :=
  match topologicalSort g with
  | .error e => .error e
  | .ok sortedBlockIds =>
    match collectDelayBlocks g sortedBlockIds with
    | .error e => .error e
    | .ok delayBlocks =>
      match genStruct g sortedBlockIds with
      | .error e => .error e
      | .ok structLines =>
        match genInit g delayBlocks with
        | .error e => .error e
        | .ok initL =>
          match genStep g sortedBlockIds delayBlocks with
          | .error e => .error e
          | .ok stepLines =>
            match genExtPorts g with
            | .error e => .error e
            | .ok portLines => .ok (genHeader ++ structLines ++ initL ++ stepLines ++ portLines)

/-- `writeToFile`: every line followed by a newline. -/
def writeToFile (bytecode : List String) : String :=
  bytecode.foldl (fun out instr => out ++ instr ++ "\n") ""

/-- The content of the output file after `main` has run `generate`: `none`
when the run aborted before `writeToFile`, so that no file was written. -/
def writtenFile (g : Graph) : Option String :=
  match generate g with
  | .error _ => none
  | .ok bytecode => some (writeToFile bytecode)

/-! ## Well-formedness conditions on graphs -/

/-- Every non-empty slot holds a block whose `id` is the index of the slot
(`graph.blocks[sid] = std::make_unique<Block>(sid, name, type)`). -/
def IdsAreIndices (g : Graph) : Prop :=
  ∀ p ∈ g.blocks.enum, ∀ b ∈ p.2, Block.id b = (p.1 : Int)

instance (g : Graph) : Decidable (IdsAreIndices g) := by
  unfold IdsAreIndices; infer_instance

/-- The destination identifiers of a port map, in the order in which the two
nested loops of `topologicalSort` visit them. -/
def dstIds (portMap : PortMap) : List Int :=
  portMap.flatMap (fun entry => entry.2.map Prod.fst)

/-- The connections `(source, destination, destination port)` recorded in the
fan-out tables of the slots `s, s + 1, ...`. -/
def fanoutFrom : Nat → List PortMap → List (Int × Int × Int)
  | _, [] => []
  | s, portMap :: rest =>
    portMap.flatMap (fun entry => entry.2.map (fun destPair => ((s : Int), destPair.1, destPair.2)))
      ++ fanoutFrom (s + 1) rest

/-- The connections `(source, destination, destination port)` recorded in the
`inputs` maps of the blocks in the slots `d, d + 1, ...`. -/
def inputsFrom : Nat → List (Option Block) → List (Int × Int × Int)
  | _, [] => []
  | d, none :: rest => inputsFrom (d + 1) rest
  | d, some block :: rest =>
    block.inputs.map (fun entry => (entry.2, (d : Int), entry.1)) ++ inputsFrom (d + 1) rest

/-- The fan-out table is the exact inverse of the `inputs` maps: both record
the same connections, each the same number of times. -/
def Consistent (g : Graph) : Prop :=
  (fanoutFrom 0 g.blockOutputs).Perm (inputsFrom 0 g.blocks)

instance (g : Graph) : Decidable (Consistent g) := by
  unfold Consistent; infer_instance

/-- Every source recorded in an `inputs` map is a non-empty slot. -/
def SourcesExist (g : Graph) : Prop :=
  ∀ slot ∈ g.blocks, ∀ b ∈ slot, ∀ entry ∈ Block.inputs b, (g.blockAt entry.2).isSome = true

instance (g : Graph) : Decidable (SourcesExist g) := by
  unfold SourcesExist; infer_instance

/-- Every block has a type of the catalogue. -/
def AllCatalogue (g : Graph) : Prop :=
  ∀ slot ∈ g.blocks, ∀ b ∈ slot,
    Block.type b ∈ ["Sum", "Gain", "UnitDelay", "Inport", "Outport"]

instance (g : Graph) : Decidable (AllCatalogue g) := by
  unfold AllCatalogue; infer_instance

/-- No connection has an `Outport` block as its source. -/
def NoOutportSource (g : Graph) : Prop :=
  ∀ slot ∈ g.blocks, ∀ b ∈ slot, ∀ entry ∈ Block.inputs b, ∀ src ∈ g.blockAt entry.2,
    Block.type src ≠ "Outport"

instance (g : Graph) : Decidable (NoOutportSource g) := by
  unfold NoOutportSource; infer_instance

/-- A connection from `s` into the block `d`. -/
def Connection (g : Graph) (s d : Int) : Prop :=
  ∃ b, g.blockAt d = some b ∧ ∃ port, (port, s) ∈ b.inputs

/-- A connection from `s` whose destination `d` is not a `UnitDelay`: the
dependencies the scheduler counts. -/
def DepEdge (g : Graph) (s d : Int) : Prop :=
  ∃ b, g.blockAt d = some b ∧ b.type ≠ "UnitDelay" ∧ ∃ port, (port, s) ∈ b.inputs

/-- The connections whose destination is not a `UnitDelay` form no directed
cycle. -/
def Acyclic (g : Graph) : Prop :=
  ∀ x, ¬ Relation.TransGen (DepEdge g) x x

/-- The dependency edges `(source, destination)` of the blocks in the slots
`d, d + 1, ...`, as a list. -/
def depEdgesFrom : Nat → List (Option Block) → List (Int × Int)
  | _, [] => []
  | d, none :: rest => depEdgesFrom (d + 1) rest
  | d, some block :: rest =>
    (if block.type = "UnitDelay" then [] else block.inputs.map (fun entry => (entry.2, (d : Int))))
      ++ depEdgesFrom (d + 1) rest

/-! ## Concrete graphs -/

/-- The scenario of the specification: the PI controller diagram. -/
def scenario : Graph :=
  { blocks :=
      [ some { id := 0, name := "setpoint", type := "Inport", params := [], inputs := [] },
        some { id := 1, name := "feedback", type := "Inport", params := [], inputs := [] },
        some { id := 2, name := "Unit_Delay1", type := "UnitDelay", params := [], inputs := [(1, 7)] },
        some { id := 3, name := "Add1", type := "Sum", params := [("Inputs", "+-")],
               inputs := [(1, 0), (2, 1)] },
        some { id := 4, name := "I_gain", type := "Gain", params := [("Gain", "2")], inputs := [(1, 3)] },
        some { id := 5, name := "P_gain", type := "Gain", params := [("Gain", "3")], inputs := [(1, 3)] },
        some { id := 6, name := "Ts", type := "Gain", params := [("Gain", "0.01")], inputs := [(1, 4)] },
        some { id := 7, name := "Add2", type := "Sum", params := [],
               inputs := [(1, 6), (2, 2)] },
        some { id := 8, name := "Add3", type := "Sum", params := [],
               inputs := [(1, 5), (2, 7)] },
        some { id := 9, name := "command", type := "Outport", params := [], inputs := [(1, 8)] } ],
    blockOutputs :=
      [ [(1, [(3, 1)])],
        [(1, [(3, 2)])],
        [(1, [(7, 2)])],
        [(1, [(4, 1), (5, 1)])],
        [(1, [(6, 1)])],
        [(1, [(8, 1)])],
        [(1, [(7, 1)])],
        [(1, [(2, 1), (8, 2)])],
        [(1, [(9, 1)])],
        [] ] }

/-- A self-loop on a `Gain` next to an `Inport` that feeds an `Outport`. -/
def maskedCycle : Graph :=
  { blocks :=
      [ some { id := 0, name := "in", type := "Inport", params := [], inputs := [] },
        some { id := 1, name := "out", type := "Outport", params := [], inputs := [(1, 0)] },
        some { id := 2, name := "g", type := "Gain", params := [("Gain", "2")], inputs := [(1, 2)] } ],
    blockOutputs := [ [(1, [(1, 1)])], [], [(1, [(2, 1)])] ] }

/-- Two `UnitDelay` blocks in series between an `Inport` and an `Outport`. -/
def delayChain : Graph :=
  { blocks :=
      [ some { id := 0, name := "in", type := "Inport", params := [], inputs := [] },
        some { id := 1, name := "D1", type := "UnitDelay", params := [], inputs := [(1, 0)] },
        some { id := 2, name := "D2", type := "UnitDelay", params := [], inputs := [(1, 1)] },
        some { id := 3, name := "out", type := "Outport", params := [], inputs := [(1, 2)] } ],
    blockOutputs := [ [(1, [(1, 1)])], [(1, [(2, 1)])], [(1, [(3, 1)])], [] ] }

/-- An `Outport` that is itself the source of a connection into a `Gain`. -/
def outportSource : Graph :=
  { blocks :=
      [ some { id := 0, name := "in", type := "Inport", params := [], inputs := [] },
        some { id := 1, name := "out", type := "Outport", params := [], inputs := [(1, 0)] },
        some { id := 2, name := "g", type := "Gain", params := [], inputs := [(1, 1)] } ],
    blockOutputs := [ [(1, [(1, 1)])], [(1, [(2, 1)])], [] ] }

/-- A `Gain` in slot 1 fed from the empty slot 0, the connection being recorded
in both directions. -/
def danglingSource : Graph :=
  { blocks :=
      [ none,
        some { id := 1, name := "g", type := "Gain", params := [], inputs := [(1, 0)] } ],
    blockOutputs := [ [(1, [(1, 1)])], [] ] }

/-- An `Inport` and an `Outport` without any connection. -/
def unconnectedOutport : Graph :=
  { blocks :=
      [ some { id := 0, name := "in", type := "Inport", params := [], inputs := [] },
        some { id := 1, name := "out", type := "Outport", params := [], inputs := [] } ],
    blockOutputs := [ [], [] ] }

/-! ## Notions used in the statements and in the proofs -/

/-- The number of entries of `b.inputs` whose source has not been scheduled. -/
def pending (b : Block) (sortedOrder : List Int) : Nat :=
  b.inputs.countP (fun entry => decide (entry.2 ∉ sortedOrder))

/-- The number of entries of the `inputs` map of the block in slot `x` whose
source is `k` (zero when the slot is empty). -/
def inputsFromSource (g : Graph) (k x : Int) : Nat :=
  match g.blockAt x with
  | some b => b.inputs.countP (fun entry => decide (entry.2 = k))
  | none => 0

/-- The invariant of the `while` loop of `topologicalSort` on a graph whose
identifiers are indices and whose fan-out table is the inverse of the inputs. -/
structure KahnInv (g : Graph) (inDegree : Int → Int) (q sortedOrder : List Int) : Prop where
  nodup : (sortedOrder ++ q).Nodup
  isBlock : ∀ k ∈ sortedOrder ++ q, ∃ b, g.blockAt k = some b
  nonBlock : ∀ k, g.blockAt k = none → inDegree k ≤ 0
  delay : ∀ k b, g.blockAt k = some b → b.type = "UnitDelay" →
    inDegree k ≤ 0 ∧ k ∈ sortedOrder ++ q
  deg : ∀ k b, g.blockAt k = some b → b.type ≠ "UnitDelay" →
    inDegree k = (pending b sortedOrder : Int)
  ready : ∀ k b, g.blockAt k = some b → b.type ≠ "UnitDelay" →
    (k ∈ sortedOrder ++ q ↔ inDegree k = 0)
  order : ∀ pre k post, sortedOrder = pre ++ k :: post → ∀ b, g.blockAt k = some b →
    b.type ≠ "UnitDelay" → ∀ entry ∈ b.inputs, entry.2 ∈ pre

/-- The initial queue: the identifiers of the blocks of initial in-degree zero,
in slot order. -/
def zeroIds (blocks : List (Option Block)) : List Int :=
  ((blocks.filterMap id).filter (fun b => decide (b.initDegree = 0))).map Block.id

/-- The assignment made by the state-update line of a block: the slot that is
written and the slot that is read. -/
def updateAssign (b : Block) (g : Graph) : Except GenError (String × String) :=
  match b.getCInputVar 1 g with
  | .error e => .error e
  | .ok v => .ok ("nwocg." ++ b.name, v)

/-- The assignments of the updating part of `genStep`, in emission order. -/
def updateAssigns (g : Graph) : List Int → Except GenError (List (String × String))
  | [] => .ok []
  | id :: ids =>
    match g.blockAt id with
    | none => .error (.emptySlot id)
    | some block =>
      match updateAssign block g with
      | .error e => .error e
      | .ok a =>
        match updateAssigns g ids with
        | .error e => .error e
        | .ok rest => .ok (a :: rest)

/-- The text `    <written> = <read>;` of an assignment. -/
def renderAssign (a : String × String) : String :=
  "    " ++ a.1 ++ " = " ++ a.2 ++ ";"

/-- Running the C statement `<written> = <read>;` on the values of the slots. -/
def execAssign (env : String → Int) (a : String × String) : String → Int :=
  fun slot => if slot = a.1 then env a.2 else env slot

/-- Running a sequence of assignments, first to last. -/
def execAssigns (env : String → Int) (l : List (String × String)) : String → Int :=
  l.foldl execAssign env

/-- The slots of the `Outport` (or `Inport`, ...) blocks: the pairs of a slot
index and the block it holds, for the blocks of type `t`, in slot order. -/
def slotsOfType (t : String) : Nat → List (Option Block) → List (Nat × Block)
  | _, [] => []
  | i, none :: rest => slotsOfType t (i + 1) rest
  | i, some b :: rest =>
    if b.type = t then (i, b) :: slotsOfType t (i + 1) rest else slotsOfType t (i + 1) rest

/-- The name of the block feeding input port 1 of `b`, when there is one. -/
def feederName (g : Graph) (b : Block) : Option String :=
  match b.inputs.lookup 1 with
  | none => none
  | some s => (g.blockAt s).map Block.name

/-- The table entry of an `Outport` block as the specification words it. -/
def outportEntry (g : Graph) (b : Block) : String :=
  "    \x7b \"" ++ b.name ++ "\", &nwocg." ++ (feederName g b).getD "" ++ ", 0 \x7d,"

/-- The table entry of an `Inport` block as the specification words it. -/
def inportEntry (b : Block) : String :=
  "    \x7b \"" ++ (match b.params.lookup "PortName" with
                   | some portName => portName
                   | none => b.name) ++ "\", &nwocg." ++ b.name ++ ", 1 \x7d,"

/-- The tail of a `Sum` expression as the specification words it: for each
input after the first, the sign character and the slot of the source. -/
def sumTail : List (Char × String) → String
  | [] => ""
  | (c, name) :: rest => " " ++ String.singleton c ++ " nwocg." ++ name ++ sumTail rest

/-- The computation line of a `Sum` block as the specification words it:
`    nwocg.<name> = nwocg.<s1> c2 nwocg.<s2> ... cn nwocg.<sn>;`. -/
def sumLineSpec (name first : String) (rest : List (Char × String)) : String :=
  "    nwocg." ++ name ++ " = nwocg." ++ first ++ sumTail rest ++ ";"

/-- The line `line` is an assignment to the slot `slot`: it starts with
`    <slot> = `. -/
def AssignsSlot (line slot : String) : Prop :=
  ("    " ++ slot ++ " = ").data <+: line.data

instance (line slot : String) : Decidable (AssignsSlot line slot) := by
  unfold AssignsSlot; infer_instance

/-- The identifier `x` names no block of the graph: it is negative, it is not
below the size of the block array, or it indexes an empty slot. -/
def Graph.missing (g : Graph) (x : Int) : Prop :=
  x < 0 ∨ (g.blocks.length : Int) ≤ x ∨ g.blocks[x.toNat]? = some none

instance (g : Graph) (x : Int) : Decidable (g.missing x) := by
  unfold Graph.missing; infer_instance

/-- The test `graph.blocks[id]->type == "UnitDelay"` of the loop that collects
`delayBlocks` (false on an empty slot, where the source has no defined value). -/
def isDelayAt (g : Graph) (k : Int) : Bool :=
  match g.blockAt k with
  | some b => decide (b.type = "UnitDelay")
  | none => false

/-- A block name with a tab in it, built by the `Block` constructor. -/
def tabBlock : Block := Block.new 0 "a\tb" "Gain"

/-- The initial counter of the identifier `x` on a graph whose identifiers are
slot indices: the initial in-degree of the block in slot `x`, zero for an
identifier that names no block. -/
def initDeg (g : Graph) (x : Int) : Int :=
  match g.blockAt x with
  | some b => b.initDegree
  | none => 0

/-- The queue discipline of the `while` loop: the sequence built so far,
followed by the queue, is the initial queue followed by the identifiers pushed
by a decrement, each of which had a positive counter `d0` at the start. -/
structure FifoInv (g : Graph) (d0 inDegree : Int → Int) (q sortedOrder : List Int) : Prop where
  le_init : ∀ x, inDegree x ≤ d0 x
  shape : ∃ pushed, sortedOrder ++ q = zeroIds g.blocks ++ pushed ∧ ∀ x ∈ pushed, 0 < d0 x

/-- No identifier is queued twice: the identifiers queued so far are pairwise
distinct and their counters are used up. -/
structure DistinctInv (inDegree : Int → Int) (q sortedOrder : List Int) : Prop where
  nodup : (sortedOrder ++ q).Nodup
  nonpos : ∀ x ∈ sortedOrder ++ q, inDegree x ≤ 0

/-- A graph whose fan-out table disagrees with the `inputs` maps: the entry
into the `Gain` is recorded twice and one entry names the empty slot 1. -/
def inconsistentFanout : Graph :=
  { blocks :=
      [ some { id := 0, name := "in", type := "Inport", params := [], inputs := [] },
        none,
        some { id := 2, name := "g", type := "Gain", params := [], inputs := [(1, 0)] } ],
    blockOutputs := [ [(1, [(2, 1), (2, 1), (1, 1)])], [], [] ] }

/-- Two `UnitDelay` blocks that carry the same identifier, fed by an `Inport`. -/
def duplicateIds : Graph :=
  { blocks :=
      [ some { id := 0, name := "a", type := "UnitDelay", params := [], inputs := [(1, 2)] },
        some { id := 0, name := "b", type := "UnitDelay", params := [], inputs := [(1, 2)] },
        some { id := 2, name := "x", type := "Inport", params := [], inputs := [] } ],
    blockOutputs := [ [], [], [(1, [(0, 1), (1, 1)])] ] }

/-! ## Loader -/

/-- The exceptions of the loader, and its undefined behaviour. -/
inductive LoadError where
  /-- `std::runtime_error("Invalid Format: Src/Dst: " + text)` of `parseEndpoint`. -/
  | invalidFormat (message : String)
  /-- `std::invalid_argument` of `std::stoi`: no digits to convert. -/
  | invalidArgument
  /-- `std::out_of_range` of `std::stoi`: the value does not fit an `int`. -/
  | outOfRange
  /-- `graph.blockOutputs[srcBlockId]` past the end of the vector. -/
  | outOfBounds (id : Int)
deriving DecidableEq, Repr

/-- `text.find(c)`: the index of the first `c`, `none` for `std::string::npos`. -/
def find (c : Char) (text : List Char) : Option Nat :=
  if text.indexOf c < text.length then some (text.indexOf c) else none

/-- `std::isspace` in the "C" locale. -/
def isspace (c : Char) : Bool :=
  c = ' ' || c = '\t' || c = '\n' || c = '\x0b' || c = '\x0c' || c = '\r'

/-- The value accumulated by the conversion over a run of decimal digits. -/
def digitsValue (ds : List Char) : Nat :=
  ds.foldl (fun acc c => 10 * acc + (c.toNat - 48)) 0

/-- `std::stoi(str)` with base 10, as the C++ standard library defines it:
leading white space is skipped, an optional sign is read, then the longest run
of decimal digits is converted and the rest of the string is ignored. -/
def stoi (str : List Char) : Except LoadError Int :=
  let s := str.dropWhile isspace
  let negative : Bool := decide (s.head? = some '-')
  let body := if s.head? = some '-' ∨ s.head? = some '+' then s.tail else s
  let ds := body.takeWhile Char.isDigit
  if ds = [] then .error .invalidArgument
  else
    let v : Int := if negative then -(digitsValue ds : Int) else (digitsValue ds : Int)
    if v < -2147483648 ∨ 2147483647 < v then .error .outOfRange
    else .ok v

/-- `XMLParser::parseEndpoint`: the pair `(blockId, port)`. -/
def parseEndpoint (text : String) : Except LoadError (Int × Int) :=
  match find '#' text.data, find ':' text.data with
  | some hash, some colon =>
    if hash > colon then .error (.invalidFormat ("Invalid Format: Src/Dst: " ++ text))
    else
      match stoi (text.data.take hash) with
      | .error e => .error e
      | .ok blockId =>
        match stoi (text.data.drop (colon + 1)) with
        | .error e => .error e
        | .ok port => .ok (blockId, port)
  | _, _ => .error (.invalidFormat ("Invalid Format: Src/Dst: " ++ text))

/-- `portMap[port].push_back(destPair)`. The iteration order of an
`unordered_map` is unspecified; a new key is put at the end. -/
def pushBack : PortMap → Int → DestPair → PortMap
  | [], port, destPair => [(port, [destPair])]
  | entry :: rest, port, destPair =>
    if entry.1 = port then (entry.1, entry.2 ++ [destPair]) :: rest
    else entry :: pushBack rest port destPair

/-- `inputs[port] = source`. The iteration order of an `unordered_map` is
unspecified; a new key is put at the end. -/
def assign : List (Int × Int) → Int → Int → List (Int × Int)
  | [], port, source => [(port, source)]
  | entry :: rest, port, source =>
    if entry.1 = port then (port, source) :: rest
    else entry :: assign rest port source

/-- The `if` statement of `XMLParser::createConnection`, on the parsed
endpoints. -/
def record (g : Graph) (srcBlockId srcPort dstBlockId dstPort : Int) : Except LoadError Graph :=
  match g.blockAt srcBlockId, g.blockAt dstBlockId with
  | some _, some dst =>
    if g.blockOutputs.length ≤ srcBlockId.toNat then .error (.outOfBounds srcBlockId)
    else .ok
      { blockOutputs := g.blockOutputs.set srcBlockId.toNat
          (pushBack (g.blockOutputs.getD srcBlockId.toNat []) srcPort (dstBlockId, dstPort)),
        blocks := g.blocks.set dstBlockId.toNat
          (some { dst with inputs := assign dst.inputs dstPort srcBlockId }) }
  | _, _ => .ok g

/-- `XMLParser::createConnection`. -/
def createConnection (srcStr dstStr : String) (g : Graph) : Except LoadError Graph :=
  match parseEndpoint srcStr with
  | .error e => .error e
  | .ok src =>
    match parseEndpoint dstStr with
    | .error e => .error e
    | .ok dst => record g src.1 src.2 dst.1 dst.2

/-- The integer written by a decimal numeral: an optional minus sign followed
by one or more decimal digits, read positionally. -/
def decimal (s : List Char) : Option Int :=
  match s with
  | [] => none
  | c :: ds =>
    if c = '-' then
      if ds ≠ [] ∧ ds.all Char.isDigit = true then
        some (-((Nat.ofDigits 10 (ds.reverse.map (fun x => x.toNat - 48)) : Nat) : Int))
      else none
    else if (c :: ds).all Char.isDigit = true then
      some ((Nat.ofDigits 10 ((c :: ds).reverse.map (fun x => x.toNat - 48)) : Nat) : Int)
    else none

/-- The values of the type `int`. -/
def IsInt (v : Int) : Prop := -2147483648 ≤ v ∧ v ≤ 2147483647

instance (v : Int) : Decidable (IsInt v) := by
  unfold IsInt; infer_instance

/-- The loop of `XMLParser::parse` over the lines of the diagram, given by
their `(Src, Dst)` texts: one call of `createConnection` each. -/
def parseLines : List (String × String) → Graph → Except LoadError Graph
  | [], g => .ok g
  | line :: rest, g =>
    match createConnection line.1 line.2 g with
    | .error e => .error e
    | .ok g1 => parseLines rest g1

/-- A graph with blocks and no connections, as `parse` leaves it before its
loop over the lines: one empty port map per slot and no recorded input. -/
def NoConnections (g : Graph) : Prop :=
  g.blockOutputs = List.replicate g.blocks.length [] ∧
    ∀ slot ∈ g.blocks, ∀ b ∈ slot, Block.inputs b = []

instance (g : Graph) : Decidable (NoConnections g) := by
  unfold NoConnections; infer_instance

/-- The connection `(source, destination, destination port)` a line records:
none when an endpoint does not parse or does not reference a block. -/
def recordedLine (g : Graph) (line : String × String) : Option (Int × Int × Int) :=
  match parseEndpoint line.1, parseEndpoint line.2 with
  | .ok src, .ok dst =>
    if (g.blockAt src.1).isSome = true ∧ (g.blockAt dst.1).isSome = true then
      some (src.1, dst.1, dst.2)
    else none
  | _, _ => none

/-- The destinations `(block, port)` of the connections the lines record. -/
def recordedDsts (g : Graph) (lines : List (String × String)) : List (Int × Int) :=
  (lines.filterMap (recordedLine g)).map (fun e => e.2)

/-- The number of times the pair `(d, q)` occurs in the fan-out lists of the
slot `s`. -/
def fanoutCount (g : Graph) (s d q : Int) : Nat :=
  ((g.outputsAt s).flatMap (fun entry => entry.2)).count (d, q)

/-- Three blocks without connections. -/
def threeBlocks : Graph :=
  { blockOutputs := [[], [], []],
    blocks := [some (Block.new 0 "a" "Inport"), some (Block.new 1 "b" "Inport"),
               some (Block.new 2 "g" "Gain")] }

/-- What the loader has established after some lines: the fan-out table and
the `inputs` maps both hold the connections `recorded`. -/
structure LoadInv (g0 : Graph) (recorded : List (Int × Int × Int)) (g : Graph) : Prop where
  len : g.blockOutputs.length = g.blocks.length
  live : ∀ x, (g.blockAt x).isSome = (g0.blockAt x).isSome
  fan : (fanoutFrom 0 g.blockOutputs).Perm recorded
  inp : (inputsFrom 0 g.blocks).Perm recorded
  keys : ∀ slot ∈ g.blocks, ∀ b ∈ slot, (Block.inputs b).map Prod.fst |>.Nodup

/-- The text `nwocg.` with which every storage slot starts. -/
def slotPrefix : List Char := ['n', 'w', 'o', 'c', 'g', '.']

/-- The characters of a C identifier: letters, digits and the underscore. -/
def isIdentChar (c : Char) : Bool := c.isAlphanum || c == '_'

/-- The storage slots that occur in a text: for every position at which the
text `nwocg.` starts, the longest run `X` of identifier characters after it. -/
def slotsIn : List Char → List String
  | [] => []
  | c :: cs =>
    if (c :: cs).take 6 = slotPrefix then
      String.mk ((cs.drop 5).takeWhile isIdentChar) :: slotsIn cs
    else slotsIn cs

/-- The right-hand side of an assignment line: the text after its first `=`. -/
def rhs (line : List Char) : List Char :=
  (line.dropWhile (fun c => c != '=')).drop 1

/-- Every block name consists of letters, digits and underscores. -/
def NamesAreIdentifiers (g : Graph) : Prop :=
  ∀ slot ∈ g.blocks, ∀ b ∈ slot, ∀ c ∈ (Block.name b).data, isIdentChar c = true

instance (g : Graph) : Decidable (NamesAreIdentifiers g) := by
  unfold NamesAreIdentifiers; infer_instance

/-- No value of the parameter `key` of a block contains the text `nwocg.`. -/
def ParamHasNoSlot (g : Graph) (key : String) : Prop :=
  ∀ slot ∈ g.blocks, ∀ b ∈ slot, ∀ v ∈ (Block.params b).lookup key, slotsIn (String.data v) = []

instance (g : Graph) (key : String) : Decidable (ParamHasNoSlot g key) := by
  unfold ParamHasNoSlot; infer_instance

/-- An `Inport` feeding a `Gain` whose `Gain` parameter is the text
`nwocg.ghost`, feeding an `Outport`. -/
def ghost : Graph :=
  { blockOutputs := [[(1, [(1, 1)])], [(1, [(2, 1)])], []],
    blocks := [
      some { id := 0, name := "in", type := "Inport", params := [], inputs := [] },
      some { id := 1, name := "g", type := "Gain", params := [("Gain", "nwocg.ghost")],
             inputs := [(1, 0)] },
      some { id := 2, name := "out", type := "Outport", params := [], inputs := [(1, 1)] }] }

end Generator

/-! # Properties -/

namespace Generator

/-! ## The relaxation loops -/

theorem relaxPorts_eq_foldl (portMap : PortMap) :
    ∀ st, relaxPorts st portMap = (dstIds portMap).foldl relax st := by
  induction portMap with
  | nil => intro st; rfl
  | cons entry rest ih =>
    intro st
    have h := ih (entry.2.foldl (fun st destPair => relax st destPair.1) st)
    simp only [relaxPorts, List.foldl_cons] at h ⊢
    rw [h]
    simp [dstIds, List.flatMap_cons, List.foldl_append, List.foldl_map]

theorem foldl_relax_deg (D : List Int) :
    ∀ (st : (Int → Int) × List Int) (x : Int),
      (D.foldl relax st).1 x = st.1 x - (D.count x : Int) := by
  induction D with
  | nil => intro st x; simp
  | cons d D ih =>
    intro st x
    rw [List.foldl_cons, ih, List.count_cons]
    by_cases hx : x = d
    · subst hx; simp [relax, setDeg]; omega
    · have hd : ¬ d = x := fun h => hx h.symm
      simp [relax, setDeg, hx, hd]

theorem foldl_relax_queue (D : List Int) :
    ∀ (st : (Int → Int) × List Int),
      ∃ added, (D.foldl relax st).2 = st.2 ++ added ∧ added.Nodup ∧
        ∀ x, x ∈ added ↔ (0 < st.1 x ∧ st.1 x ≤ (D.count x : Int)) := by
  induction D with
  | nil => intro st; exact ⟨[], by simp, List.nodup_nil, by intro x; simp⟩
  | cons d D ih =>
    intro st
    obtain ⟨added, hq, hnd, hmem⟩ := ih (relax st d)
    by_cases h1 : st.1 d - 1 = 0
    · refine ⟨d :: added, ?_, ?_, ?_⟩
      · rw [List.foldl_cons, hq]; simp [relax, h1]
      · refine List.nodup_cons.2 ⟨?_, hnd⟩
        rw [hmem]; simp [relax, setDeg, h1]
      · intro x
        rw [List.mem_cons, hmem, List.count_cons]
        by_cases hx : x = d
        · subst hx; simp [relax, setDeg]; omega
        · have hd : ¬ d = x := fun h => hx h.symm
          simp [relax, setDeg, hx, hd]
    · refine ⟨added, ?_, hnd, ?_⟩
      · rw [List.foldl_cons, hq]; simp [relax, h1]
      · intro x
        rw [hmem, List.count_cons]
        by_cases hx : x = d
        · subst hx; simp [relax, setDeg]; omega
        · have hd : ¬ d = x := fun h => hx h.symm
          simp [relax, setDeg, hx, hd]

/-! ## The scheduling loop always finishes -/

theorem countP_le_succ_of_nodup (K : List Int) (a : Int) (p q : Int → Bool) (hK : K.Nodup)
    (h : ∀ x, x ≠ a → q x = true → p x = true) : K.countP q ≤ K.countP p + 1 := by
  induction K with
  | nil => simp
  | cons k K ih =>
    have hk := List.nodup_cons.1 hK
    by_cases hka : k = a
    · subst hka
      have hle : K.countP q ≤ K.countP p :=
        List.countP_mono_left (fun x hx hq => h x (fun e => hk.1 (e ▸ hx)) hq)
      rw [List.countP_cons, List.countP_cons]
      split <;> split <;> omega
    · have := ih hk.2
      have hqp := h k hka
      rw [List.countP_cons, List.countP_cons]
      by_cases hq : q k = true
      · simp [hq, hqp hq]; omega
      · simp [hq]; split <;> omega

theorem countP_succ_le_of_nodup (K : List Int) (a : Int) (p q : Int → Bool) (hK : K.Nodup)
    (ha : a ∈ K) (hpa : p a = true) (hqa : q a = false)
    (h : ∀ x, q x = true → p x = true) : K.countP q + 1 ≤ K.countP p := by
  induction K with
  | nil => simp at ha
  | cons k K ih =>
    have hk := List.nodup_cons.1 hK
    have hle : K.countP q ≤ K.countP p := List.countP_mono_left (fun x _ hq => h x hq)
    rw [List.countP_cons, List.countP_cons]
    by_cases hka : k = a
    · subst hka; simp [hpa, hqa]; omega
    · have hmem : a ∈ K := by
        rcases List.mem_cons.1 ha with e | e
        · exact absurd e.symm hka
        · exact e
      have := ih hk.2 hmem
      by_cases hq : q k = true
      · simp [hq, h k hq]; omega
      · simp [hq]; split <;> omega

/-- One relaxation does not increase the potential of a scheduler state: the
queue length plus the number of keys of `K` whose counter is positive. -/
theorem relax_potential (K : List Int) (hK : K.Nodup) (st : (Int → Int) × List Int) (d : Int)
    (hP : ∀ x, 0 < st.1 x → x ∈ K) :
    (relax st d).2.length + K.countP (fun x => decide (0 < (relax st d).1 x))
      ≤ st.2.length + K.countP (fun x => decide (0 < st.1 x)) ∧
    ∀ x, 0 < (relax st d).1 x → x ∈ K := by
  have hmono : ∀ x, decide (0 < (relax st d).1 x) = true → decide (0 < st.1 x) = true := by
    intro x hx
    simp only [relax, setDeg, decide_eq_true_eq] at hx ⊢
    split at hx <;> [(rename_i h; subst h; omega); exact hx]
  refine ⟨?_, fun x hx => hP x (by simpa using hmono x (by simpa using hx))⟩
  by_cases h1 : st.1 d - 1 = 0
  · have hd : d ∈ K := hP d (by omega)
    have := countP_succ_le_of_nodup K d (fun x => decide (0 < st.1 x))
      (fun x => decide (0 < (relax st d).1 x)) hK hd (by simp; omega)
      (by simp [relax, setDeg, h1]) hmono
    simp only [relax, h1, if_true, List.length_append, List.length_singleton] at this ⊢
    omega
  · have : K.countP (fun x => decide (0 < (relax st d).1 x))
        ≤ K.countP (fun x => decide (0 < st.1 x)) :=
      List.countP_mono_left (fun x _ hq => hmono x hq)
    simp only [relax, h1, if_false] at this ⊢
    omega

theorem foldl_relax_potential (K : List Int) (hK : K.Nodup) (D : List Int) :
    ∀ (st : (Int → Int) × List Int), (∀ x, 0 < st.1 x → x ∈ K) →
      (D.foldl relax st).2.length + K.countP (fun x => decide (0 < (D.foldl relax st).1 x))
        ≤ st.2.length + K.countP (fun x => decide (0 < st.1 x)) ∧
      ∀ x, 0 < (D.foldl relax st).1 x → x ∈ K := by
  induction D with
  | nil => intro st hP; exact ⟨le_refl _, hP⟩
  | cons d D ih =>
    intro st hP
    obtain ⟨h1, h2⟩ := relax_potential K hK st d hP
    obtain ⟨h3, h4⟩ := ih (relax st d) h2
    exact ⟨le_trans h3 h1, h4⟩

theorem kahnLoop_finishes (g : Graph) (K : List Int) (hK : K.Nodup) :
    ∀ (fuel : Nat) (inDegree : Int → Int) (q sortedOrder : List Int),
      (∀ x, 0 < inDegree x → x ∈ K) →
      q.length + K.countP (fun x => decide (0 < inDegree x)) < fuel →
      ∃ seq, kahnLoop g fuel inDegree q sortedOrder = some seq := by
  intro fuel
  induction fuel with
  | zero => intro inDegree q sortedOrder _ h; omega
  | succ fuel ih =>
    intro inDegree q sortedOrder hP hlt
    cases q with
    | nil => exact ⟨sortedOrder, rfl⟩
    | cons id rest =>
      simp only [kahnLoop]
      rw [relaxPorts_eq_foldl]
      obtain ⟨h1, h2⟩ := foldl_relax_potential K hK (dstIds (g.outputsAt id)) (inDegree, rest) hP
      apply ih _ _ _ h2
      simp only [List.length_cons] at hlt h1 ⊢
      omega

theorem initStep_potential (K : List Int) (hK : K.Nodup) (l : List (Option Block)) :
    ∀ (st : (Int → Int) × List Int),
      (l.foldl initStep st).2.length + K.countP (fun x => decide (0 < (l.foldl initStep st).1 x))
        ≤ st.2.length + K.countP (fun x => decide (0 < st.1 x)) + l.length := by
  induction l with
  | nil => intro st; simp
  | cons slot rest ih =>
    intro st
    rw [List.foldl_cons]
    refine le_trans (ih _) ?_
    cases slot with
    | none => simp [initStep]
    | some b =>
      by_cases h0 : b.initDegree = 0
      · have : K.countP (fun x => decide (0 < (initStep st (some b)).1 x))
            ≤ K.countP (fun x => decide (0 < st.1 x)) := by
          apply List.countP_mono_left
          intro x _ hx
          simp only [initStep, setDeg, h0, decide_eq_true_eq] at hx ⊢
          split at hx <;> [omega; exact hx]
        simp only [initStep, h0, if_true, List.length_append, List.length_singleton,
          List.length_cons, List.length_nil] at this ⊢
        omega
      · have := countP_le_succ_of_nodup K b.id (fun x => decide (0 < st.1 x))
          (fun x => decide (0 < (initStep st (some b)).1 x)) hK (by
            intro x hx hq
            simpa [initStep, setDeg, hx] using hq)
        simp only [initStep, h0, if_false, List.length_cons] at this ⊢
        omega

theorem initStep_positive (l : List (Option Block)) :
    ∀ (st : (Int → Int) × List Int) (x : Int), 0 < (l.foldl initStep st).1 x →
      0 < st.1 x ∨ ∃ b, some b ∈ l ∧ b.id = x := by
  induction l with
  | nil => intro st x h; exact Or.inl h
  | cons slot rest ih =>
    intro st x h
    rw [List.foldl_cons] at h
    rcases ih _ x h with h1 | ⟨b, hb, hx⟩
    · cases slot with
      | none => exact Or.inl h1
      | some b =>
        simp only [initStep, setDeg] at h1
        split at h1
        · rename_i hxb; exact Or.inr ⟨b, by simp, hxb.symm⟩
        · exact Or.inl h1
    · exact Or.inr ⟨b, List.mem_cons_of_mem _ hb, hx⟩

/-- The `while` loop of `topologicalSort` empties its queue within
`graph.blocks.size() + 1` iterations, on every graph. -/
theorem kahnLoop_fuel_enough (g : Graph) :
    ∃ seq, kahnLoop g (g.blocks.length + 1) (initInDegree g.blocks).1 (initInDegree g.blocks).2 []
      = some seq := by
  let K : List Int := ((g.blocks.filterMap id).map Block.id).dedup
  have hK : K.Nodup := List.nodup_dedup _
  apply kahnLoop_finishes g K hK
  · intro x hx
    rcases initStep_positive g.blocks _ x hx with h | ⟨b, hb, hbx⟩
    · simp at h
    · simp only [K, List.mem_dedup, List.mem_map, List.mem_filterMap]
      exact ⟨b, ⟨some b, hb, rfl⟩, hbx⟩
  · have := initStep_potential K hK g.blocks (fun _ => 0, [])
    simp only [initInDegree]
    simp at this
    omega

theorem topologicalSort_ne_outOfFuel (g : Graph) : topologicalSort g ≠ .error .outOfFuel := by
  obtain ⟨seq, h⟩ := kahnLoop_fuel_enough g
  unfold topologicalSort
  simp only [h]
  split <;> simp

/-! ## Errors of the emitter abort `generate` -/

theorem extPortsLoop_ok_outport (g : Graph) :
    ∀ (slots : List (Option Block)) (o i : List String) (r : List String × List String),
      extPortsLoop g slots o i = .ok r →
      ∀ b, some b ∈ slots → b.type = "Outport" → b.inputs.lookup 1 ≠ none := by
  intro slots
  induction slots with
  | nil => intro o i r _ b hb; simp at hb
  | cons slot rest ih =>
    intro o i r h b hb hty
    cases slot with
    | none =>
      simp only [extPortsLoop] at h
      simp at hb
      exact ih o i r h b hb hty
    | some blk =>
      simp only [extPortsLoop] at h
      rcases List.mem_cons.1 hb with heq | hmem
      · have hbb : blk = b := by simpa using heq.symm
        subst hbb
        have hne : ¬ blk.type = "Inport" := by rw [hty]; decide
        rw [if_neg hne, if_pos hty] at h
        intro hnone
        simp [outportLine, hnone] at h
      · split at h
        · exact ih _ _ r h b hmem hty
        · split at h
          · cases hol : outportLine g blk with
            | error e => simp [hol] at h
            | ok l => rw [hol] at h; exact ih _ _ r h b hmem hty
          · exact ih _ _ r h b hmem hty

theorem generate_ok_genExtPorts (g : Graph) (lines : List String) (h : generate g = .ok lines) :
    ∃ portLines, genExtPorts g = .ok portLines := by
  unfold generate at h
  cases h1 : topologicalSort g with
  | error e => simp [h1] at h
  | ok sorted =>
    cases h2 : collectDelayBlocks g sorted with
    | error e => simp [h1, h2] at h
    | ok delay =>
      cases h3 : genStruct g sorted with
      | error e => simp [h1, h2, h3] at h
      | ok sl =>
        cases h4 : genInit g delay with
        | error e => simp [h1, h2, h3, h4] at h
        | ok il =>
          cases h5 : genStep g sorted delay with
          | error e => simp [h1, h2, h3, h4, h5] at h
          | ok stl =>
            cases h6 : genExtPorts g with
            | error e => simp [h1, h2, h3, h4, h5, h6] at h
            | ok pl => exact ⟨pl, rfl⟩

/-- C6: a graph that contains an `Outport` block with no source recorded for
input port 1 makes `generate` fail, and no output file is written. -/
theorem generate_fails_on_unconnected_outport (g : Graph) (b : Block)
    (hb : some b ∈ g.blocks) (hty : b.type = "Outport") (hin : b.inputs.lookup 1 = none) :
    (∃ e, generate g = .error e) ∧ writtenFile g = none := by
  have hno : ∀ lines, generate g ≠ .ok lines := by
    intro lines h
    obtain ⟨pl, hpl⟩ := generate_ok_genExtPorts g lines h
    unfold genExtPorts at hpl
    cases hl : extPortsLoop g g.blocks [] [] with
    | error e => simp [hl] at hpl
    | ok r => exact extPortsLoop_ok_outport g g.blocks [] [] r hl b hb hty hin
  cases hg : generate g with
  | ok lines => exact absurd hg (hno lines)
  | error e => exact ⟨⟨e, rfl⟩, by simp [writtenFile, hg]⟩

theorem generate_fails_on_unconnected_outport_witness :
    (∃ e, generate unconnectedOutport = .error e) ∧ writtenFile unconnectedOutport = none :=
  generate_fails_on_unconnected_outport unconnectedOutport
    { id := 1, name := "out", type := "Outport", params := [], inputs := [] }
    (by decide) (by decide) (by decide)

/-- C7: on the scenario of the specification `generate` succeeds and emits
exactly the 44 lines of `nwocg_generated.c`. -/
theorem generate_scenario :
    generate scenario = .ok
      [ "#include \"nwocg_run.h\"",
        "",
        "#include <math.h>",
        "",
        "static struct",
        "\x7b",
        "    double setpoint;",
        "    double feedback;",
        "    double Unit_Delay1;",
        "    double Add1;",
        "    double I_gain;",
        "    double P_gain;",
        "    double Ts;",
        "    double Add2;",
        "    double Add3;",
        "\x7d nwocg;",
        "",
        "void nwocg_generated_init()",
        "\x7b",
        "    nwocg.Unit_Delay1 = 0.0;",
        "\x7d",
        "",
        "void nwocg_generated_step()",
        "\x7b",
        "    nwocg.Add1 = nwocg.setpoint - nwocg.feedback;",
        "    nwocg.I_gain = nwocg.Add1 * 2;",
        "    nwocg.P_gain = nwocg.Add1 * 3;",
        "    nwocg.Ts = nwocg.I_gain * 0.01;",
        "    nwocg.Add2 = nwocg.Ts + nwocg.Unit_Delay1;",
        "    nwocg.Add3 = nwocg.P_gain + nwocg.Add2;",
        "",
        "    // Update delay blocks state",
        "    nwocg.Unit_Delay1 = nwocg.Add2;",
        "\x7d",
        "",
        "static const nwocg_ExtPort ext_ports[] = \x7b",
        "    \x7b \"command\", &nwocg.Add3, 0 \x7d,",
        "    \x7b \"setpoint\", &nwocg.setpoint, 1 \x7d,",
        "    \x7b \"feedback\", &nwocg.feedback, 1 \x7d,",
        "    \x7b 0, 0, 0 \x7d",
        "\x7d;",
        "",
        "const nwocg_ExtPort* const nwocg_generated_ext_ports = ext_ports;",
        "const size_t nwocg_generated_ext_ports_size = sizeof(ext_ports);" ] := by
  rfl

theorem countP_add_eq {α : Type} (l : List α) (p1 p2 p3 : α → Bool)
    (h : ∀ x ∈ l, (if p1 x then 1 else 0) + (if p2 x then 1 else 0)
      = (if p3 x then 1 else 0 : Nat)) :
    l.countP p1 + l.countP p2 = l.countP p3 := by
  induction l with
  | nil => simp
  | cons e l ih =>
    have h1 := h e (List.mem_cons_self _ _)
    have h2 := ih (fun x hx => h x (List.mem_cons_of_mem _ hx))
    rw [List.countP_cons, List.countP_cons, List.countP_cons]
    omega

theorem pending_append (b : Block) (sortedOrder : List Int) (k : Int) (hk : k ∉ sortedOrder) :
    pending b (sortedOrder ++ [k]) + b.inputs.countP (fun entry => decide (entry.2 = k))
      = pending b sortedOrder := by
  unfold pending
  apply countP_add_eq
  intro e _
  by_cases h1 : e.2 ∈ sortedOrder
  · have h2 : e.2 ≠ k := fun h => hk (h ▸ h1)
    simp [h1, h2]
  · by_cases h2 : e.2 = k
    · simp [h2, hk]
    · simp [h1, h2]

theorem pending_eq_zero (b : Block) (sortedOrder : List Int) (h : pending b sortedOrder = 0) :
    ∀ entry ∈ b.inputs, entry.2 ∈ sortedOrder := by
  intro entry he
  unfold pending at h
  rw [List.countP_eq_zero] at h
  have := h entry he
  simpa using this

theorem pending_pos (b : Block) (sortedOrder : List Int) (h : pending b sortedOrder ≠ 0) :
    ∃ entry ∈ b.inputs, entry.2 ∉ sortedOrder := by
  by_contra hne
  apply h
  unfold pending
  rw [List.countP_eq_zero]
  intro e he
  simp only [decide_eq_true_eq, not_not]
  by_contra hc
  exact hne ⟨e, he, hc⟩

theorem kahnInv_step (g : Graph) (inDegree : Int → Int) (k : Int) (rest sortedOrder : List Int)
    (hLC : ∀ x, (dstIds (g.outputsAt k)).count x = inputsFromSource g k x)
    (inv : KahnInv g inDegree (k :: rest) sortedOrder) :
    KahnInv g (relaxPorts (inDegree, rest) (g.outputsAt k)).1
      (relaxPorts (inDegree, rest) (g.outputsAt k)).2 (sortedOrder ++ [k]) := by
  rw [relaxPorts_eq_foldl]
  obtain ⟨added, hq, hnd, hmem⟩ := foldl_relax_queue (dstIds (g.outputsAt k)) (inDegree, rest)
  have hdeg := foldl_relax_deg (dstIds (g.outputsAt k)) (inDegree, rest)
  simp only at hq hmem hdeg
  rw [hq]
  have hkns : k ∉ sortedOrder := by
    have := inv.nodup
    rw [List.nodup_append] at this
    intro hk
    exact this.2.2 hk (List.mem_cons_self _ _)
  -- a block that is pushed now was not in the queue or the result before
  have hadded : ∀ x ∈ added, ∃ b, g.blockAt x = some b ∧ b.type ≠ "UnitDelay" ∧
      x ∉ sortedOrder ++ k :: rest := by
    intro x hx
    have hpos := ((hmem x).1 hx).1
    cases hb : g.blockAt x with
    | none => have := inv.nonBlock x hb; omega
    | some b =>
      have hty : b.type ≠ "UnitDelay" := by
        intro hty
        have := (inv.delay x b hb hty).1
        omega
      refine ⟨b, rfl, hty, ?_⟩
      intro hin
      have := (inv.ready x b hb hty).1 hin
      omega
  have hall : ∀ x, x ∈ (sortedOrder ++ [k]) ++ (rest ++ added) ↔
      (x ∈ sortedOrder ++ k :: rest ∨ x ∈ added) := by
    intro x; simp only [List.mem_append, List.mem_cons, List.mem_singleton, List.not_mem_nil,
      or_false]; tauto
  -- the counter of a block that is not a delay, after the relaxations
  have hdeg2 : ∀ x b, g.blockAt x = some b → b.type ≠ "UnitDelay" →
      inDegree x - ((dstIds (g.outputsAt k)).count x : Int)
        = (pending b (sortedOrder ++ [k]) : Int) := by
    intro x b hb hty
    have h1 := inv.deg x b hb hty
    have h2 := pending_append b sortedOrder k hkns
    have h3 := hLC x
    simp only [inputsFromSource, hb] at h3
    omega
  refine ⟨?_, ?_, ?_, ?_, ?_, ?_, ?_⟩
  · -- nodup
    have h0 := inv.nodup
    have : (sortedOrder ++ [k]) ++ (rest ++ added) = (sortedOrder ++ k :: rest) ++ added := by simp
    rw [this, List.nodup_append]
    refine ⟨h0, hnd, ?_⟩
    intro x hx1 hx2
    obtain ⟨b, _, _, hnot⟩ := hadded x hx2
    exact hnot hx1
  · -- isBlock
    intro x hx
    rcases (hall x).1 hx with h | h
    · exact inv.isBlock x h
    · obtain ⟨b, hb, _⟩ := hadded x h
      exact ⟨b, hb⟩
  · -- nonBlock
    intro x hx
    rw [hdeg]
    have := inv.nonBlock x hx
    omega
  · -- delay
    intro x b hb hty
    have := inv.delay x b hb hty
    refine ⟨?_, (hall x).2 (Or.inl this.2)⟩
    rw [hdeg]; omega
  · -- deg
    intro x b hb hty
    rw [hdeg]
    exact hdeg2 x b hb hty
  · -- ready
    intro x b hb hty
    rw [hdeg, hall]
    have h1 := inv.deg x b hb hty
    have h2 := hdeg2 x b hb hty
    have h3 := inv.ready x b hb hty
    have h4 := hmem x
    constructor
    · rintro (h | h)
      · have := h3.1 h; omega
      · have := h4.1 h; omega
    · intro h
      by_cases h0 : inDegree x = 0
      · exact Or.inl (h3.2 h0)
      · exact Or.inr (h4.2 (by omega))
  · -- order
    intro pre x post hsplit b hb hty entry he
    rcases List.eq_nil_or_concat post with hp | ⟨post', y, hp⟩
    · subst hp
      have := List.append_inj' hsplit (by simp)
      obtain ⟨h1, h2⟩ := this
      have hx : k = x := by simpa using h2
      subst hx; subst h1
      have hin : k ∈ sortedOrder ++ k :: rest := by simp
      have h0 := (inv.ready k b hb hty).1 hin
      have hd := inv.deg k b hb hty
      exact pending_eq_zero b sortedOrder (by omega) entry he
    · subst hp
      have : sortedOrder ++ [k] = (pre ++ x :: post') ++ [y] := by
        rw [hsplit]; simp
      have := List.append_inj' this (by simp)
      exact inv.order pre x post' this.1 b hb hty entry he

theorem kahnLoop_inv (g : Graph)
    (hLC : ∀ k x, (dstIds (g.outputsAt k)).count x = inputsFromSource g k x) :
    ∀ (fuel : Nat) (inDegree : Int → Int) (q sortedOrder seq : List Int),
      KahnInv g inDegree q sortedOrder →
      kahnLoop g fuel inDegree q sortedOrder = some seq →
      ∃ inDegree', KahnInv g inDegree' [] seq := by
  intro fuel
  induction fuel with
  | zero => intro inDegree q sortedOrder seq _ h; simp [kahnLoop] at h
  | succ fuel ih =>
    intro inDegree q sortedOrder seq inv h
    cases q with
    | nil =>
      simp only [kahnLoop, Option.some.injEq] at h
      subst h
      exact ⟨inDegree, inv⟩
    | cons k rest =>
      simp only [kahnLoop] at h
      exact ih _ _ _ seq (kahnInv_step g inDegree k rest sortedOrder (hLC k) inv) h

/-! ## Graphs whose identifiers are slot indices -/

theorem blockAt_eq_some (g : Graph) (x : Int) (b : Block) :
    g.blockAt x = some b ↔ 0 ≤ x ∧ g.blocks[x.toNat]? = some (some b) := by
  unfold Graph.blockAt
  rw [List.getD_eq_getElem?_getD]
  by_cases hx : x < 0
  · simp [hx]
  · simp only [hx, if_false]
    constructor
    · intro h
      refine ⟨by omega, ?_⟩
      cases hg : g.blocks[x.toNat]? with
      | none => simp [hg] at h
      | some slot => simp [hg] at h; simp [h]
    · rintro ⟨_, h⟩
      simp [h]

theorem blockAt_of_ids (g : Graph) (hid : IdsAreIndices g) (x : Int) (b : Block)
    (h : g.blockAt x = some b) : b.id = x ∧ some b ∈ g.blocks := by
  obtain ⟨h0, h1⟩ := (blockAt_eq_some g x b).1 h
  have := hid (x.toNat, some b) (List.mk_mem_enum_iff_getElem?.2 h1) b rfl
  refine ⟨?_, List.mem_iff_getElem?.2 ⟨_, h1⟩⟩
  simp only at this
  omega

theorem blockAt_of_mem (g : Graph) (hid : IdsAreIndices g) (b : Block)
    (h : some b ∈ g.blocks) : g.blockAt b.id = some b := by
  obtain ⟨n, hn⟩ := List.mem_iff_getElem?.1 h
  have := hid (n, some b) (List.mk_mem_enum_iff_getElem?.2 hn) b rfl
  simp only at this
  rw [blockAt_eq_some, this]
  exact ⟨by omega, by simpa using hn⟩

theorem ids_ascending_from (l : List (Option Block)) :
    ∀ (i : Int), (∀ (n : Nat) (b : Block), l[n]? = some (some b) → b.id = i + n) →
      ((l.filterMap id).map Block.id).Pairwise (· < ·) ∧
      ∀ y ∈ (l.filterMap id).map Block.id, i ≤ y := by
  induction l with
  | nil => intro i _; simp
  | cons slot rest ih =>
    intro i h
    have hrest : ∀ (n : Nat) (b : Block), rest[n]? = some (some b) → b.id = (i + 1) + n := by
      intro n b hn
      have := h (n + 1) b (by simpa using hn)
      push_cast at this
      omega
    obtain ⟨h1, h2⟩ := ih (i + 1) hrest
    cases slot with
    | none =>
      simp only [List.filterMap_cons, id]
      exact ⟨h1, fun y hy => by have := h2 y hy; omega⟩
    | some b =>
      have hb : b.id = i := by simpa using h 0 b (by simp)
      simp only [List.filterMap_cons, id, List.map_cons, List.pairwise_cons, List.mem_cons]
      refine ⟨⟨fun y hy => ?_, h1⟩, fun y hy => ?_⟩
      · have := h2 y hy; omega
      · rcases hy with hy | hy
        · omega
        · have := h2 y hy; omega

theorem ids_ascending (g : Graph) (hid : IdsAreIndices g) :
    ((g.blocks.filterMap id).map Block.id).Pairwise (· < ·) := by
  refine (ids_ascending_from g.blocks 0 ?_).1
  intro n b hn
  have := hid (n, some b) (List.mk_mem_enum_iff_getElem?.2 hn) b rfl
  simp only at this
  omega

theorem ids_nodup (g : Graph) (hid : IdsAreIndices g) :
    ((g.blocks.filterMap id).map Block.id).Nodup :=
  (ids_ascending g hid).imp (fun h => ne_of_lt h)

/-! ## The initialisation loop -/

theorem foldl_initStep_queue (l : List (Option Block)) :
    ∀ st : (Int → Int) × List Int, (l.foldl initStep st).2 = st.2 ++ zeroIds l := by
  induction l with
  | nil => intro st; simp [zeroIds]
  | cons slot rest ih =>
    intro st
    rw [List.foldl_cons, ih]
    cases slot with
    | none => simp [initStep, zeroIds]
    | some b =>
      by_cases h0 : b.initDegree = 0
      · simp [initStep, zeroIds, h0, List.filter_cons]
      · simp [initStep, zeroIds, h0, List.filter_cons]

theorem foldl_initStep_other (l : List (Option Block)) :
    ∀ (st : (Int → Int) × List Int) (x : Int), (∀ b, some b ∈ l → b.id ≠ x) →
      (l.foldl initStep st).1 x = st.1 x := by
  induction l with
  | nil => intro st x _; rfl
  | cons slot rest ih =>
    intro st x h
    rw [List.foldl_cons, ih _ x (fun b hb => h b (List.mem_cons_of_mem _ hb))]
    cases slot with
    | none => rfl
    | some b =>
      have := h b (List.mem_cons_self _ _)
      simp [initStep, setDeg, Ne.symm this]

theorem foldl_initStep_block (l : List (Option Block)) :
    ∀ (st : (Int → Int) × List Int), ((l.filterMap id).map Block.id).Nodup →
      ∀ b, some b ∈ l → (l.foldl initStep st).1 b.id = b.initDegree := by
  induction l with
  | nil => intro st _ b hb; simp at hb
  | cons slot rest ih =>
    intro st hnd b hb
    rw [List.foldl_cons]
    cases slot with
    | none =>
      simp only [List.filterMap_cons, id] at hnd
      have hb' : some b ∈ rest := by simpa using hb
      exact ih _ hnd b hb'
    | some c =>
      simp only [List.filterMap_cons, id, List.map_cons, List.nodup_cons] at hnd
      by_cases hmem : some b ∈ rest
      · exact ih _ hnd.2 b hmem
      · have hbc : c = b := by
          rcases List.mem_cons.1 hb with h | h
          · exact (Option.some.inj h).symm
          · exact absurd h hmem
        subst hbc
        rw [foldl_initStep_other]
        · simp [initStep, setDeg]
        · intro b' hb' heq
          apply hnd.1
          rw [← heq]
          exact List.mem_map.2 ⟨b', List.mem_filterMap.2 ⟨some b', hb', rfl⟩, rfl⟩

theorem mem_zeroIds (l : List (Option Block)) (x : Int) :
    x ∈ zeroIds l ↔ ∃ b, some b ∈ l ∧ b.initDegree = 0 ∧ b.id = x := by
  simp only [zeroIds, List.mem_map, List.mem_filter, List.mem_filterMap, id, decide_eq_true_eq]
  constructor
  · rintro ⟨b, ⟨⟨slot, hs, rfl⟩, h0⟩, hx⟩
    exact ⟨b, hs, h0, hx⟩
  · rintro ⟨b, hs, h0, hx⟩
    exact ⟨b, ⟨⟨some b, hs, rfl⟩, h0⟩, hx⟩

theorem initDegree_eq_zero_of_delay (b : Block) (h : b.type = "UnitDelay") : b.initDegree = 0 := by
  simp [Block.initDegree, h]

theorem initDegree_of_not_delay (b : Block) (h : b.type ≠ "UnitDelay") :
    b.initDegree = (b.inputs.length : Int) := by
  simp [Block.initDegree, h]

theorem pending_nil (b : Block) : pending b [] = b.inputs.length := by
  simp [pending]

theorem kahnInv_init (g : Graph) (hid : IdsAreIndices g) :
    KahnInv g (initInDegree g.blocks).1 (initInDegree g.blocks).2 [] := by
  have hq : (initInDegree g.blocks).2 = zeroIds g.blocks := by
    simp [initInDegree, foldl_initStep_queue]
  have hnd := ids_nodup g hid
  have hdeg : ∀ x b, g.blockAt x = some b → (initInDegree g.blocks).1 x = b.initDegree := by
    intro x b hb
    obtain ⟨h1, h2⟩ := blockAt_of_ids g hid x b hb
    rw [← h1]
    exact foldl_initStep_block g.blocks _ hnd b h2
  have hzero : ∀ x b, g.blockAt x = some b → (x ∈ zeroIds g.blocks ↔ b.initDegree = 0) := by
    intro x b hb
    obtain ⟨h1, h2⟩ := blockAt_of_ids g hid x b hb
    rw [mem_zeroIds]
    constructor
    · rintro ⟨b', hb', h0, hx⟩
      have := blockAt_of_mem g hid b' hb'
      rw [hx, hb] at this
      cases this
      exact h0
    · intro h0
      exact ⟨b, h2, h0, h1⟩
  rw [hq]
  refine ⟨?_, ?_, ?_, ?_, ?_, ?_, ?_⟩
  · simp only [List.nil_append]
    exact List.Nodup.sublist (List.Sublist.map _ (List.filter_sublist _)) hnd
  · intro x hx
    simp only [List.nil_append] at hx
    obtain ⟨b, hb, _, hbx⟩ := (mem_zeroIds _ _).1 hx
    exact ⟨b, hbx ▸ blockAt_of_mem g hid b hb⟩
  · intro x hx
    have : (initInDegree g.blocks).1 x = 0 := by
      unfold initInDegree
      rw [foldl_initStep_other]
      intro b hb heq
      have := blockAt_of_mem g hid b hb
      rw [heq, hx] at this
      cases this
    omega
  · intro x b hb hty
    have h0 := initDegree_eq_zero_of_delay b hty
    refine ⟨by rw [hdeg x b hb, h0], ?_⟩
    simp only [List.nil_append]
    exact (hzero x b hb).2 h0
  · intro x b hb hty
    rw [hdeg x b hb, initDegree_of_not_delay b hty, pending_nil]
  · intro x b hb _
    simp only [List.nil_append]
    rw [hzero x b hb, hdeg x b hb]
  · intro pre x post h
    simp at h

/-! ## The fan-out table as the inverse of the inputs -/

theorem countP_fanout_slot (k x : Int) (s : Nat) (portMap : PortMap) :
    (portMap.flatMap (fun entry => entry.2.map
        (fun destPair => ((s : Int), destPair.1, destPair.2)))).countP
      (fun e : Int × Int × Int => decide (e.1 = k ∧ e.2.1 = x))
      = if (s : Int) = k then (dstIds portMap).count x else 0 := by
  induction portMap with
  | nil => simp [dstIds]
  | cons entry rest ih =>
    rw [List.flatMap_cons, List.countP_append, ih]
    have hin : (entry.2.map (fun destPair => ((s : Int), destPair.1, destPair.2))).countP
        (fun e : Int × Int × Int => decide (e.1 = k ∧ e.2.1 = x))
        = if (s : Int) = k then (entry.2.map Prod.fst).count x else 0 := by
      induction entry.2 with
      | nil => simp
      | cons dp l ih2 =>
        rw [List.map_cons, List.countP_cons, ih2, List.map_cons, List.count_cons]
        by_cases hs : (s : Int) = k <;> simp [hs]
    rw [hin]
    simp only [dstIds, List.flatMap_cons, List.count_append]
    split <;> simp

theorem countP_fanoutFrom (k x : Int) (l : List PortMap) :
    ∀ s : Nat, (fanoutFrom s l).countP (fun e : Int × Int × Int => decide (e.1 = k ∧ e.2.1 = x))
      = if (s : Int) ≤ k then (dstIds (l.getD (k - s).toNat [])).count x else 0 := by
  induction l with
  | nil => intro s; simp [fanoutFrom, dstIds]
  | cons portMap rest ih =>
    intro s
    rw [fanoutFrom, List.countP_append, countP_fanout_slot, ih]
    rcases lt_trichotomy (s : Int) k with h | h | h
    · have h1 : ¬ (s : Int) = k := by omega
      have h2 : ((s + 1 : Nat) : Int) ≤ k := by push_cast; omega
      have h3 : (s : Int) ≤ k := by omega
      have h4 : (k - (s : Int)).toNat = (k - ((s + 1 : Nat) : Int)).toNat + 1 := by
        push_cast; omega
      rw [if_neg h1, if_pos h2, if_pos h3, h4, List.getD_cons_succ]
      simp
    · have h2 : ¬ ((s + 1 : Nat) : Int) ≤ k := by push_cast; omega
      have h3 : (s : Int) ≤ k := by omega
      have h4 : (k - (s : Int)).toNat = 0 := by omega
      rw [if_pos h, if_neg h2, if_pos h3, h4, List.getD_cons_zero]
      simp
    · have h1 : ¬ (s : Int) = k := by omega
      have h2 : ¬ ((s + 1 : Nat) : Int) ≤ k := by push_cast; omega
      have h3 : ¬ (s : Int) ≤ k := by omega
      rw [if_neg h1, if_neg h2, if_neg h3]

theorem countP_inputs_slot (k x : Int) (d : Nat) (b : Block) :
    (b.inputs.map (fun entry => (entry.2, (d : Int), entry.1))).countP
      (fun e : Int × Int × Int => decide (e.1 = k ∧ e.2.1 = x))
      = if (d : Int) = x then b.inputs.countP (fun entry => decide (entry.2 = k)) else 0 := by
  induction b.inputs with
  | nil => simp
  | cons e l ih =>
    rw [List.map_cons, List.countP_cons, ih, List.countP_cons]
    by_cases hd : (d : Int) = x <;> simp [hd]

theorem countP_inputsFrom (k x : Int) (l : List (Option Block)) :
    ∀ d : Nat, (inputsFrom d l).countP (fun e : Int × Int × Int => decide (e.1 = k ∧ e.2.1 = x))
      = if (d : Int) ≤ x then
          (match l.getD (x - d).toNat none with
           | some b => b.inputs.countP (fun entry => decide (entry.2 = k))
           | none => 0)
        else 0 := by
  induction l with
  | nil => intro d; simp [inputsFrom]
  | cons slot rest ih =>
    intro d
    have hrest := ih (d + 1)
    rcases lt_trichotomy (d : Int) x with h | h | h
    · have h2 : ((d + 1 : Nat) : Int) ≤ x := by push_cast; omega
      have h3 : (d : Int) ≤ x := by omega
      have h4 : (x - (d : Int)).toNat = (x - ((d + 1 : Nat) : Int)).toNat + 1 := by
        push_cast; omega
      rw [if_pos h2] at hrest
      rw [if_pos h3, h4, List.getD_cons_succ, ← hrest]
      cases slot with
      | none => simp [inputsFrom]
      | some b =>
        have h1 : ¬ (d : Int) = x := by omega
        rw [inputsFrom, List.countP_append, countP_inputs_slot, if_neg h1]
        simp
    · have h2 : ¬ ((d + 1 : Nat) : Int) ≤ x := by push_cast; omega
      have h3 : (d : Int) ≤ x := by omega
      have h4 : (x - (d : Int)).toNat = 0 := by omega
      rw [if_neg h2] at hrest
      rw [if_pos h3, h4, List.getD_cons_zero]
      cases slot with
      | none => rw [inputsFrom, hrest]
      | some b =>
        rw [inputsFrom, List.countP_append, countP_inputs_slot, if_pos h, hrest]
        simp
    · have h2 : ¬ ((d + 1 : Nat) : Int) ≤ x := by push_cast; omega
      have h3 : ¬ (d : Int) ≤ x := by omega
      rw [if_neg h2] at hrest
      rw [if_neg h3]
      cases slot with
      | none => rw [inputsFrom, hrest]
      | some b =>
        have h1 : ¬ (d : Int) = x := by omega
        rw [inputsFrom, List.countP_append, countP_inputs_slot, if_neg h1, hrest]

theorem consistent_local (g : Graph) (hc : Consistent g) (k x : Int) :
    (dstIds (g.outputsAt k)).count x = inputsFromSource g k x := by
  have h := List.Perm.countP_eq (fun e : Int × Int × Int => decide (e.1 = k ∧ e.2.1 = x)) hc
  rw [countP_fanoutFrom, countP_inputsFrom] at h
  simp only [Nat.cast_zero, sub_zero] at h
  unfold inputsFromSource Graph.outputsAt Graph.blockAt
  by_cases hk : k < 0
  · by_cases hx : x < 0
    · simp [hk, hx, dstIds]
    · have hx' : (0 : Int) ≤ x := by omega
      have hk' : ¬ (0 : Int) ≤ k := by omega
      rw [if_neg hk', if_pos hx'] at h
      simp only [hk, hx, if_true, if_false]
      have h0 : (dstIds ([] : PortMap)).count x = 0 := by simp [dstIds]
      rw [h0]; exact h
  · have hk' : (0 : Int) ≤ k := by omega
    by_cases hx : x < 0
    · have hx' : ¬ (0 : Int) ≤ x := by omega
      rw [if_pos hk', if_neg hx'] at h
      simp only [hk, hx, if_true, if_false]
      exact h
    · have hx' : (0 : Int) ≤ x := by omega
      rw [if_pos hk', if_pos hx'] at h
      simp only [hk, hx, if_false]
      exact h

/-! ## The ordering returned by `topologicalSort` -/

theorem topologicalSort_ok (g : Graph) (seq : List Int) (h : topologicalSort g = .ok seq) :
    kahnLoop g (g.blocks.length + 1) (initInDegree g.blocks).1 (initInDegree g.blocks).2 []
      = some seq ∧ ¬ seq.length < totalBlocksInLogic g := by
  unfold topologicalSort at h
  cases hk : kahnLoop g (g.blocks.length + 1) (initInDegree g.blocks).1
      (initInDegree g.blocks).2 [] with
  | none => simp [hk] at h
  | some s =>
    simp only [hk] at h
    split at h
    · cases h
    · cases h; exact ⟨rfl, by assumption⟩

theorem topologicalSort_inv (g : Graph) (seq : List Int) (hid : IdsAreIndices g)
    (hc : Consistent g) (h : topologicalSort g = .ok seq) :
    ∃ inDegree, KahnInv g inDegree [] seq :=
  kahnLoop_inv g (consistent_local g hc) _ _ _ _ seq (kahnInv_init g hid)
    (topologicalSort_ok g seq h).1

theorem sources_before (g : Graph) (seq : List Int) (hid : IdsAreIndices g)
    (hc : Consistent g) (hs : topologicalSort g = .ok seq)
    (j : Nat) (B : Block) (hj : seq[j]? = some B.id) (hB : g.blockAt B.id = some B)
    (hk : B.type ≠ "UnitDelay") (entry : Int × Int) (he : entry ∈ B.inputs) :
    ∃ i, i < j ∧ seq[i]? = some entry.2 := by
  obtain ⟨inDegree, inv⟩ := topologicalSort_inv g seq hid hc hs
  obtain ⟨hlt, hget⟩ := List.getElem?_eq_some.1 hj
  have hsplit : seq = seq.take j ++ B.id :: seq.drop (j + 1) := by
    rw [← hget, ← List.drop_eq_getElem_cons hlt, List.take_append_drop]
  have hmem := inv.order _ _ _ hsplit B hB hk entry he
  obtain ⟨i, hi⟩ := List.mem_iff_getElem?.1 hmem
  rw [List.getElem?_take] at hi
  split at hi
  · exact ⟨i, by assumption, hi⟩
  · cases hi

/-- C1: on a graph whose identifiers are the slot indices and whose fan-out
table is the exact inverse of the `inputs` maps, in every sequence returned by
`topologicalSort` each source of a block that is not a `UnitDelay` stands at a
strictly smaller position than the block. -/
theorem topologicalSort_sources_first (g : Graph) (seq : List Int)
    (hid : IdsAreIndices g) (hc : Consistent g) (hs : topologicalSort g = .ok seq)
    (j : Nat) (B : Block) (hB : some B ∈ g.blocks) (hj : seq[j]? = some B.id)
    (hk : B.type ≠ "UnitDelay") (port S : Int) (he : (port, S) ∈ B.inputs) :
    ∃ i, i < j ∧ seq[i]? = some S :=
  sources_before g seq hid hc hs j B hj (blockAt_of_mem g hid B hB) hk (port, S) he

theorem topologicalSort_sources_first_witness :
    ∃ i, i < 7 ∧ ([0, 1, 2, 3, 4, 5, 6, 7, 8, 9] : List Int)[i]? = some 2 :=
  topologicalSort_sources_first scenario [0, 1, 2, 3, 4, 5, 6, 7, 8, 9]
    (by decide) (by decide) (by rfl) 7
    { id := 7, name := "Add2", type := "Sum", params := [], inputs := [(1, 6), (2, 2)] }
    (by decide) (by rfl) (by decide) 2 2 (by decide)

/-! ## Acyclic graphs are scheduled completely -/

theorem mem_depEdgesFrom (l : List (Option Block)) :
    ∀ (i n : Nat) (b : Block) (port s : Int), l[n]? = some (some b) → b.type ≠ "UnitDelay" →
      (port, s) ∈ b.inputs → (s, ((i + n : Nat) : Int)) ∈ depEdgesFrom i l := by
  induction l with
  | nil => intro i n b port s h; simp at h
  | cons slot rest ih =>
    intro i n b port s h hty he
    cases n with
    | zero =>
      have hs : slot = some b := by simpa using h
      subst hs
      simp only [depEdgesFrom, if_neg hty, List.mem_append, List.mem_map]
      exact Or.inl ⟨(port, s), he, by simp⟩
    | succ n =>
      have hr : rest[n]? = some (some b) := by simpa using h
      have := ih (i + 1) n b port s hr hty he
      have hidx : i + 1 + n = i + (n + 1) := by omega
      rw [hidx] at this
      cases slot with
      | none => simpa [depEdgesFrom] using this
      | some c =>
        simp only [depEdgesFrom, List.mem_append]
        exact Or.inr this

theorem depEdge_mem (g : Graph) (s d : Int) (h : DepEdge g s d) :
    (s, d) ∈ depEdgesFrom 0 g.blocks := by
  obtain ⟨b, hb, hty, port, he⟩ := h
  obtain ⟨h0, h1⟩ := (blockAt_eq_some g d b).1 hb
  have := mem_depEdgesFrom g.blocks 0 d.toNat b port s h1 hty he
  have hd : ((0 + d.toNat : Nat) : Int) = d := by
    simp only [Nat.zero_add]; omega
  rwa [hd] at this

theorem acyclic_of_rank (g : Graph) (r : Int → Nat)
    (h : ∀ e ∈ depEdgesFrom 0 g.blocks, r e.1 < r e.2) : Acyclic g := by
  have hr : ∀ x y, Relation.TransGen (DepEdge g) x y → r x < r y := by
    intro x y hxy
    induction hxy with
    | single hd => exact h _ (depEdge_mem g _ _ hd)
    | tail _ hd ih => exact lt_trans ih (h _ (depEdge_mem g _ _ hd))
  intro x hx
  exact lt_irrefl _ (hr x x hx)

theorem blockAt_range (g : Graph) (x : Int) (b : Block) (h : g.blockAt x = some b) :
    x ∈ Set.Ico (0 : Int) g.blocks.length := by
  obtain ⟨h0, h1⟩ := (blockAt_eq_some g x b).1 h
  obtain ⟨hlt, _⟩ := List.getElem?_eq_some.1 h1
  constructor
  · exact h0
  · omega

theorem all_scheduled (g : Graph) (inDegree : Int → Int) (seq : List Int)
    (hsrc : SourcesExist g) (hid : IdsAreIndices g) (hac : Acyclic g)
    (inv : KahnInv g inDegree [] seq) :
    ∀ x b, g.blockAt x = some b → x ∈ seq := by
  have hfin : Finite {x : Int // ∃ b, g.blockAt x = some b} := by
    apply Set.Finite.to_subtype
    apply Set.Finite.subset (Set.finite_Ico (0 : Int) g.blocks.length)
    rintro x ⟨b, hb⟩
    exact blockAt_range g x b hb
  let r : {x : Int // ∃ b, g.blockAt x = some b} → {x : Int // ∃ b, g.blockAt x = some b} → Prop :=
    fun a c => Relation.TransGen (DepEdge g) a.1 c.1
  haveI : IsTrans _ r := ⟨fun a b c hab hbc => Relation.TransGen.trans hab hbc⟩
  haveI : IsIrrefl _ r := ⟨fun a => hac a.1⟩
  have wf : WellFounded r := Finite.wellFounded_of_trans_of_irrefl r
  have key : ∀ t : {x : Int // ∃ b, g.blockAt x = some b}, t.1 ∈ seq := by
    intro t
    induction t using wf.induction with
    | _ t ih =>
      obtain ⟨x, b, hb⟩ := t
      by_contra hx
      simp only at hx
      by_cases hty : b.type = "UnitDelay"
      · have := (inv.delay x b hb hty).2
        simp only [List.append_nil] at this
        exact hx this
      · have hready := inv.ready x b hb hty
        have hdeg := inv.deg x b hb hty
        simp only [List.append_nil] at hready
        have hne : pending b seq ≠ 0 := by
          intro h0
          apply hx
          apply hready.2
          rw [hdeg, h0]; rfl
        obtain ⟨entry, he, hnot⟩ := pending_pos b seq hne
        have hbm := (blockAt_of_ids g hid x b hb).2
        have hex := hsrc (some b) hbm b rfl entry he
        obtain ⟨c, hcb⟩ := Option.isSome_iff_exists.1 hex
        have hedge : DepEdge g entry.2 x := ⟨b, hb, hty, entry.1, he⟩
        exact hnot (ih ⟨entry.2, c, hcb⟩ (Relation.TransGen.single hedge))
  intro x b hb
  exact key ⟨x, b, hb⟩

theorem totalBlocksInLogic_le (g : Graph) :
    totalBlocksInLogic g ≤ (g.blocks.filterMap id).length := by
  unfold totalBlocksInLogic
  induction g.blocks with
  | nil => simp
  | cons slot rest ih =>
    cases slot with
    | none => simpa using ih
    | some b =>
      rw [List.countP_cons]
      simp only [List.filterMap_cons, id, List.length_cons]
      split <;> omega

theorem schedules_all (g : Graph) (hid : IdsAreIndices g) (hc : Consistent g)
    (hsrc : SourcesExist g) (hac : Acyclic g) :
    ∃ seq, topologicalSort g = .ok seq ∧ seq.Nodup ∧
      (∀ b, some b ∈ g.blocks → b.id ∈ seq) ∧ (∀ x ∈ seq, ∃ b, g.blockAt x = some b) := by
  obtain ⟨seq, hseq⟩ := kahnLoop_fuel_enough g
  obtain ⟨inDegree, inv⟩ := kahnLoop_inv g (consistent_local g hc) _ _ _ _ seq
    (kahnInv_init g hid) hseq
  have hall := all_scheduled g inDegree seq hsrc hid hac inv
  have hnd : seq.Nodup := by simpa using inv.nodup
  have hmem : ∀ b, some b ∈ g.blocks → b.id ∈ seq :=
    fun b hb => hall b.id b (blockAt_of_mem g hid b hb)
  have hlen : (g.blocks.filterMap id).length ≤ seq.length := by
    have hsub : (g.blocks.filterMap id).map Block.id ⊆ seq := by
      intro x hx
      obtain ⟨b, hb, rfl⟩ := List.mem_map.1 hx
      obtain ⟨slot, hs, hsb⟩ := List.mem_filterMap.1 hb
      simp only [id] at hsb
      subst hsb
      exact hmem b hs
    have := (List.subperm_of_subset (ids_nodup g hid) hsub).length_le
    simpa using this
  refine ⟨seq, ?_, hnd, hmem, fun x hx => inv.isBlock x (by simpa using hx)⟩
  unfold topologicalSort
  simp only [hseq]
  have := totalBlocksInLogic_le g
  rw [if_neg (by omega)]

/-- C2 (amended): on a graph whose identifiers are the slot indices, whose
fan-out table is the exact inverse of the `inputs` maps, in which every
recorded source is a non-empty slot and in which the connections into blocks
other than `UnitDelay` form no directed cycle, `topologicalSort` returns a
sequence that contains the identifier of every non-empty block, `Outport`
blocks included, exactly once. -/
theorem topologicalSort_complete (g : Graph) (hid : IdsAreIndices g) (hc : Consistent g)
    (hsrc : SourcesExist g) (hac : Acyclic g) :
    ∃ seq, topologicalSort g = .ok seq ∧ ∀ b, some b ∈ g.blocks → seq.count b.id = 1 := by
  obtain ⟨seq, hs, hnd, hmem, _⟩ := schedules_all g hid hc hsrc hac
  exact ⟨seq, hs, fun b hb => List.count_eq_one_of_mem hnd (hmem b hb)⟩

theorem topologicalSort_complete_witness :
    ∃ seq, topologicalSort scenario = .ok seq ∧
      ∀ b, some b ∈ scenario.blocks → seq.count b.id = 1 :=
  topologicalSort_complete scenario (by decide) (by decide) (by decide)
    (acyclic_of_rank scenario Int.toNat (by decide))

/-- C2 (as stated) fails: with the `Gain` of slot 1 fed from the empty slot 0,
the fan-out table is the exact inverse of the `inputs` maps and there is no
cycle, yet `topologicalSort` raises the cycle error. -/
theorem topologicalSort_dangling_source :
    Consistent danglingSource ∧ Acyclic danglingSource ∧ IdsAreIndices danglingSource ∧
      topologicalSort danglingSource = .error .cycle :=
  ⟨by decide, acyclic_of_rank danglingSource Int.toNat (by decide), by decide, by rfl⟩

/-! ## The emitted update lines are the rendered assignments -/

theorem updateLine_eq_render (b : Block) (g : Graph) :
    updateLine b g = (updateAssign b g).map renderAssign := by
  unfold updateLine updateAssign
  cases b.getCInputVar 1 g with
  | error e => rfl
  | ok v =>
    have : "    nwocg." = "    " ++ "nwocg." := by decide
    rw [this]
    simp only [Except.map, renderAssign, String.append_assoc]

theorem updatePart_eq_render (g : Graph) (ids : List Int) :
    updatePart g ids = (updateAssigns g ids).map (List.map renderAssign) := by
  induction ids with
  | nil => rfl
  | cons id ids ih =>
    simp only [updatePart, updateAssigns]
    cases g.blockAt id with
    | none => rfl
    | some b =>
      simp only [updateLine_eq_render, ih]
      cases updateAssign b g with
      | error e => rfl
      | ok a =>
        cases updateAssigns g ids with
        | error e => rfl
        | ok rest => rfl

/-! ## The generator on the failing inputs -/

/-- C3 (the code on the failing input): the graph `maskedCycle` has a consistent
fan-out table and a connection from the `Gain` in slot 2 to itself, yet
`topologicalSort` returns the ordering `[0, 1]`: the sequence, which counts the
`Outport`, is compared against the 2 blocks that are not `Outport` and not
against the 3 non-empty blocks. -/
theorem topologicalSort_masked_cycle :
    Consistent maskedCycle ∧ IdsAreIndices maskedCycle ∧ DepEdge maskedCycle 2 2 ∧
      topologicalSort maskedCycle = .ok [0, 1] ∧
      totalBlocksInLogic maskedCycle = 2 ∧ (maskedCycle.blocks.filterMap id).length = 3 :=
  ⟨by decide, by decide, ⟨_, rfl, by decide, 1, by decide⟩, by rfl, by rfl, by rfl⟩

/-- C10 (the code on the failing input): on `maskedCycle` the run succeeds, and
the emitted struct has the single field `in`: the `Gain` block `g`, which is
not an `Outport`, has no field line. -/
theorem generate_masked_cycle :
    generate maskedCycle = .ok
      [ "#include \"nwocg_run.h\"",
        "",
        "#include <math.h>",
        "",
        "static struct",
        "\x7b",
        "    double in;",
        "\x7d nwocg;",
        "",
        "void nwocg_generated_init()",
        "\x7b",
        "\x7d",
        "",
        "void nwocg_generated_step()",
        "\x7b",
        "",
        "    // Update delay blocks state",
        "\x7d",
        "",
        "static const nwocg_ExtPort ext_ports[] = \x7b",
        "    \x7b \"out\", &nwocg.in, 0 \x7d,",
        "    \x7b \"in\", &nwocg.in, 1 \x7d,",
        "    \x7b 0, 0, 0 \x7d",
        "\x7d;",
        "",
        "const nwocg_ExtPort* const nwocg_generated_ext_ports = ext_ports;",
        "const size_t nwocg_generated_ext_ports_size = sizeof(ext_ports);" ] ∧
    genStruct maskedCycle [0, 1]
      = .ok ["static struct", "\x7b", "    double in;", "\x7d nwocg;", ""] ∧
    ∃ b, maskedCycle.blocks[2]? = some (some b) ∧ b.name = "g" ∧ b.type ≠ "Outport" :=
  ⟨by rfl, by rfl, _, rfl, rfl, by decide⟩

/-- C4 (the code on the failing input): for two `UnitDelay` blocks in series
the update lines are `D1 = in;` followed by `D2 = D1;`, so the second line
reads the slot the first has just overwritten, and after the step `D2` holds
the value of `in` instead of the previous value of `D1`. -/
theorem generate_delay_chain :
    generate delayChain = .ok
      [ "#include \"nwocg_run.h\"",
        "",
        "#include <math.h>",
        "",
        "static struct",
        "\x7b",
        "    double in;",
        "    double D1;",
        "    double D2;",
        "\x7d nwocg;",
        "",
        "void nwocg_generated_init()",
        "\x7b",
        "    nwocg.D1 = 0.0;",
        "    nwocg.D2 = 0.0;",
        "\x7d",
        "",
        "void nwocg_generated_step()",
        "\x7b",
        "",
        "    // Update delay blocks state",
        "    nwocg.D1 = nwocg.in;",
        "    nwocg.D2 = nwocg.D1;",
        "\x7d",
        "",
        "static const nwocg_ExtPort ext_ports[] = \x7b",
        "    \x7b \"out\", &nwocg.D2, 0 \x7d,",
        "    \x7b \"in\", &nwocg.in, 1 \x7d,",
        "    \x7b 0, 0, 0 \x7d",
        "\x7d;",
        "",
        "const nwocg_ExtPort* const nwocg_generated_ext_ports = ext_ports;",
        "const size_t nwocg_generated_ext_ports_size = sizeof(ext_ports);" ] ∧
    updateAssigns delayChain [1, 2]
      = .ok [("nwocg.D1", "nwocg.in"), ("nwocg.D2", "nwocg.D1")] ∧
    ∀ env : String → Int,
      execAssigns env [("nwocg.D1", "nwocg.in"), ("nwocg.D2", "nwocg.D1")] "nwocg.D2"
        = env "nwocg.in" := by
  refine ⟨by rfl, by rfl, ?_⟩
  intro env
  simp [execAssigns, execAssign]

/-! ## The external-port table -/

theorem mem_slotsOfType (t : String) (l : List (Option Block)) :
    ∀ (i n : Nat) (b : Block),
      (n, b) ∈ slotsOfType t i l ↔ i ≤ n ∧ l[n - i]? = some (some b) ∧ b.type = t := by
  induction l with
  | nil => intro i n b; simp [slotsOfType]
  | cons slot rest ih =>
    intro i n b
    have hstep : ((n, b) ∈ slotsOfType t (i + 1) rest ↔
        i < n ∧ (slot :: rest)[n - i]? = some (some b) ∧ b.type = t) := by
      rw [ih]
      constructor
      · rintro ⟨h1, h2, h3⟩
        have : n - i = (n - (i + 1)) + 1 := by omega
        exact ⟨by omega, by rw [this]; simpa using h2, h3⟩
      · rintro ⟨h1, h2, h3⟩
        have : n - i = (n - (i + 1)) + 1 := by omega
        rw [this] at h2
        exact ⟨by omega, by simpa using h2, h3⟩
    have hzero : ∀ c : Block, slot = some c → c.type = t →
        ((n, b) = (i, c) ↔ (i = n ∧ (slot :: rest)[n - i]? = some (some b) ∧ b.type = t)) := by
      intro c hc hct
      subst hc
      constructor
      · intro h
        cases h
        simp [hct]
      · rintro ⟨h1, h2, _⟩
        subst h1
        simp at h2
        simp [h2]
    have hzero' : ∀ c : Block, slot = some c → ¬ c.type = t →
        ¬ (i = n ∧ (slot :: rest)[n - i]? = some (some b) ∧ b.type = t) := by
      intro c hc hct
      subst hc
      rintro ⟨h1, h2, h3⟩
      subst h1
      simp at h2
      subst h2
      exact hct h3
    cases slot with
    | none =>
      rw [slotsOfType, hstep]
      constructor
      · rintro ⟨h1, h2⟩; exact ⟨by omega, h2⟩
      · rintro ⟨h1, h2, h3⟩
        refine ⟨?_, h2, h3⟩
        rcases Nat.lt_or_eq_of_le h1 with h | h
        · exact h
        · subst h; simp at h2
    | some c =>
      by_cases hct : c.type = t
      · rw [slotsOfType, if_pos hct, List.mem_cons, hstep, hzero c rfl hct]
        constructor
        · rintro (⟨h1, h2⟩ | ⟨h1, h2⟩)
          · exact ⟨by omega, h2⟩
          · exact ⟨by omega, h2⟩
        · rintro ⟨h1, h2⟩
          rcases Nat.lt_or_eq_of_le h1 with h | h
          · exact Or.inr ⟨h, h2⟩
          · exact Or.inl ⟨h, h2⟩
      · rw [slotsOfType, if_neg hct, hstep]
        constructor
        · rintro ⟨h1, h2⟩; exact ⟨by omega, h2⟩
        · rintro ⟨h1, h2⟩
          rcases Nat.lt_or_eq_of_le h1 with h | h
          · exact ⟨h, h2⟩
          · exact absurd ⟨h, h2⟩ (hzero' c rfl hct)

theorem slotsOfType_ascending (t : String) (l : List (Option Block)) :
    ∀ i : Nat, ((slotsOfType t i l).map Prod.fst).Pairwise (· < ·) ∧
      ∀ n ∈ (slotsOfType t i l).map Prod.fst, i ≤ n := by
  induction l with
  | nil => intro i; simp [slotsOfType]
  | cons slot rest ih =>
    intro i
    obtain ⟨h1, h2⟩ := ih (i + 1)
    have hle : ∀ n ∈ (slotsOfType t (i + 1) rest).map Prod.fst, i ≤ n :=
      fun n hn => by have := h2 n hn; omega
    cases slot with
    | none => exact ⟨h1, hle⟩
    | some b =>
      by_cases hb : b.type = t
      · simp only [slotsOfType, if_pos hb, List.map_cons, List.pairwise_cons, List.mem_cons]
        refine ⟨⟨fun n hn => ?_, h1⟩, fun n hn => ?_⟩
        · have := h2 n hn; omega
        · rcases hn with hn | hn
          · omega
          · exact hle n hn
      · simp only [slotsOfType, if_neg hb]
        exact ⟨h1, hle⟩

theorem inportLine_eq_entry (b : Block) : inportLine b = inportEntry b := by
  unfold inportLine inportEntry
  cases b.params.lookup "PortName" <;> rfl

theorem outportLine_ok (g : Graph) (b : Block) (l : String) (h : outportLine g b = .ok l) :
    l = outportEntry g b ∧ ∃ s src, b.inputs.lookup 1 = some s ∧ g.blockAt s = some src := by
  unfold outportLine at h
  unfold outportEntry feederName
  cases hl : b.inputs.lookup 1 with
  | none => simp [hl] at h
  | some s =>
    cases hs : g.blockAt s with
    | none => simp [hl, hs] at h
    | some src =>
      simp only [hl, hs, Except.ok.injEq] at h
      exact ⟨by simp [← h, hs], s, src, rfl, hs⟩

theorem extPortsLoop_ok (g : Graph) (slots : List (Option Block)) :
    ∀ (i : Nat) (o n : List String) (r : List String × List String),
      extPortsLoop g slots o n = .ok r →
      r.1 = o ++ (slotsOfType "Outport" i slots).map (fun p => outportEntry g p.2) ∧
      r.2 = n ++ (slotsOfType "Inport" i slots).map (fun p => inportEntry p.2) ∧
      ∀ p ∈ slotsOfType "Outport" i slots,
        ∃ s src, p.2.inputs.lookup 1 = some s ∧ g.blockAt s = some src := by
  induction slots with
  | nil =>
    intro i o n r h
    simp only [extPortsLoop, Except.ok.injEq] at h
    subst h
    simp [slotsOfType]
  | cons slot rest ih =>
    intro i o n r h
    cases slot with
    | none =>
      simp only [extPortsLoop] at h
      simpa [slotsOfType] using ih (i + 1) o n r h
    | some b =>
      simp only [extPortsLoop] at h
      by_cases hin : b.type = "Inport"
      · have hout : ¬ b.type = "Outport" := by rw [hin]; decide
        rw [if_pos hin] at h
        obtain ⟨h1, h2, h3⟩ := ih (i + 1) _ _ r h
        simp only [slotsOfType, if_pos hin, if_neg hout, List.map_cons]
        refine ⟨h1, ?_, h3⟩
        rw [h2, inportLine_eq_entry]
        simp
      · rw [if_neg hin] at h
        by_cases hout : b.type = "Outport"
        · rw [if_pos hout] at h
          cases hl : outportLine g b with
          | error e => simp [hl] at h
          | ok l =>
            simp only [hl] at h
            obtain ⟨h1, h2, h3⟩ := ih (i + 1) _ _ r h
            obtain ⟨hl1, hl2⟩ := outportLine_ok g b l hl
            simp only [slotsOfType, if_pos hout, if_neg hin, List.map_cons, List.mem_cons]
            refine ⟨?_, h2, ?_⟩
            · rw [h1, hl1]; simp
            · rintro p (hp | hp)
              · subst hp; exact hl2
              · exact h3 p hp
        · rw [if_neg hout] at h
          simpa [slotsOfType, hin, hout] using ih (i + 1) o n r h

/-- C9: when `genExtPorts` succeeds, the table consists of one entry per
`Outport` block, in ascending slot (identifier) order, each naming the block
that feeds its port 1 with direction 0, then one entry per `Inport` block, in
ascending slot (identifier) order, with direction 1, then the sentinel; no
other block has an entry. -/
theorem genExtPorts_table (g : Graph) (lines : List String) (h : genExtPorts g = .ok lines) :
    ∃ outs ins : List (Nat × Block),
      (∀ n b, (n, b) ∈ outs ↔ g.blocks[n]? = some (some b) ∧ b.type = "Outport") ∧
      (∀ n b, (n, b) ∈ ins ↔ g.blocks[n]? = some (some b) ∧ b.type = "Inport") ∧
      (outs.map Prod.fst).Pairwise (· < ·) ∧ (ins.map Prod.fst).Pairwise (· < ·) ∧
      (IdsAreIndices g → ∀ p ∈ outs ++ ins, p.2.id = (p.1 : Int)) ∧
      (∀ p ∈ outs, ∃ s src, p.2.inputs.lookup 1 = some s ∧ g.blockAt s = some src ∧
        feederName g p.2 = some src.name) ∧
      lines = ["static const nwocg_ExtPort ext_ports[] = \x7b"]
        ++ outs.map (fun p => outportEntry g p.2)
        ++ ins.map (fun p => inportEntry p.2)
        ++ ["    \x7b 0, 0, 0 \x7d", "\x7d;", "",
            "const nwocg_ExtPort* const nwocg_generated_ext_ports = ext_ports;",
            "const size_t nwocg_generated_ext_ports_size = sizeof(ext_ports);"] := by
  unfold genExtPorts at h
  cases hl : extPortsLoop g g.blocks [] [] with
  | error e => simp [hl] at h
  | ok r =>
    obtain ⟨h1, h2, h3⟩ := extPortsLoop_ok g g.blocks 0 [] [] r hl
    obtain ⟨o, n⟩ := r
    simp only [hl, Except.ok.injEq] at h
    simp only [List.nil_append] at h1 h2
    refine ⟨slotsOfType "Outport" 0 g.blocks, slotsOfType "Inport" 0 g.blocks,
      ?_, ?_, (slotsOfType_ascending _ _ 0).1, (slotsOfType_ascending _ _ 0).1, ?_, ?_, ?_⟩
    · intro n b; simpa using mem_slotsOfType "Outport" g.blocks 0 n b
    · intro n b; simpa using mem_slotsOfType "Inport" g.blocks 0 n b
    · intro hid p hp
      have hmem : g.blocks[p.1]? = some (some p.2) := by
        rcases List.mem_append.1 hp with hp | hp
        · have := (mem_slotsOfType "Outport" g.blocks 0 p.1 p.2).1 hp
          simpa using this.2.1
        · have := (mem_slotsOfType "Inport" g.blocks 0 p.1 p.2).1 hp
          simpa using this.2.1
      exact hid (p.1, some p.2) (List.mk_mem_enum_iff_getElem?.2 hmem) p.2 rfl
    · intro p hp
      obtain ⟨s, src, hs1, hs2⟩ := h3 p hp
      exact ⟨s, src, hs1, hs2, by simp [feederName, hs1, hs2]⟩
    · rw [← h, h1, h2]

theorem genExtPorts_table_witness :
    ∃ outs ins : List (Nat × Block),
      (∀ n b, (n, b) ∈ outs ↔ scenario.blocks[n]? = some (some b) ∧ b.type = "Outport") ∧
      (∀ n b, (n, b) ∈ ins ↔ scenario.blocks[n]? = some (some b) ∧ b.type = "Inport") ∧
      (outs.map Prod.fst).Pairwise (· < ·) ∧ (ins.map Prod.fst).Pairwise (· < ·) ∧
      (IdsAreIndices scenario → ∀ p ∈ outs ++ ins, p.2.id = (p.1 : Int)) ∧
      (∀ p ∈ outs, ∃ s src, p.2.inputs.lookup 1 = some s ∧ scenario.blockAt s = some src ∧
        feederName scenario p.2 = some src.name) ∧
      [ "static const nwocg_ExtPort ext_ports[] = \x7b",
        "    \x7b \"command\", &nwocg.Add3, 0 \x7d,",
        "    \x7b \"setpoint\", &nwocg.setpoint, 1 \x7d,",
        "    \x7b \"feedback\", &nwocg.feedback, 1 \x7d,",
        "    \x7b 0, 0, 0 \x7d",
        "\x7d;",
        "",
        "const nwocg_ExtPort* const nwocg_generated_ext_ports = ext_ports;",
        "const size_t nwocg_generated_ext_ports_size = sizeof(ext_ports);" ]
      = ["static const nwocg_ExtPort ext_ports[] = \x7b"]
        ++ outs.map (fun p => outportEntry scenario p.2)
        ++ ins.map (fun p => inportEntry p.2)
        ++ ["    \x7b 0, 0, 0 \x7d", "\x7d;", "",
            "const nwocg_ExtPort* const nwocg_generated_ext_ports = ext_ports;",
            "const size_t nwocg_generated_ext_ports_size = sizeof(ext_ports);"] :=
  genExtPorts_table scenario _ (by rfl)

/-! ## The computation lines -/

theorem getCInputVar_of_source (b : Block) (g : Graph) (port s : Int) (src : Block)
    (h1 : b.inputs.lookup port = some s) (h2 : g.blockAt s = some src) :
    b.getCInputVar port g = .ok ("nwocg." ++ src.name) := by
  simp [Block.getCInputVar, h1, h2]

theorem getCInputVar_ok (b : Block) (g : Graph) (port : Int) (v : String)
    (h : b.getCInputVar port g = .ok v) :
    ∃ s src, b.inputs.lookup port = some s ∧ g.blockAt s = some src ∧
      v = "nwocg." ++ src.name := by
  unfold Block.getCInputVar at h
  cases h1 : b.inputs.lookup port with
  | none => simp [h1] at h
  | some s =>
    cases h2 : g.blockAt s with
    | none => simp [h1, h2] at h
    | some src =>
      simp only [h1, h2, Except.ok.injEq] at h
      exact ⟨s, src, rfl, h2, h.symm⟩

theorem sumLoop_spec (b : Block) (g : Graph) (cs : List Char) :
    ∀ (srcs : List Block) (i : Nat) (expr : String), srcs.length = cs.length →
      (∀ (n : Nat) (src : Block), srcs[n]? = some src →
        ∃ s, b.inputs.lookup ((i : Int) + n + 1) = some s ∧ g.blockAt s = some src) →
      sumLoop b g cs i expr = .ok (expr ++ sumTail (cs.zip (srcs.map Block.name))) := by
  induction cs with
  | nil =>
    intro srcs i expr hlen _
    simp [sumLoop, sumTail]
  | cons c cs ih =>
    intro srcs i expr hlen hsrc
    cases srcs with
    | nil => simp at hlen
    | cons s0 srcs =>
      obtain ⟨s, hs1, hs2⟩ := hsrc 0 s0 (by simp)
      have hget : b.getCInputVar ((i : Int) + 1) g = .ok ("nwocg." ++ s0.name) :=
        getCInputVar_of_source b g _ s s0 (by simpa using hs1) hs2
      have hrest := ih srcs (i + 1) (expr ++ " " ++ String.singleton c ++ " " ++ ("nwocg." ++ s0.name))
        (by simpa using hlen) (by
          intro n src hn
          obtain ⟨s', h1, h2⟩ := hsrc (n + 1) src (by simpa using hn)
          refine ⟨s', ?_, h2⟩
          have : ((i + 1 : Nat) : Int) + n + 1 = (i : Int) + ((n + 1 : Nat) : Int) + 1 := by
            push_cast; ring
          rw [this]; exact h1)
      simp only [sumLoop, hget, hrest, List.map_cons, List.zip, List.zipWith_cons_cons, sumTail]
      have : " nwocg." = " " ++ "nwocg." := by decide
      rw [this]
      simp only [String.append_assoc]

theorem sumLine_spec (b : Block) (g : Graph) (c1 : Char) (cs : List Char) (s1 : Block)
    (rest : List Block)
    (hin : b.params.lookup "Inputs" = some (String.mk (c1 :: cs)) ∨
      (b.params.lookup "Inputs" = none ∧ c1 :: cs = ['+', '+']))
    (hlen : rest.length = cs.length)
    (hsrc : ∀ (n : Nat) (src : Block), (s1 :: rest)[n]? = some src →
      ∃ s, b.inputs.lookup ((n : Int) + 1) = some s ∧ g.blockAt s = some src) :
    sumLine b g = .ok (sumLineSpec b.name s1.name (cs.zip (rest.map Block.name))) := by
  have hstr : ((b.params.lookup "Inputs").getD "++").data.drop 1 = cs := by
    rcases hin with h | ⟨h, h2⟩
    · simp [h]
    · rw [h]
      have : ("++" : String).data = ['+', '+'] := by decide
      simp only [Option.getD_none, this, ← h2, List.drop_succ_cons, List.drop_zero]
  obtain ⟨s, hs1, hs2⟩ := hsrc 0 s1 (by simp)
  have hfirst : b.getCInputVar 1 g = .ok ("nwocg." ++ s1.name) :=
    getCInputVar_of_source b g _ s s1 (by simpa using hs1) hs2
  have hloop := sumLoop_spec b g cs rest 1 ("nwocg." ++ s1.name) hlen (by
    intro n src hn
    obtain ⟨s', h1, h2⟩ := hsrc (n + 1) src (by simpa using hn)
    refine ⟨s', ?_, h2⟩
    have : ((1 : Nat) : Int) + n + 1 = ((n + 1 : Nat) : Int) + 1 := by push_cast; ring
    rw [this]; exact h1)
  unfold sumLine
  simp only [hfirst, hstr, hloop, sumLineSpec]
  have : "    nwocg." ++ b.name ++ " = nwocg." = "    nwocg." ++ b.name ++ " = " ++ "nwocg." := by
    have h2 : " = nwocg." = " = " ++ "nwocg." := by decide
    rw [String.append_assoc, h2, ← String.append_assoc, ← String.append_assoc]
  rw [this]
  simp only [String.append_assoc]

theorem computePart_mem (g : Graph) (ids : List Int) :
    ∀ comp, computePart g ids = .ok comp → ∀ id ∈ ids, ∀ b, g.blockAt id = some b →
      ∃ ls, computeLines b g = .ok ls ∧ ∀ l ∈ ls, l ∈ comp := by
  induction ids with
  | nil => intro comp _ id hid; simp at hid
  | cons i ids ih =>
    intro comp h id hid b hb
    simp only [computePart] at h
    cases hi : g.blockAt i with
    | none => simp [hi] at h
    | some bi =>
      cases hc : computeLines bi g with
      | error e => simp [hi, hc] at h
      | ok ls =>
        cases hr : computePart g ids with
        | error e => simp [hi, hc, hr] at h
        | ok restLines =>
          simp only [hi, hc, hr, Except.ok.injEq] at h
          subst h
          rcases List.mem_cons.1 hid with heq | hmem
          · subst heq
            rw [hi] at hb
            cases hb
            exact ⟨ls, hc, fun l hl => List.mem_append_left _ hl⟩
          · obtain ⟨ls', h1, h2⟩ := ih restLines hr id hmem b hb
            exact ⟨ls', h1, fun l hl => List.mem_append_right _ (h2 l hl)⟩

theorem genStep_ok (g : Graph) (sortedBlockIds delayBlocks : List Int) (lines : List String)
    (h : genStep g sortedBlockIds delayBlocks = .ok lines) :
    ∃ comp upd, computePart g sortedBlockIds = .ok comp ∧ updatePart g delayBlocks = .ok upd ∧
      lines = ["void nwocg_generated_step()", "\x7b"] ++ comp
        ++ ["", "    // Update delay blocks state"] ++ upd ++ ["\x7d", ""] := by
  unfold genStep at h
  cases hc : computePart g sortedBlockIds with
  | error e => simp [hc] at h
  | ok comp =>
    cases hu : updatePart g delayBlocks with
    | error e => simp [hc, hu] at h
    | ok upd =>
      simp only [hc, hu, Except.ok.injEq] at h
      exact ⟨comp, upd, rfl, rfl, h.symm⟩

/-- C8: the computation line emitted for a `Sum` block of the ordering whose
`Inputs` parameter is `c1 c2 ... cn` (or is absent, which counts as `++`) and
whose input ports `1..n` have the existing sources `s1 ... sn` is
`    nwocg.<name> = nwocg.<s1> c2 nwocg.<s2> ... cn nwocg.<sn>;`. -/
theorem genStep_sum_line (g : Graph) (sortedBlockIds delayBlocks : List Int)
    (lines : List String) (id : Int) (b : Block) (c1 : Char) (cs : List Char) (s1 : Block)
    (rest : List Block)
    (hgen : genStep g sortedBlockIds delayBlocks = .ok lines)
    (hid : id ∈ sortedBlockIds) (hb : g.blockAt id = some b) (hty : b.type = "Sum")
    (hin : b.params.lookup "Inputs" = some (String.mk (c1 :: cs)) ∨
      (b.params.lookup "Inputs" = none ∧ c1 :: cs = ['+', '+']))
    (hlen : rest.length = cs.length)
    (hsrc : ∀ (n : Nat) (src : Block), (s1 :: rest)[n]? = some src →
      ∃ s, b.inputs.lookup ((n : Int) + 1) = some s ∧ g.blockAt s = some src) :
    computeLines b g = .ok [sumLineSpec b.name s1.name (cs.zip (rest.map Block.name))] ∧
      sumLineSpec b.name s1.name (cs.zip (rest.map Block.name)) ∈ lines := by
  have hline := sumLine_spec b g c1 cs s1 rest hin hlen hsrc
  have hcl : computeLines b g
      = .ok [sumLineSpec b.name s1.name (cs.zip (rest.map Block.name))] := by
    simp [computeLines, hty, hline]
  refine ⟨hcl, ?_⟩
  obtain ⟨comp, upd, hc, _, hl⟩ := genStep_ok g sortedBlockIds delayBlocks lines hgen
  obtain ⟨ls, h1, h2⟩ := computePart_mem g sortedBlockIds comp hc id hid b hb
  rw [hcl] at h1
  cases h1
  rw [hl]
  have := h2 _ (List.mem_singleton_self _)
  simp [this]

theorem genStep_sum_line_witness :
    computeLines
        { id := 3, name := "Add1", type := "Sum", params := [("Inputs", "+-")],
          inputs := [(1, 0), (2, 1)] } scenario
      = .ok [sumLineSpec "Add1" "setpoint" [('-', "feedback")]] ∧
    sumLineSpec "Add1" "setpoint" [('-', "feedback")]
      ∈ [ "void nwocg_generated_step()",
          "\x7b",
          "    nwocg.Add1 = nwocg.setpoint - nwocg.feedback;",
          "    nwocg.I_gain = nwocg.Add1 * 2;",
          "    nwocg.P_gain = nwocg.Add1 * 3;",
          "    nwocg.Ts = nwocg.I_gain * 0.01;",
          "    nwocg.Add2 = nwocg.Ts + nwocg.Unit_Delay1;",
          "    nwocg.Add3 = nwocg.P_gain + nwocg.Add2;",
          "",
          "    // Update delay blocks state",
          "    nwocg.Unit_Delay1 = nwocg.Add2;",
          "\x7d",
          "" ] :=
  genStep_sum_line scenario [0, 1, 2, 3, 4, 5, 6, 7, 8, 9] [2] _ 3
    { id := 3, name := "Add1", type := "Sum", params := [("Inputs", "+-")],
      inputs := [(1, 0), (2, 1)] }
    '+' ['-']
    { id := 0, name := "setpoint", type := "Inport", params := [], inputs := [] }
    [{ id := 1, name := "feedback", type := "Inport", params := [], inputs := [] }]
    (by rfl) (by decide) (by rfl) (by rfl) (Or.inl (by rfl)) (by rfl)
    (by
      intro n src h
      match n, h with
      | 0, h => exact ⟨0, by rfl, by simp at h; rw [← h]; rfl⟩
      | 1, h => exact ⟨1, by rfl, by simp at h; rw [← h]; rfl⟩
      | n + 2, h => simp at h)

/-! ## Every slot a computation line reads has been produced -/

theorem lookup_mem (l : List (Int × Int)) (port s : Int) (h : l.lookup port = some s) :
    (port, s) ∈ l := by
  induction l with
  | nil => simp at h
  | cons e l ih =>
    obtain ⟨p, v⟩ := e
    by_cases hp : port = p
    · subst hp
      simp [List.lookup] at h
      simp [h]
    · have hne : (port == p) = false := by simpa using hp
      simp only [List.lookup, hne] at h
      exact List.mem_cons_of_mem _ (ih h)

theorem sumLine_ok (b : Block) (g : Graph) (l : String) (h : sumLine b g = .ok l) :
    ∃ first expr, b.getCInputVar 1 g = .ok first ∧
      sumLoop b g (((b.params.lookup "Inputs").getD "++").data.drop 1) 1 first = .ok expr ∧
      l = "    nwocg." ++ b.name ++ " = " ++ expr ++ ";" := by
  simp only [sumLine] at h
  cases h1 : b.getCInputVar 1 g with
  | error e => simp [h1] at h
  | ok first =>
    cases h2 : sumLoop b g (((b.params.lookup "Inputs").getD "++").data.drop 1) 1 first with
    | error e =>
      simp only [h1, h2] at h
      cases h
    | ok expr =>
      simp only [h1, h2, Except.ok.injEq] at h
      exact ⟨first, expr, rfl, h2, h.symm⟩

theorem gainLine_ok (b : Block) (g : Graph) (l : String) (h : gainLine b g = .ok l) :
    ∃ v, b.getCInputVar 1 g = .ok v ∧
      l = "    nwocg." ++ b.name ++ " = " ++ v ++ " * "
        ++ (b.params.lookup "Gain").getD "1.0" ++ ";" := by
  simp only [gainLine] at h
  cases h1 : b.getCInputVar 1 g with
  | error e => simp [h1] at h
  | ok v =>
    simp only [h1, Except.ok.injEq] at h
    exact ⟨v, rfl, h.symm⟩

theorem computeLines_ok (b : Block) (g : Graph) (ls : List String)
    (h : computeLines b g = .ok ls) :
    (b.type = "Sum" ∧ ∃ l, sumLine b g = .ok l ∧ ls = [l]) ∨
    (b.type ≠ "Sum" ∧ b.type = "Gain" ∧ ∃ l, gainLine b g = .ok l ∧ ls = [l]) ∨
    (b.type ≠ "Sum" ∧ b.type ≠ "Gain" ∧ ls = []) := by
  unfold computeLines at h
  by_cases hsum : b.type = "Sum"
  · rw [if_pos hsum] at h
    cases hl : sumLine b g with
    | error e => rw [hl] at h; cases h
    | ok l => rw [hl] at h; cases h; exact Or.inl ⟨hsum, l, rfl, rfl⟩
  · rw [if_neg hsum] at h
    by_cases hgain : b.type = "Gain"
    · rw [if_pos hgain] at h
      cases hl : gainLine b g with
      | error e => rw [hl] at h; cases h
      | ok l => rw [hl] at h; cases h; exact Or.inr (Or.inl ⟨hsum, hgain, l, rfl, rfl⟩)
    · rw [if_neg hgain] at h
      cases h
      exact Or.inr (Or.inr ⟨hsum, hgain, rfl⟩)

theorem assignsSlot_of_data (l name : String)
    (h : ∃ r, l.data = "    nwocg.".data ++ (name.data ++ (" = ".data ++ r))) :
    AssignsSlot l ("nwocg." ++ name) := by
  obtain ⟨r, hr⟩ := h
  unfold AssignsSlot
  have e : "    nwocg.".data = "    ".data ++ "nwocg.".data := by decide
  rw [hr, e]
  simp only [String.data_append, List.append_assoc, List.prefix_append_right_inj]
  exact List.prefix_append _ _

theorem computeLines_assigns (b : Block) (g : Graph) (ls : List String)
    (h : computeLines b g = .ok ls) (hty : b.type = "Sum" ∨ b.type = "Gain") :
    ∃ l, ls = [l] ∧ AssignsSlot l ("nwocg." ++ b.name) := by
  rcases computeLines_ok b g ls h with ⟨hsum, l, hl, hls⟩ | ⟨hsum, hgain, l, hl, hls⟩ |
    ⟨hsum, hgain, _⟩
  · obtain ⟨first, expr, _, _, hline⟩ := sumLine_ok b g l hl
    refine ⟨l, hls, assignsSlot_of_data l b.name ⟨expr.data ++ ";".data, ?_⟩⟩
    rw [hline]
    simp only [String.data_append, List.append_assoc]
  · obtain ⟨v, _, hline⟩ := gainLine_ok b g l hl
    refine ⟨l, hls, assignsSlot_of_data l b.name
      ⟨v.data ++ (" * ".data ++ (((b.params.lookup "Gain").getD "1.0").data ++ ";".data)), ?_⟩⟩
    rw [hline]
    simp only [String.data_append, List.append_assoc]
  · rcases hty with h | h
    · exact absurd h hsum
    · exact absurd h hgain

theorem computePart_cons_ok (g : Graph) (i : Int) (ids : List Int) (comp : List String)
    (h : computePart g (i :: ids) = .ok comp) :
    ∃ bi ls rest, g.blockAt i = some bi ∧ computeLines bi g = .ok ls ∧
      computePart g ids = .ok rest ∧ comp = ls ++ rest := by
  rw [computePart] at h
  cases hi : g.blockAt i with
  | none => simp [hi] at h
  | some bi =>
    cases hc : computeLines bi g with
    | error e => simp [hi, hc] at h
    | ok ls =>
      cases hr : computePart g ids with
      | error e => simp [hi, hc, hr] at h
      | ok rest =>
        simp only [hi, hc, hr, Except.ok.injEq] at h
        exact ⟨bi, ls, rest, rfl, hc, rfl, h.symm⟩

theorem computePart_split (g : Graph) (pre : List Int) :
    ∀ (id : Int) (post : List Int) (comp : List String) (b : Block),
      computePart g (pre ++ id :: post) = .ok comp → g.blockAt id = some b →
      ∃ earlier ls later, computePart g pre = .ok earlier ∧ computeLines b g = .ok ls ∧
        computePart g post = .ok later ∧ comp = earlier ++ ls ++ later := by
  induction pre with
  | nil =>
    intro id post comp b h hb
    obtain ⟨bi, ls, rest, h1, h2, h3, h4⟩ := computePart_cons_ok g id post comp h
    rw [hb] at h1
    cases h1
    exact ⟨[], ls, rest, rfl, h2, h3, by simp [h4]⟩
  | cons i pre ih =>
    intro id post comp b h hb
    obtain ⟨bi, ls0, rest, h1, h2, h3, h4⟩ := computePart_cons_ok g i (pre ++ id :: post) comp h
    obtain ⟨earlier, ls, later, k1, k2, k3, k4⟩ := ih id post rest b h3 hb
    refine ⟨ls0 ++ earlier, ls, later, ?_, k2, k3, ?_⟩
    · simp [computePart, h1, h2, k1]
    · rw [h4, k4]; simp

theorem generate_ok (g : Graph) (lines : List String) (h : generate g = .ok lines) :
    ∃ sortedBlockIds delayBlocks structLines initL stepLines portLines,
      topologicalSort g = .ok sortedBlockIds ∧
      collectDelayBlocks g sortedBlockIds = .ok delayBlocks ∧
      genStruct g sortedBlockIds = .ok structLines ∧
      genInit g delayBlocks = .ok initL ∧
      genStep g sortedBlockIds delayBlocks = .ok stepLines ∧
      genExtPorts g = .ok portLines ∧
      lines = genHeader ++ structLines ++ initL ++ stepLines ++ portLines := by
  unfold generate at h
  cases h1 : topologicalSort g with
  | error e => simp [h1] at h
  | ok sorted =>
    cases h2 : collectDelayBlocks g sorted with
    | error e => simp [h1, h2] at h
    | ok delay =>
      cases h3 : genStruct g sorted with
      | error e => simp [h1, h2, h3] at h
      | ok sl =>
        cases h4 : genInit g delay with
        | error e => simp [h1, h2, h3, h4] at h
        | ok il =>
          cases h5 : genStep g sorted delay with
          | error e => simp [h1, h2, h3, h4, h5] at h
          | ok stl =>
            cases h6 : genExtPorts g with
            | error e => simp [h1, h2, h3, h4, h5, h6] at h
            | ok pl =>
              simp only [h1, h2, h3, h4, h5, h6, Except.ok.injEq] at h
              exact ⟨sorted, delay, sl, il, stl, pl, rfl, h2, h3, h4, h5, rfl, h.symm⟩

/-! ## Resolving an input port -/

theorem blockAt_eq_none (g : Graph) (x : Int) : g.blockAt x = none ↔ g.missing x := by
  unfold Graph.blockAt Graph.missing
  rw [List.getD_eq_getElem?_getD]
  by_cases hx : x < 0
  · simp [hx]
  · simp only [hx, if_false, false_or]
    by_cases hlen : (g.blocks.length : Int) ≤ x
    · have : g.blocks.length ≤ x.toNat := by omega
      simp [hlen, List.getElem?_eq_none this]
    · have hlt : x.toNat < g.blocks.length := by omega
      simp only [hlen, false_or]
      rw [List.getElem?_eq_getElem hlt]
      cases g.blocks[x.toNat] <;> simp

/-- C13: `getCInputVar` fails when the block has no entry for the port, fails
when the recorded source is negative, not below the size of the block array or
an empty slot, and in every other case returns `nwocg.` followed by the name of
the source block. -/
theorem getCInputVar_cases (b : Block) (port : Int) (g : Graph) :
    (b.inputs.lookup port = none →
      b.getCInputVar port g = .error (.noConnection b.name b.id port)) ∧
    (∀ s, b.inputs.lookup port = some s → g.missing s →
      b.getCInputVar port g = .error (.sourceNotFound s)) ∧
    (∀ s, b.inputs.lookup port = some s → ¬ g.missing s →
      ∃ src, g.blocks[s.toNat]? = some (some src) ∧
        b.getCInputVar port g = .ok ("nwocg." ++ src.name)) := by
  refine ⟨?_, ?_, ?_⟩
  · intro h
    simp [Block.getCInputVar, h]
  · intro s h hm
    have := (blockAt_eq_none g s).2 hm
    simp [Block.getCInputVar, h, this]
  · intro s h hm
    cases hb : g.blockAt s with
    | none => exact absurd ((blockAt_eq_none g s).1 hb) hm
    | some src =>
      exact ⟨src, ((blockAt_eq_some g s src).1 hb).2, by simp [Block.getCInputVar, h, hb]⟩

theorem getCInputVar_cases_witness :
    ∃ src, scenario.blocks[(6 : Int).toNat]? = some (some src) ∧
      Block.getCInputVar
        { id := 7, name := "Add2", type := "Sum", params := [], inputs := [(1, 6), (2, 2)] }
        1 scenario = .ok ("nwocg." ++ src.name) :=
  (getCInputVar_cases
    { id := 7, name := "Add2", type := "Sum", params := [], inputs := [(1, 6), (2, 2)] }
    1 scenario).2.2 6 (by rfl) (by decide)

/-! ## The name stored by the `Block` constructor -/

/-- C18 (amended): the name stored by the `Block` constructor has the length
of the given name, an underscore at every position where the given name has a
space, and the given character at every other position. -/
theorem Block_new_name (id : Int) (name type : String) :
    (Block.new id name type).name.length = name.length ∧
    ∀ i : Nat, (Block.new id name type).name.data[i]?
      = (name.data[i]?).map (fun c => if c = ' ' then '_' else c) := by
  have hdata : (Block.new id name type).name.data
      = name.data.map (fun c => if c = ' ' then '_' else c) := rfl
  constructor
  · show (Block.new id name type).name.data.length = name.data.length
    rw [hdata, List.length_map]
  · intro i
    rw [hdata, List.getElem?_map]

/-- C18 (as stated) fails: a tab is a whitespace character, and the constructor
stores it unchanged. -/
theorem Block_new_keeps_tab :
    (tabBlock.name.length = "a\tb".length) ∧
      "a\tb".data[1]? = some '\t' ∧ Char.isWhitespace '\t' = true ∧
      tabBlock.name.data[1]? = some '\t' ∧ tabBlock.name = "a\tb" := by
  decide

/-! ## The step body -/

theorem collectDelayBlocks_eq (g : Graph) (ids : List Int) :
    ∀ delay, collectDelayBlocks g ids = .ok delay →
      delay = ids.filter (isDelayAt g) ∧ ∀ k ∈ ids, ∃ b, g.blockAt k = some b := by
  induction ids with
  | nil =>
    intro delay h
    simp only [collectDelayBlocks, Except.ok.injEq] at h
    simp [← h]
  | cons k ids ih =>
    intro delay h
    rw [collectDelayBlocks] at h
    cases hk : g.blockAt k with
    | none => simp [hk] at h
    | some b =>
      cases hr : collectDelayBlocks g ids with
      | error e => simp [hk, hr] at h
      | ok rest =>
        simp only [hk, hr, Except.ok.injEq] at h
        obtain ⟨h1, h2⟩ := ih rest hr
        constructor
        · rw [← h, List.filter_cons]
          simp only [isDelayAt, hk]
          by_cases hty : b.type = "UnitDelay" <;> simp [hty, h1, isDelayAt]
        · intro x hx
          rcases List.mem_cons.1 hx with hx | hx
          · subst hx; exact ⟨b, hk⟩
          · exact h2 x hx

theorem updateLine_ok (b : Block) (g : Graph) (l : String) (h : updateLine b g = .ok l) :
    ∃ s src, b.inputs.lookup 1 = some s ∧ g.blockAt s = some src ∧
      l = "    nwocg." ++ b.name ++ " = nwocg." ++ src.name ++ ";" := by
  simp only [updateLine] at h
  cases h1 : b.getCInputVar 1 g with
  | error e => simp [h1] at h
  | ok v =>
    simp only [h1, Except.ok.injEq] at h
    obtain ⟨s, src, hs, hsrc, hv⟩ := getCInputVar_ok b g 1 v h1
    refine ⟨s, src, hs, hsrc, ?_⟩
    rw [← h, hv]
    have : " = nwocg." = " = " ++ "nwocg." := by decide
    rw [this]
    simp only [String.append_assoc]

theorem updatePart_ok (g : Graph) (ids : List Int) :
    ∀ upd, updatePart g ids = .ok upd →
      List.Forall₂ (fun k line => ∃ b s src, g.blockAt k = some b ∧
        b.inputs.lookup 1 = some s ∧ g.blockAt s = some src ∧
        line = "    nwocg." ++ b.name ++ " = nwocg." ++ src.name ++ ";") ids upd := by
  induction ids with
  | nil =>
    intro upd h
    simp only [updatePart, Except.ok.injEq] at h
    subst h
    exact List.Forall₂.nil
  | cons k ids ih =>
    intro upd h
    rw [updatePart] at h
    cases hk : g.blockAt k with
    | none => simp [hk] at h
    | some b =>
      cases hl : updateLine b g with
      | error e => simp [hk, hl] at h
      | ok l =>
        cases hr : updatePart g ids with
        | error e => simp [hk, hl, hr] at h
        | ok rest =>
          simp only [hk, hl, hr, Except.ok.injEq] at h
          subst h
          obtain ⟨s, src, h1, h2, h3⟩ := updateLine_ok b g l hl
          exact List.Forall₂.cons ⟨b, s, src, hk, h1, h2, h3⟩ (ih rest hr)

/-- C12: in the step body emitted by `genStep` all computation lines stand
before the separator and all state-update lines after it, and the update lines
are, in schedule order, one line
`    nwocg.<delay name> = nwocg.<name of the block feeding its port 1>;` for
each `UnitDelay` block of the ordering. -/
theorem genStep_updates_last (g : Graph) (sortedBlockIds delayBlocks : List Int)
    (lines : List String)
    (hd : collectDelayBlocks g sortedBlockIds = .ok delayBlocks)
    (hg : genStep g sortedBlockIds delayBlocks = .ok lines) :
    ∃ comp upd,
      lines = ["void nwocg_generated_step()", "\x7b"] ++ comp
        ++ ["", "    // Update delay blocks state"] ++ upd ++ ["\x7d", ""] ∧
      computePart g sortedBlockIds = .ok comp ∧
      delayBlocks = sortedBlockIds.filter (isDelayAt g) ∧
      List.Forall₂ (fun k line => ∃ b s src, g.blockAt k = some b ∧ b.type = "UnitDelay" ∧
        b.inputs.lookup 1 = some s ∧ g.blockAt s = some src ∧
        line = "    nwocg." ++ b.name ++ " = nwocg." ++ src.name ++ ";") delayBlocks upd := by
  obtain ⟨comp, upd, hc, hu, hl⟩ := genStep_ok g sortedBlockIds delayBlocks lines hg
  obtain ⟨hdel, _⟩ := collectDelayBlocks_eq g sortedBlockIds delayBlocks hd
  refine ⟨comp, upd, hl, hc, hdel, ?_⟩
  have hall : ∀ k ∈ delayBlocks, isDelayAt g k = true := by
    intro k hk
    rw [hdel] at hk
    exact (List.mem_filter.1 hk).2
  have := updatePart_ok g delayBlocks upd hu
  clear hu hl hdel hd hg
  induction this with
  | nil => exact List.Forall₂.nil
  | @cons k line ks ls hhead _ ih =>
    obtain ⟨b, s, src, h1, h2, h3, h4⟩ := hhead
    have hk := hall k (List.mem_cons_self _ _)
    simp only [isDelayAt, h1, decide_eq_true_eq] at hk
    exact List.Forall₂.cons ⟨b, s, src, h1, hk, h2, h3, h4⟩
      (ih (fun x hx => hall x (List.mem_cons_of_mem _ hx)))

theorem genStep_updates_last_witness :
    ∃ comp upd,
      [ "void nwocg_generated_step()",
        "\x7b",
        "",
        "    // Update delay blocks state",
        "    nwocg.D1 = nwocg.in;",
        "    nwocg.D2 = nwocg.D1;",
        "\x7d",
        "" ] = ["void nwocg_generated_step()", "\x7b"] ++ comp
        ++ ["", "    // Update delay blocks state"] ++ upd ++ ["\x7d", ""] ∧
      computePart delayChain [0, 1, 2, 3] = .ok comp ∧
      [1, 2] = [0, 1, 2, 3].filter (isDelayAt delayChain) ∧
      List.Forall₂ (fun k line => ∃ b s src, delayChain.blockAt k = some b ∧
        b.type = "UnitDelay" ∧
        b.inputs.lookup 1 = some s ∧ delayChain.blockAt s = some src ∧
        line = "    nwocg." ++ b.name ++ " = nwocg." ++ src.name ++ ";") [1, 2] upd :=
  genStep_updates_last delayChain [0, 1, 2, 3] [1, 2] _ (by rfl) (by rfl)

/-! ## The queue discipline of the scheduler -/

theorem fifoInv_step (g : Graph) (d0 inDegree : Int → Int) (k : Int)
    (rest sortedOrder : List Int) (inv : FifoInv g d0 inDegree (k :: rest) sortedOrder) :
    FifoInv g d0 (relaxPorts (inDegree, rest) (g.outputsAt k)).1
      (relaxPorts (inDegree, rest) (g.outputsAt k)).2 (sortedOrder ++ [k]) := by
  rw [relaxPorts_eq_foldl]
  obtain ⟨added, hq, _, hmem⟩ := foldl_relax_queue (dstIds (g.outputsAt k)) (inDegree, rest)
  have hdeg := foldl_relax_deg (dstIds (g.outputsAt k)) (inDegree, rest)
  simp only at hq hmem hdeg
  obtain ⟨pushed, hshape, hpos⟩ := inv.shape
  constructor
  · intro x
    rw [hdeg]
    have := inv.le_init x
    omega
  · refine ⟨pushed ++ added, ?_, ?_⟩
    · rw [hq]
      have : (sortedOrder ++ [k]) ++ (rest ++ added) = (sortedOrder ++ k :: rest) ++ added := by
        simp
      rw [this, hshape, List.append_assoc]
    · intro x hx
      rcases List.mem_append.1 hx with h | h
      · exact hpos x h
      · have h1 := ((hmem x).1 h).1
        have h2 := inv.le_init x
        omega

theorem distinctInv_step (g : Graph) (inDegree : Int → Int) (k : Int)
    (rest sortedOrder : List Int) (inv : DistinctInv inDegree (k :: rest) sortedOrder) :
    DistinctInv (relaxPorts (inDegree, rest) (g.outputsAt k)).1
      (relaxPorts (inDegree, rest) (g.outputsAt k)).2 (sortedOrder ++ [k]) := by
  rw [relaxPorts_eq_foldl]
  obtain ⟨added, hq, hnd, hmem⟩ := foldl_relax_queue (dstIds (g.outputsAt k)) (inDegree, rest)
  have hdeg := foldl_relax_deg (dstIds (g.outputsAt k)) (inDegree, rest)
  simp only at hq hmem hdeg
  have hlist : (sortedOrder ++ [k]) ++ (rest ++ added) = (sortedOrder ++ k :: rest) ++ added := by
    simp
  constructor
  · rw [hq, hlist, List.nodup_append]
    refine ⟨inv.nodup, hnd, ?_⟩
    intro x hx1 hx2
    have h1 := inv.nonpos x hx1
    have h2 := ((hmem x).1 hx2).1
    omega
  · intro x hx
    rw [hq, hlist] at hx
    rw [hdeg]
    rcases List.mem_append.1 hx with h | h
    · have := inv.nonpos x h
      omega
    · have := ((hmem x).1 h).2
      omega

theorem kahnLoop_fifo (g : Graph) (d0 : Int → Int) :
    ∀ (fuel : Nat) (inDegree : Int → Int) (q sortedOrder seq : List Int),
      FifoInv g d0 inDegree q sortedOrder →
      kahnLoop g fuel inDegree q sortedOrder = some seq →
      ∃ rest, seq = zeroIds g.blocks ++ rest ∧ ∀ x ∈ rest, 0 < d0 x := by
  intro fuel
  induction fuel with
  | zero => intro inDegree q sortedOrder seq _ h; simp [kahnLoop] at h
  | succ fuel ih =>
    intro inDegree q sortedOrder seq inv h
    cases q with
    | nil =>
      simp only [kahnLoop, Option.some.injEq] at h
      subst h
      obtain ⟨pushed, h1, h2⟩ := inv.shape
      exact ⟨pushed, by simpa using h1, h2⟩
    | cons k rest =>
      simp only [kahnLoop] at h
      exact ih _ _ _ seq (fifoInv_step g d0 inDegree k rest sortedOrder inv) h

theorem kahnLoop_distinct (g : Graph) :
    ∀ (fuel : Nat) (inDegree : Int → Int) (q sortedOrder seq : List Int),
      DistinctInv inDegree q sortedOrder →
      kahnLoop g fuel inDegree q sortedOrder = some seq → seq.Nodup := by
  intro fuel
  induction fuel with
  | zero => intro inDegree q sortedOrder seq _ h; simp [kahnLoop] at h
  | succ fuel ih =>
    intro inDegree q sortedOrder seq inv h
    cases q with
    | nil =>
      simp only [kahnLoop, Option.some.injEq] at h
      subst h
      simpa using inv.nodup
    | cons k rest =>
      simp only [kahnLoop] at h
      exact ih _ _ _ seq (distinctInv_step g inDegree k rest sortedOrder inv) h

theorem initInDegree_queue (g : Graph) : (initInDegree g.blocks).2 = zeroIds g.blocks := by
  simp [initInDegree, foldl_initStep_queue]

theorem initInDegree_deg (g : Graph) (hid : IdsAreIndices g) (x : Int) :
    (initInDegree g.blocks).1 x = initDeg g x := by
  unfold initDeg
  cases hb : g.blockAt x with
  | some b =>
    obtain ⟨h1, h2⟩ := blockAt_of_ids g hid x b hb
    rw [← h1]
    exact foldl_initStep_block g.blocks _ (ids_nodup g hid) b h2
  | none =>
    unfold initInDegree
    rw [foldl_initStep_other]
    intro b hb' heq
    have := blockAt_of_mem g hid b hb'
    rw [heq, hb] at this
    cases this

theorem zeroIds_block (g : Graph) (hid : IdsAreIndices g) (x : Int) :
    x ∈ zeroIds g.blocks ↔ ∃ b, g.blockAt x = some b ∧ b.initDegree = 0 := by
  rw [mem_zeroIds]
  constructor
  · rintro ⟨b, hb, h0, hx⟩
    exact ⟨b, hx ▸ blockAt_of_mem g hid b hb, h0⟩
  · rintro ⟨b, hb, h0⟩
    obtain ⟨h1, h2⟩ := blockAt_of_ids g hid x b hb
    exact ⟨b, h2, h0, h1⟩

theorem zeroIds_ascending (g : Graph) (hid : IdsAreIndices g) :
    (zeroIds g.blocks).Pairwise (· < ·) :=
  List.Pairwise.sublist (List.Sublist.map _ (List.filter_sublist _)) (ids_ascending g hid)

theorem fifoInv_init (g : Graph) :
    FifoInv g (initInDegree g.blocks).1 (initInDegree g.blocks).1 (initInDegree g.blocks).2 [] :=
  ⟨fun _ => le_refl _, [], by simp [initInDegree_queue], by simp⟩

theorem distinctInv_init (g : Graph) (hid : IdsAreIndices g) :
    DistinctInv (initInDegree g.blocks).1 (initInDegree g.blocks).2 [] := by
  rw [initInDegree_queue]
  constructor
  · simpa using (zeroIds_ascending g hid).imp (fun h => ne_of_lt h)
  · intro x hx
    simp only [List.nil_append] at hx
    obtain ⟨b, hb, h0⟩ := (zeroIds_block g hid x).1 hx
    rw [initInDegree_deg g hid x]
    simp [initDeg, hb, h0]

/-- The structure of every sequence `topologicalSort` returns on a graph whose
identifiers are slot indices. -/
theorem topologicalSort_shape (g : Graph) (hid : IdsAreIndices g) (seq : List Int)
    (hs : topologicalSort g = .ok seq) :
    seq.Nodup ∧ (∀ x ∈ seq, ∃ b, g.blockAt x = some b) ∧
      ∃ rest, seq = zeroIds g.blocks ++ rest ∧
        ∀ x ∈ rest, ∃ b, g.blockAt x = some b ∧ 0 < b.initDegree := by
  have hk := (topologicalSort_ok g seq hs).1
  have hnd := kahnLoop_distinct g _ _ _ _ seq (distinctInv_init g hid) hk
  obtain ⟨rest, hseq, hrest⟩ := kahnLoop_fifo g _ _ _ _ _ seq (fifoInv_init g) hk
  have hrest' : ∀ x ∈ rest, ∃ b, g.blockAt x = some b ∧ 0 < b.initDegree := by
    intro x hx
    have := hrest x hx
    rw [initInDegree_deg g hid x] at this
    unfold initDeg at this
    cases hb : g.blockAt x with
    | none => simp [hb] at this
    | some b => exact ⟨b, rfl, by simpa [hb] using this⟩
  refine ⟨hnd, ?_, rest, hseq, hrest'⟩
  intro x hx
  rw [hseq] at hx
  rcases List.mem_append.1 hx with h | h
  · obtain ⟨b, hb, _⟩ := (zeroIds_block g hid x).1 h
    exact ⟨b, hb⟩
  · obtain ⟨b, hb, _⟩ := hrest' x h
    exact ⟨b, hb⟩

/-! ## The lookups of the emitter on a scheduled sequence -/

theorem collectDelayBlocks_of_blocks (g : Graph) (ids : List Int)
    (h : ∀ x ∈ ids, ∃ b, g.blockAt x = some b) :
    collectDelayBlocks g ids = .ok (ids.filter (isDelayAt g)) := by
  induction ids with
  | nil => rfl
  | cons k ids ih =>
    obtain ⟨b, hb⟩ := h k (List.mem_cons_self _ _)
    have hr := ih (fun x hx => h x (List.mem_cons_of_mem _ hx))
    rw [collectDelayBlocks, hb]
    simp only [hr, List.filter_cons, isDelayAt, hb]
    by_cases hty : b.type = "UnitDelay" <;> simp [hty]

theorem structFields_of_blocks (g : Graph) (ids : List Int)
    (h : ∀ x ∈ ids, ∃ b, g.blockAt x = some b) : ∃ fields, structFields g ids = .ok fields := by
  induction ids with
  | nil => exact ⟨[], rfl⟩
  | cons k ids ih =>
    obtain ⟨b, hb⟩ := h k (List.mem_cons_self _ _)
    obtain ⟨rest, hr⟩ := ih (fun x hx => h x (List.mem_cons_of_mem _ hx))
    rw [structFields, hb]
    simp only [hr]
    exact ⟨_, rfl⟩

theorem initLines_of_blocks (g : Graph) (ids : List Int)
    (h : ∀ x ∈ ids, ∃ b, g.blockAt x = some b) : ∃ body, initLines g ids = .ok body := by
  induction ids with
  | nil => exact ⟨[], rfl⟩
  | cons k ids ih =>
    obtain ⟨b, hb⟩ := h k (List.mem_cons_self _ _)
    obtain ⟨rest, hr⟩ := ih (fun x hx => h x (List.mem_cons_of_mem _ hx))
    rw [initLines, hb]
    simp only [hr]
    exact ⟨_, rfl⟩

theorem getCInputVar_ne_emptySlot (b : Block) (g : Graph) (port k : Int) :
    b.getCInputVar port g ≠ .error (.emptySlot k) := by
  unfold Block.getCInputVar
  cases h1 : b.inputs.lookup port with
  | none => simp
  | some s => cases h2 : g.blockAt s <;> simp [h2]

theorem sumLoop_ne_emptySlot (b : Block) (g : Graph) (k : Int) (cs : List Char) :
    ∀ (i : Nat) (expr : String), sumLoop b g cs i expr ≠ .error (.emptySlot k) := by
  induction cs with
  | nil => intro i expr; simp [sumLoop]
  | cons c cs ih =>
    intro i expr
    rw [sumLoop]
    cases hv : b.getCInputVar ((i : Int) + 1) g with
    | error e =>
      intro h
      simp only [Except.error.injEq] at h
      exact getCInputVar_ne_emptySlot b g _ k (h ▸ hv)
    | ok v => exact ih _ _

theorem computeLines_ne_emptySlot (b : Block) (g : Graph) (k : Int) :
    computeLines b g ≠ .error (.emptySlot k) := by
  intro h
  unfold computeLines at h
  by_cases hsum : b.type = "Sum"
  · rw [if_pos hsum] at h
    simp only [sumLine] at h
    cases h1 : b.getCInputVar 1 g with
    | error e =>
      simp only [h1, Except.error.injEq] at h
      exact getCInputVar_ne_emptySlot b g _ k (h ▸ h1)
    | ok first =>
      cases h2 : sumLoop b g (((b.params.lookup "Inputs").getD "++").data.drop 1) 1 first with
      | error e =>
        simp only [h1, h2, Except.error.injEq] at h
        exact sumLoop_ne_emptySlot b g k _ _ _ (h ▸ h2)
      | ok expr => simp only [h1, h2] at h; cases h
  · rw [if_neg hsum] at h
    by_cases hgain : b.type = "Gain"
    · rw [if_pos hgain] at h
      simp only [gainLine] at h
      cases h1 : b.getCInputVar 1 g with
      | error e =>
        simp only [h1, Except.error.injEq] at h
        exact getCInputVar_ne_emptySlot b g _ k (h ▸ h1)
      | ok v => simp only [h1] at h; cases h
    · rw [if_neg hgain] at h
      cases h

theorem computePart_ne_emptySlot (g : Graph) (ids : List Int)
    (h : ∀ x ∈ ids, ∃ b, g.blockAt x = some b) (k : Int) :
    computePart g ids ≠ .error (.emptySlot k) := by
  induction ids with
  | nil => simp [computePart]
  | cons i ids ih =>
    obtain ⟨b, hb⟩ := h i (List.mem_cons_self _ _)
    have hr := ih (fun x hx => h x (List.mem_cons_of_mem _ hx))
    rw [computePart, hb]
    simp only
    cases hc : computeLines b g with
    | error e =>
      intro h'
      simp only [Except.error.injEq] at h'
      exact computeLines_ne_emptySlot b g k (h' ▸ hc)
    | ok ls =>
      simp only
      cases hp : computePart g ids with
      | error e =>
        intro h'
        simp only [Except.error.injEq] at h'
        exact hr (h' ▸ hp)
      | ok rest => simp

theorem updatePart_ne_emptySlot (g : Graph) (ids : List Int)
    (h : ∀ x ∈ ids, ∃ b, g.blockAt x = some b) (k : Int) :
    updatePart g ids ≠ .error (.emptySlot k) := by
  induction ids with
  | nil => simp [updatePart]
  | cons i ids ih =>
    obtain ⟨b, hb⟩ := h i (List.mem_cons_self _ _)
    have hr := ih (fun x hx => h x (List.mem_cons_of_mem _ hx))
    rw [updatePart, hb]
    simp only [updateLine]
    cases hc : b.getCInputVar 1 g with
    | error e =>
      intro h'
      simp only [Except.error.injEq] at h'
      exact getCInputVar_ne_emptySlot b g _ k (h' ▸ hc)
    | ok v =>
      simp only
      cases hp : updatePart g ids with
      | error e =>
        intro h'
        simp only [Except.error.injEq] at h'
        exact hr (h' ▸ hp)
      | ok rest => simp

theorem outportLine_ne_emptySlot (g : Graph) (b : Block) (k : Int) :
    outportLine g b ≠ .error (.emptySlot k) := by
  unfold outportLine
  cases h1 : b.inputs.lookup 1 with
  | none => simp
  | some s => cases h2 : g.blockAt s <;> simp [h2]

theorem extPortsLoop_ne_emptySlot (g : Graph) (k : Int) (slots : List (Option Block)) :
    ∀ (o n : List String), extPortsLoop g slots o n ≠ .error (.emptySlot k) := by
  induction slots with
  | nil => intro o n; simp [extPortsLoop]
  | cons slot rest ih =>
    intro o n
    cases slot with
    | none => rw [extPortsLoop]; exact ih _ _
    | some b =>
      rw [extPortsLoop]
      split
      · exact ih _ _
      · split
        · cases hl : outportLine g b with
          | error e =>
            intro h
            simp only [Except.error.injEq] at h
            exact outportLine_ne_emptySlot g b k (h ▸ hl)
          | ok l => exact ih _ _
        · exact ih _ _

/-- C19: on a graph whose non-empty blocks carry their slot index as
identifier, whatever its fan-out table holds, every sequence returned by
`topologicalSort` consists of pairwise distinct identifiers of non-empty slots,
so none of the lookups `graph.blocks[id]` of `generate`, `genStruct`, `genInit`
and `genStep` hits an empty slot. -/
theorem topologicalSort_ids_safe (g : Graph) (seq : List Int) (hid : IdsAreIndices g)
    (hs : topologicalSort g = .ok seq) :
    seq.Nodup ∧
    (∀ x ∈ seq, 0 ≤ x ∧ ∃ b, g.blocks[x.toNat]? = some (some b)) ∧
    (∃ delayBlocks, collectDelayBlocks g seq = .ok delayBlocks ∧
      (∃ structLines, genStruct g seq = .ok structLines) ∧
      (∃ initL, genInit g delayBlocks = .ok initL) ∧
      ∀ k, genStep g seq delayBlocks ≠ .error (.emptySlot k)) ∧
    ∀ k, generate g ≠ .error (.emptySlot k) := by
  obtain ⟨hnd, hblocks, _⟩ := topologicalSort_shape g hid seq hs
  have hdelay := collectDelayBlocks_of_blocks g seq hblocks
  have hdb : ∀ x ∈ seq.filter (isDelayAt g), ∃ b, g.blockAt x = some b :=
    fun x hx => hblocks x (List.mem_filter.1 hx).1
  obtain ⟨fields, hf⟩ := structFields_of_blocks g seq hblocks
  obtain ⟨body, hbody⟩ := initLines_of_blocks g _ hdb
  have hstruct : ∃ structLines, genStruct g seq = .ok structLines := by
    simp only [genStruct, hf]
    exact ⟨_, rfl⟩
  have hinit : ∃ initL, genInit g (seq.filter (isDelayAt g)) = .ok initL := by
    simp only [genInit, hbody]
    exact ⟨_, rfl⟩
  have hstep : ∀ k, genStep g seq (seq.filter (isDelayAt g)) ≠ .error (.emptySlot k) := by
    intro k h
    unfold genStep at h
    cases hc : computePart g seq with
    | error e =>
      simp only [hc, Except.error.injEq] at h
      exact computePart_ne_emptySlot g seq hblocks k (h ▸ hc)
    | ok comp =>
      cases hu : updatePart g (seq.filter (isDelayAt g)) with
      | error e =>
        simp only [hc, hu, Except.error.injEq] at h
        exact updatePart_ne_emptySlot g _ hdb k (h ▸ hu)
      | ok upd => simp only [hc, hu] at h; cases h
  refine ⟨hnd, ?_, ⟨_, hdelay, hstruct, hinit, hstep⟩, ?_⟩
  · intro x hx
    obtain ⟨b, hb⟩ := hblocks x hx
    obtain ⟨h0, h1⟩ := (blockAt_eq_some g x b).1 hb
    exact ⟨h0, b, h1⟩
  · intro k h
    obtain ⟨sl, hsl⟩ := hstruct
    obtain ⟨il, hil⟩ := hinit
    unfold generate at h
    simp only [hs, hdelay, hsl, hil] at h
    cases hst : genStep g seq (seq.filter (isDelayAt g)) with
    | error e =>
      simp only [hst, Except.error.injEq] at h
      exact hstep k (h ▸ hst)
    | ok stl =>
      simp only [hst] at h
      unfold genExtPorts at h
      cases he : extPortsLoop g g.blocks [] [] with
      | error e =>
        simp only [he, Except.error.injEq] at h
        exact extPortsLoop_ne_emptySlot g k g.blocks [] [] (h ▸ he)
      | ok r => simp only [he] at h; cases h

theorem topologicalSort_ids_safe_witness :
    ([0, 2] : List Int).Nodup ∧
    (∀ x ∈ ([0, 2] : List Int),
      0 ≤ x ∧ ∃ b, inconsistentFanout.blocks[x.toNat]? = some (some b)) ∧
    (∃ delayBlocks, collectDelayBlocks inconsistentFanout [0, 2] = .ok delayBlocks ∧
      (∃ structLines, genStruct inconsistentFanout [0, 2] = .ok structLines) ∧
      (∃ initL, genInit inconsistentFanout delayBlocks = .ok initL) ∧
      ∀ k, genStep inconsistentFanout [0, 2] delayBlocks ≠ .error (.emptySlot k)) ∧
    ∀ k, generate inconsistentFanout ≠ .error (.emptySlot k) :=
  topologicalSort_ids_safe inconsistentFanout [0, 2] (by decide) (by rfl)

/-! ## The initial queue is a prefix of the ordering -/

theorem initDegree_eq_zero_iff (b : Block) :
    b.initDegree = 0 ↔ (b.type = "UnitDelay" ∨ b.inputs = []) := by
  unfold Block.initDegree
  by_cases hty : b.type = "UnitDelay"
  · simp [hty]
  · simp only [hty, if_false, false_or]
    constructor
    · intro h
      exact List.length_eq_zero.1 (by omega)
    · intro h
      simp [h]

/-- C17: every sequence returned by `topologicalSort` starts with the
identifiers of the blocks of initial in-degree zero (the `UnitDelay` blocks and
the blocks without inputs), in block-array order, and every later entry was
queued by a decrement of a counter that was positive at the start; where the
identifiers are the slot indices, the prefix ascends and the later entries are
the blocks of non-zero initial in-degree. -/
theorem topologicalSort_zero_prefix (g : Graph) (seq : List Int)
    (hs : topologicalSort g = .ok seq) :
    ∃ rest, seq = zeroIds g.blocks ++ rest ∧
      (∀ x, x ∈ zeroIds g.blocks ↔
        ∃ b, some b ∈ g.blocks ∧ (b.type = "UnitDelay" ∨ b.inputs = []) ∧ b.id = x) ∧
      (∀ x ∈ rest, 0 < (initInDegree g.blocks).1 x) ∧
      (IdsAreIndices g →
        (zeroIds g.blocks).Pairwise (· < ·) ∧
        (∀ x ∈ rest, ∃ b, g.blockAt x = some b ∧ b.initDegree ≠ 0) ∧
        (∀ b, some b ∈ g.blocks → b.initDegree ≠ 0 → b.id ∉ zeroIds g.blocks)) := by
  have hk := (topologicalSort_ok g seq hs).1
  obtain ⟨rest, hseq, hrest⟩ := kahnLoop_fifo g _ _ _ _ _ seq (fifoInv_init g) hk
  refine ⟨rest, hseq, ?_, hrest, ?_⟩
  · intro x
    rw [mem_zeroIds]
    constructor
    · rintro ⟨b, hb, h0, hx⟩
      exact ⟨b, hb, (initDegree_eq_zero_iff b).1 h0, hx⟩
    · rintro ⟨b, hb, h0, hx⟩
      exact ⟨b, hb, (initDegree_eq_zero_iff b).2 h0, hx⟩
  · intro hid
    refine ⟨zeroIds_ascending g hid, ?_, ?_⟩
    · intro x hx
      have := hrest x hx
      rw [initInDegree_deg g hid x] at this
      unfold initDeg at this
      cases hb : g.blockAt x with
      | none => simp [hb] at this
      | some b =>
        simp only [hb] at this
        exact ⟨b, rfl, by omega⟩
    · intro b hb hne hmem
      obtain ⟨b', hb', h0⟩ := (zeroIds_block g hid b.id).1 hmem
      rw [blockAt_of_mem g hid b hb] at hb'
      cases hb'
      exact hne h0

theorem topologicalSort_zero_prefix_witness :
    ∃ rest, ([0, 1, 2, 3, 4, 5, 6, 7, 8, 9] : List Int) = zeroIds scenario.blocks ++ rest ∧
      (∀ x, x ∈ zeroIds scenario.blocks ↔
        ∃ b, some b ∈ scenario.blocks ∧ (b.type = "UnitDelay" ∨ b.inputs = []) ∧ b.id = x) ∧
      (∀ x ∈ rest, 0 < (initInDegree scenario.blocks).1 x) ∧
      (IdsAreIndices scenario →
        (zeroIds scenario.blocks).Pairwise (· < ·) ∧
        (∀ x ∈ rest, ∃ b, scenario.blockAt x = some b ∧ b.initDegree ≠ 0) ∧
        (∀ b, some b ∈ scenario.blocks → b.initDegree ≠ 0 → b.id ∉ zeroIds scenario.blocks)) :=
  topologicalSort_zero_prefix scenario [0, 1, 2, 3, 4, 5, 6, 7, 8, 9] (by rfl)

/-! ## The initializer -/

theorem initLines_map (g : Graph) (bs : List Block)
    (h : ∀ b ∈ bs, g.blockAt b.id = some b) :
    initLines g (bs.map Block.id)
      = .ok (bs.map (fun b => "    nwocg." ++ b.name ++ " = 0.0;")) := by
  induction bs with
  | nil => rfl
  | cons b bs ih =>
    have hr := ih (fun x hx => h x (List.mem_cons_of_mem _ hx))
    rw [List.map_cons, initLines, h b (List.mem_cons_self _ _)]
    simp only [hr, List.map_cons]

theorem filter_isDelayAt_map (g : Graph) (bs : List Block)
    (h : ∀ b ∈ bs, g.blockAt b.id = some b) :
    (bs.map Block.id).filter (isDelayAt g)
      = (bs.filter (fun b => decide (b.type = "UnitDelay"))).map Block.id := by
  induction bs with
  | nil => rfl
  | cons b bs ih =>
    have hr := ih (fun x hx => h x (List.mem_cons_of_mem _ hx))
    have hb := h b (List.mem_cons_self _ _)
    rw [List.map_cons, List.filter_cons, List.filter_cons, hr]
    simp only [isDelayAt, hb]
    by_cases hty : b.type = "UnitDelay" <;> simp [hty]

theorem filter_delay_zero (bs : List Block) :
    (bs.filter (fun b => decide (b.initDegree = 0))).filter
        (fun b => decide (b.type = "UnitDelay"))
      = bs.filter (fun b => decide (b.type = "UnitDelay")) := by
  rw [List.filter_filter]
  apply List.filter_congr
  intro b _
  by_cases hty : b.type = "UnitDelay"
  · simp [hty, initDegree_eq_zero_of_delay b hty]
  · simp [hty]

theorem delayBlocks_eq (g : Graph) (hid : IdsAreIndices g) (seq : List Int)
    (hs : topologicalSort g = .ok seq) :
    collectDelayBlocks g seq = .ok
      (((g.blocks.filterMap id).filter (fun b => decide (b.type = "UnitDelay"))).map Block.id) := by
  obtain ⟨_, hblocks, rest, hseq, hrest⟩ := topologicalSort_shape g hid seq hs
  rw [collectDelayBlocks_of_blocks g seq hblocks, hseq, List.filter_append]
  have hnone : rest.filter (isDelayAt g) = [] := by
    rw [List.filter_eq_nil_iff]
    intro x hx
    obtain ⟨b, hb, hpos⟩ := hrest x hx
    simp only [isDelayAt, hb, decide_eq_true_eq]
    intro hty
    have := initDegree_eq_zero_of_delay b hty
    omega
  have hall : ∀ b ∈ (g.blocks.filterMap id).filter (fun b => decide (b.initDegree = 0)),
      g.blockAt b.id = some b := by
    intro b hb
    obtain ⟨slot, hs1, hs2⟩ := List.mem_filterMap.1 (List.mem_filter.1 hb).1
    simp only [id] at hs2
    subst hs2
    exact blockAt_of_mem g hid b hs1
  rw [hnone, List.append_nil]
  unfold zeroIds
  rw [filter_isDelayAt_map g _ hall, filter_delay_zero]

/-- C11 (amended): on a graph whose identifiers are the slot indices and on
which `topologicalSort` succeeds, the body of the emitted initializer is one
line `    nwocg.<name> = 0.0;` for each `UnitDelay` block of the graph, in slot
order, and nothing else. -/
theorem genInit_body (g : Graph) (sortedBlockIds : List Int) (hid : IdsAreIndices g)
    (hs : topologicalSort g = .ok sortedBlockIds) :
    ∃ delayBlocks, collectDelayBlocks g sortedBlockIds = .ok delayBlocks ∧
      genInit g delayBlocks = .ok
        (["void nwocg_generated_init()", "\x7b"]
          ++ ((g.blocks.filterMap id).filter (fun b => decide (b.type = "UnitDelay"))).map
              (fun b => "    nwocg." ++ b.name ++ " = 0.0;")
          ++ ["\x7d", ""]) := by
  refine ⟨_, delayBlocks_eq g hid sortedBlockIds hs, ?_⟩
  have hall : ∀ b ∈ (g.blocks.filterMap id).filter (fun b => decide (b.type = "UnitDelay")),
      g.blockAt b.id = some b := by
    intro b hb
    obtain ⟨slot, hs1, hs2⟩ := List.mem_filterMap.1 (List.mem_filter.1 hb).1
    simp only [id] at hs2
    subst hs2
    exact blockAt_of_mem g hid b hs1
  simp only [genInit, initLines_map g _ hall]

theorem genInit_body_witness :
    ∃ delayBlocks, collectDelayBlocks scenario [0, 1, 2, 3, 4, 5, 6, 7, 8, 9] = .ok delayBlocks ∧
      genInit scenario delayBlocks = .ok
        (["void nwocg_generated_init()", "\x7b"]
          ++ ((scenario.blocks.filterMap id).filter
                (fun b => decide (b.type = "UnitDelay"))).map
              (fun b => "    nwocg." ++ b.name ++ " = 0.0;")
          ++ ["\x7d", ""]) :=
  genInit_body scenario [0, 1, 2, 3, 4, 5, 6, 7, 8, 9] (by decide) (by rfl)

/-- C11 (as stated) fails: in `duplicateIds` two `UnitDelay` blocks carry the
identifier 0; `topologicalSort` returns `[0, 0, 2]` and the initializer zeroes
`a` twice and `b` never. -/
theorem genInit_duplicate_ids :
    topologicalSort duplicateIds = .ok [0, 0, 2] ∧
      collectDelayBlocks duplicateIds [0, 0, 2] = .ok [0, 0] ∧
      genInit duplicateIds [0, 0] = .ok
        [ "void nwocg_generated_init()",
          "\x7b",
          "    nwocg.a = 0.0;",
          "    nwocg.a = 0.0;",
          "\x7d",
          "" ] ∧
      (∃ b, duplicateIds.blocks[1]? = some (some b) ∧ b.type = "UnitDelay" ∧ b.name = "b") ∧
      ∃ lines, generate duplicateIds = .ok lines :=
  ⟨by rfl, by rfl, by rfl, ⟨_, rfl, rfl, rfl⟩, ⟨_, by rfl⟩⟩

/-! ## Every slot in use is declared -/

theorem structFields_mem (g : Graph) (ids : List Int) :
    ∀ fields, structFields g ids = .ok fields → ∀ k ∈ ids, ∀ b, g.blockAt k = some b →
      b.type ≠ "Outport" → ("    double " ++ b.name ++ ";") ∈ fields := by
  induction ids with
  | nil => intro fields _ k hk; simp at hk
  | cons i ids ih =>
    intro fields h k hk b hb hty
    rw [structFields] at h
    cases hi : g.blockAt i with
    | none => simp [hi] at h
    | some bi =>
      cases hr : structFields g ids with
      | error e => simp [hi, hr] at h
      | ok rest =>
        simp only [hi, hr, Except.ok.injEq] at h
        rcases List.mem_cons.1 hk with heq | hmem
        · subst heq
          rw [hi] at hb
          cases hb
          rw [← h, if_pos hty]
          exact List.mem_cons_self _ _
        · have := ih rest hr k hmem b hb hty
          rw [← h]
          split
          · exact List.mem_cons_of_mem _ this
          · exact this

/-! ## Parsing an endpoint -/

theorem digitsValue_eq (ds : List Char) :
    digitsValue ds = Nat.ofDigits 10 (ds.reverse.map (fun x => x.toNat - 48)) := by
  induction ds using List.reverseRecOn with
  | nil => rfl
  | append_singleton l c ih =>
    unfold digitsValue at ih ⊢
    rw [List.foldl_append, List.reverse_append]
    simp only [List.foldl_cons, List.foldl_nil, List.reverse_cons, List.reverse_nil,
      List.nil_append, List.singleton_append, List.map_cons, Nat.ofDigits_cons]
    rw [ih]
    omega

theorem takeWhile_all (p : Char → Bool) (l : List Char) (h : l.all p = true) :
    l.takeWhile p = l := by
  induction l with
  | nil => rfl
  | cons c l ih =>
    simp only [List.all_cons, Bool.and_eq_true] at h
    rw [List.takeWhile_cons, if_pos h.1, ih h.2]

theorem stoi_digits (c : Char) (ds : List Char) (h : (c :: ds).all Char.isDigit = true)
    (hv : IsInt (digitsValue (c :: ds))) :
    stoi (c :: ds) = .ok (digitsValue (c :: ds)) := by
  have hc : c.isDigit = true := by
    simp only [List.all_cons, Bool.and_eq_true] at h
    exact h.1
  have hsp : isspace c = false := by
    cases hs : isspace c
    · rfl
    · exfalso
      simp only [isspace, Bool.or_eq_true, decide_eq_true_eq] at hs
      rcases hs with ((((h1 | h1) | h1) | h1) | h1) | h1 <;> rw [h1] at hc <;> revert hc <;> decide
  have hm : c ≠ '-' := by intro h1; rw [h1] at hc; revert hc; decide
  have hp : c ≠ '+' := by intro h1; rw [h1] at hc; revert hc; decide
  unfold stoi
  have hdrop : (c :: ds).dropWhile isspace = c :: ds := by
    rw [List.dropWhile_cons, hsp]; rfl
  simp only [hdrop, List.head?_cons, Option.some.injEq, hm, hp, or_self, if_false,
    decide_False, takeWhile_all _ _ h]
  unfold IsInt at hv
  rw [if_neg (by simp), if_neg (by omega)]
  simp

theorem stoi_minus (ds : List Char) (hne : ds ≠ []) (h : ds.all Char.isDigit = true)
    (hv : IsInt (-(digitsValue ds : Int))) :
    stoi ('-' :: ds) = .ok (-(digitsValue ds : Int)) := by
  unfold stoi
  have hdrop : ('-' :: ds).dropWhile isspace = '-' :: ds := by
    rw [List.dropWhile_cons]; rfl
  simp only [hdrop, List.head?_cons, true_or, if_true, List.tail_cons, decide_True,
    takeWhile_all _ _ h]
  unfold IsInt at hv
  rw [if_neg hne, if_neg (by omega)]

theorem stoi_decimal (s : List Char) (v : Int) (h : decimal s = some v) (hv : IsInt v) :
    stoi s = .ok v := by
  unfold decimal at h
  cases s with
  | nil => simp at h
  | cons c ds =>
    simp only at h
    split at h
    · rename_i hc
      subst hc
      split at h
      · rename_i hd
        simp only [Option.some.injEq] at h
        rw [← digitsValue_eq] at h
        subst h
        exact stoi_minus ds hd.1 hd.2 hv
      · simp at h
    · split at h
      · rename_i hd
        simp only [Option.some.injEq] at h
        rw [← digitsValue_eq] at h
        subst h
        exact stoi_digits c ds hd hv
      · simp at h

theorem decimal_chars (s : List Char) (v : Int) (h : decimal s = some v) :
    ∀ x ∈ s, x = '-' ∨ x.isDigit = true := by
  unfold decimal at h
  cases s with
  | nil => simp
  | cons c ds =>
    simp only at h
    split at h
    · split at h
      · rename_i hc hd
        intro x hx
        rcases List.mem_cons.1 hx with h1 | h1
        · exact Or.inl (h1.trans hc)
        · exact Or.inr (List.all_eq_true.1 hd.2 x h1)
      · simp at h
    · split at h
      · rename_i hd
        intro x hx
        exact Or.inr (List.all_eq_true.1 hd x hx)
      · simp at h

theorem stoi_ne_invalidFormat (s : List Char) (msg : String) :
    stoi s ≠ .error (.invalidFormat msg) := by
  unfold stoi
  dsimp only
  split_ifs <;> simp

theorem find_eq_none (c : Char) (text : List Char) : find c text = none ↔ c ∉ text := by
  unfold find
  rw [← List.indexOf_lt_length]
  split <;> simp [*]

theorem find_eq_some (c : Char) (text : List Char) (i : Nat) :
    find c text = some i ↔ c ∈ text ∧ text.indexOf c = i := by
  unfold find
  rw [← List.indexOf_lt_length]
  split <;> simp [*]

theorem indexOf_append_cons (c : Char) (pre post : List Char) (h : c ∉ pre) :
    (pre ++ c :: post).indexOf c = pre.length := by
  rw [List.indexOf_append_of_not_mem h, List.indexOf_cons_self, Nat.add_zero]

theorem parseEndpoint_format (text : String) :
    (∃ message, parseEndpoint text = .error (.invalidFormat message)) ↔
      ('#' ∉ text.data ∨ ':' ∉ text.data ∨ text.data.indexOf ':' < text.data.indexOf '#') := by
  unfold parseEndpoint
  cases hh : find '#' text.data with
  | none =>
    have := (find_eq_none _ _).1 hh
    simp [this]
  | some hash =>
    cases hc : find ':' text.data with
    | none =>
      have := (find_eq_none _ _).1 hc
      simp [this]
    | some colon =>
      obtain ⟨hm1, hi1⟩ := (find_eq_some _ _ _).1 hh
      obtain ⟨hm2, hi2⟩ := (find_eq_some _ _ _).1 hc
      simp only [hm1, hm2, not_true_eq_false, false_or, hi1, hi2]
      by_cases hgt : hash > colon
      · simp [hgt]
      · simp only [hgt, if_false, iff_false, not_exists]
        intro message
        cases h1 : stoi (List.take hash text.data) with
        | error e =>
          intro h
          simp only [Except.error.injEq] at h
          exact stoi_ne_invalidFormat _ message (h1.trans (congrArg Except.error h))
        | ok blockId =>
          cases h2 : stoi (List.drop (colon + 1) text.data) with
          | error e =>
            intro h
            simp only [Except.error.injEq] at h
            exact stoi_ne_invalidFormat _ message (h2.trans (congrArg Except.error h))
          | ok port => simp

theorem parseEndpoint_value (text : String) (b p : Int) (bs seg ps : List Char)
    (htext : text.data = bs ++ '#' :: (seg ++ ':' :: ps))
    (hb : decimal bs = some b) (hp : decimal ps = some p) (hbi : IsInt b) (hpi : IsInt p)
    (hseg2 : ':' ∉ seg) : parseEndpoint text = .ok (b, p) := by
  have hbs1 : '#' ∉ bs := by
    intro h
    rcases decimal_chars bs b hb _ h with h1 | h1
    · revert h1; decide
    · revert h1; decide
  have hbs2 : ':' ∉ bs := by
    intro h
    rcases decimal_chars bs b hb _ h with h1 | h1
    · revert h1; decide
    · revert h1; decide
  have hhash : find '#' text.data = some bs.length := by
    rw [find_eq_some, htext, indexOf_append_cons _ _ _ hbs1]
    simp
  have hcolon : find ':' text.data = some (bs.length + 1 + seg.length) := by
    have hre : bs ++ '#' :: (seg ++ ':' :: ps) = (bs ++ '#' :: seg) ++ ':' :: ps := by simp
    have hnot : ':' ∉ bs ++ '#' :: seg := by
      simp only [List.mem_append, List.mem_cons, not_or]
      exact ⟨hbs2, by decide, hseg2⟩
    rw [find_eq_some, htext, hre, indexOf_append_cons _ _ _ hnot]
    simp
    omega
  have htake : List.take bs.length text.data = bs := by
    rw [htext, List.take_left]
  have hdrop : List.drop (bs.length + 1 + seg.length + 1) text.data = ps := by
    have hre : bs ++ '#' :: (seg ++ ':' :: ps) = (bs ++ '#' :: seg ++ [':']) ++ ps := by simp
    rw [htext, hre]
    apply List.drop_left'
    simp
    omega
  unfold parseEndpoint
  simp only [hhash, hcolon]
  rw [if_neg (by omega), htake, hdrop, stoi_decimal bs b hb hbi, stoi_decimal ps p hp hpi]

/-- C16 (amended): `parseEndpoint` raises the format error exactly when the
text has no `#`, has no `:`, or its first `#` comes after its first `:`; and on
a text `<b>#<segment>:<p>`, where `<b>` and `<p>` are decimal numerals of
integers `b` and `p` in the range of `int` and the segment has neither `#` nor
`:`, it yields the block identifier `b` and the port `p`. -/
theorem parseEndpoint_spec (text : String) :
    ((∃ message, parseEndpoint text = .error (.invalidFormat message)) ↔
      ('#' ∉ text.data ∨ ':' ∉ text.data ∨ text.data.indexOf ':' < text.data.indexOf '#')) ∧
    ∀ (b p : Int) (bs seg ps : List Char),
      text.data = bs ++ '#' :: (seg ++ ':' :: ps) → decimal bs = some b → decimal ps = some p →
      IsInt b → IsInt p → '#' ∉ seg → ':' ∉ seg → parseEndpoint text = .ok (b, p) :=
  ⟨parseEndpoint_format text, fun b p bs seg ps h1 h2 h3 h4 h5 _ h7 =>
    parseEndpoint_value text b p bs seg ps h1 h2 h3 h4 h5 h7⟩

theorem parseEndpoint_spec_witness :
    parseEndpoint "-3#out:12" = .ok (-3, 12) :=
  (parseEndpoint_spec "-3#out:12").2 (-3) 12 ['-', '3'] ['o', 'u', 't'] ['1', '2']
    rfl (by rfl) (by rfl) (by decide) (by decide) (by decide) (by decide)

theorem record_drops (g : Graph) (s sp d dp : Int) (h : g.missing s ∨ g.missing d) :
    record g s sp d dp = .ok g := by
  unfold record
  rcases h with h | h
  · rw [(blockAt_eq_none g s).2 h]
  · rw [(blockAt_eq_none g d).2 h]
    cases g.blockAt s <;> rfl

/-- C15: when both endpoint strings parse and the source or the destination
block identifier is negative, is not below the size of the block array, or
indexes an empty slot, `createConnection` raises no error and returns the
graph unchanged. -/
theorem createConnection_drops (g : Graph) (srcStr dstStr : String) (s sp d dp : Int)
    (hs : parseEndpoint srcStr = .ok (s, sp)) (hd : parseEndpoint dstStr = .ok (d, dp))
    (h : g.missing s ∨ g.missing d) : createConnection srcStr dstStr g = .ok g := by
  unfold createConnection
  simp only [hs, hd]
  exact record_drops g s sp d dp h

theorem createConnection_drops_witness :
    createConnection "8#out:1" "42#in:1" scenario = .ok scenario :=
  createConnection_drops scenario "8#out:1" "42#in:1" 8 1 42 1 (by rfl) (by rfl) (by decide)

/-! ## Recording connections -/

theorem pushBack_perm (f : DestPair → Int × Int × Int) (sp : Int) (dest : DestPair)
    (pm : PortMap) :
    ((pushBack pm sp dest).flatMap (fun entry => entry.2.map f)).Perm
      (f dest :: pm.flatMap (fun entry => entry.2.map f)) := by
  induction pm with
  | nil => simp [pushBack]
  | cons entry rest ih =>
    rw [pushBack]
    split
    · simp only [List.flatMap_cons, List.map_append, List.map_cons, List.map_nil,
        List.append_assoc, List.singleton_append]
      exact List.perm_middle
    · simp only [List.flatMap_cons]
      exact (List.Perm.append_left _ ih).trans List.perm_middle

theorem fanoutFrom_set (sp : Int) (dest : DestPair) (l : List PortMap) :
    ∀ (s0 i : Nat), i < l.length →
      (fanoutFrom s0 (l.set i (pushBack (l.getD i []) sp dest))).Perm
        ((((s0 + i : Nat) : Int), dest.1, dest.2) :: fanoutFrom s0 l) := by
  induction l with
  | nil => intro s0 i h; simp at h
  | cons pm rest ih =>
    intro s0 i h
    cases i with
    | zero =>
      simp only [List.set_cons_zero, List.getD_cons_zero, fanoutFrom, Nat.add_zero]
      exact List.Perm.append_right _
        (pushBack_perm (fun destPair => ((s0 : Int), destPair.1, destPair.2)) sp dest pm)
    | succ i =>
      simp only [List.set_cons_succ, List.getD_cons_succ, fanoutFrom]
      have := ih (s0 + 1) i (by simpa using h)
      have hcast : ((s0 + 1 + i : Nat) : Int) = ((s0 + (i + 1) : Nat) : Int) := by
        congr 1; omega
      rw [hcast] at this
      exact (List.Perm.append_left _ this).trans List.perm_middle

theorem assign_fresh (inputs : List (Int × Int)) (port source : Int)
    (h : inputs.lookup port = none) : assign inputs port source = inputs ++ [(port, source)] := by
  induction inputs with
  | nil => rfl
  | cons e l ih =>
    obtain ⟨k, v⟩ := e
    by_cases hk : k = port
    · subst hk
      simp [List.lookup] at h
    · have hbeq : (port == k) = false := by
        simp only [beq_eq_false_iff_ne, ne_eq]
        exact fun h => hk h.symm
      simp only [List.lookup, hbeq] at h
      rw [assign, if_neg hk, ih h]
      rfl

theorem inputsFrom_set (source port : Int) (l : List (Option Block)) :
    ∀ (d0 i : Nat) (b : Block), l[i]? = some (some b) → b.inputs.lookup port = none →
      (inputsFrom d0 (l.set i (some { b with inputs := assign b.inputs port source }))).Perm
        ((source, ((d0 + i : Nat) : Int), port) :: inputsFrom d0 l) := by
  induction l with
  | nil => intro d0 i b h; simp at h
  | cons slot rest ih =>
    intro d0 i b h hfresh
    cases i with
    | zero =>
      simp only [List.getElem?_cons_zero, Option.some.injEq] at h
      subst h
      simp only [List.set_cons_zero, inputsFrom, Nat.add_zero]
      rw [assign_fresh _ _ _ hfresh]
      simp only [List.map_append, List.map_cons, List.map_nil, List.append_assoc,
        List.singleton_append]
      exact List.perm_middle
    | succ i =>
      simp only [List.getElem?_cons_succ] at h
      have := ih (d0 + 1) i b h hfresh
      have hcast : ((d0 + 1 + i : Nat) : Int) = ((d0 + (i + 1) : Nat) : Int) := by
        congr 1; omega
      rw [hcast] at this
      simp only [List.set_cons_succ]
      cases slot with
      | none => simpa only [inputsFrom] using this
      | some c =>
        simp only [inputsFrom]
        exact (List.Perm.append_left _ this).trans List.perm_middle

theorem mem_assign_keys (inputs : List (Int × Int)) (port source x : Int) :
    x ∈ (assign inputs port source).map Prod.fst ↔ x = port ∨ x ∈ inputs.map Prod.fst := by
  induction inputs with
  | nil => simp [assign]
  | cons e l ih =>
    rw [assign]
    split
    · rename_i he
      simp only [List.map_cons, List.mem_cons, he]
      tauto
    · simp only [List.map_cons, List.mem_cons, ih]
      tauto

theorem assign_keys_nodup (inputs : List (Int × Int)) (port source : Int)
    (h : (inputs.map Prod.fst).Nodup) : ((assign inputs port source).map Prod.fst).Nodup := by
  induction inputs with
  | nil => simp [assign]
  | cons e l ih =>
    rw [List.map_cons, List.nodup_cons] at h
    rw [assign]
    split
    · rename_i he
      rw [List.map_cons, List.nodup_cons]
      exact ⟨he ▸ h.1, h.2⟩
    · rename_i he
      rw [List.map_cons, List.nodup_cons, mem_assign_keys]
      exact ⟨fun hx => hx.elim he h.1, ih h.2⟩

theorem count_map_dest (s d q : Int) (s0 : Nat) (l : List DestPair) :
    (l.map (fun destPair => ((s0 : Int), destPair.1, destPair.2))).count (s, d, q)
      = if (s0 : Int) = s then l.count (d, q) else 0 := by
  induction l with
  | nil => simp
  | cons dp l ih =>
    obtain ⟨a, b⟩ := dp
    rw [List.map_cons, List.count_cons, ih, List.count_cons]
    by_cases hs : (s0 : Int) = s <;> simp [hs]

theorem count_fanout_slot (s d q : Int) (s0 : Nat) (pm : PortMap) :
    (pm.flatMap (fun entry => entry.2.map
        (fun destPair => ((s0 : Int), destPair.1, destPair.2)))).count (s, d, q)
      = if (s0 : Int) = s then (pm.flatMap (fun entry => entry.2)).count (d, q) else 0 := by
  induction pm with
  | nil => simp
  | cons entry rest ih =>
    rw [List.flatMap_cons, List.count_append, ih, count_map_dest, List.flatMap_cons,
      List.count_append]
    split <;> simp

theorem count_fanoutFrom (s d q : Int) (l : List PortMap) :
    ∀ s0 : Nat, (fanoutFrom s0 l).count (s, d, q)
      = if (s0 : Int) ≤ s then
          ((l.getD (s - s0).toNat []).flatMap (fun entry => entry.2)).count (d, q)
        else 0 := by
  induction l with
  | nil => intro s0; simp [fanoutFrom]
  | cons portMap rest ih =>
    intro s0
    rw [fanoutFrom, List.count_append, count_fanout_slot, ih]
    rcases lt_trichotomy (s0 : Int) s with h | h | h
    · have h1 : ¬ (s0 : Int) = s := by omega
      have h2 : ((s0 + 1 : Nat) : Int) ≤ s := by push_cast; omega
      have h3 : (s0 : Int) ≤ s := by omega
      have h4 : (s - (s0 : Int)).toNat = (s - ((s0 + 1 : Nat) : Int)).toNat + 1 := by
        push_cast; omega
      rw [if_neg h1, if_pos h2, if_pos h3, h4, List.getD_cons_succ]
      simp
    · have h2 : ¬ ((s0 + 1 : Nat) : Int) ≤ s := by push_cast; omega
      have h3 : (s0 : Int) ≤ s := by omega
      have h4 : (s - (s0 : Int)).toNat = 0 := by omega
      rw [if_pos h, if_neg h2, if_pos h3, h4, List.getD_cons_zero]
      simp
    · have h1 : ¬ (s0 : Int) = s := by omega
      have h2 : ¬ ((s0 + 1 : Nat) : Int) ≤ s := by push_cast; omega
      have h3 : ¬ (s0 : Int) ≤ s := by omega
      rw [if_neg h1, if_neg h2, if_neg h3]

theorem count_inputs_slot (s d q : Int) (d0 : Nat) (inputs : List (Int × Int)) :
    (inputs.map (fun entry => (entry.2, (d0 : Int), entry.1))).count (s, d, q)
      = if (d0 : Int) = d then inputs.count (q, s) else 0 := by
  induction inputs with
  | nil => simp
  | cons e l ih =>
    obtain ⟨a, b⟩ := e
    rw [List.map_cons, List.count_cons, ih, List.count_cons]
    by_cases hd : (d0 : Int) = d <;> simp [hd, and_comm]

theorem count_inputsFrom (s d q : Int) (l : List (Option Block)) :
    ∀ d0 : Nat, (inputsFrom d0 l).count (s, d, q)
      = if (d0 : Int) ≤ d then
          (match l.getD (d - d0).toNat none with
           | some b => b.inputs.count (q, s)
           | none => 0)
        else 0 := by
  induction l with
  | nil => intro d0; simp [inputsFrom]
  | cons slot rest ih =>
    intro d0
    have hrest := ih (d0 + 1)
    rcases lt_trichotomy (d0 : Int) d with h | h | h
    · have h2 : ((d0 + 1 : Nat) : Int) ≤ d := by push_cast; omega
      have h3 : (d0 : Int) ≤ d := by omega
      have h4 : (d - (d0 : Int)).toNat = (d - ((d0 + 1 : Nat) : Int)).toNat + 1 := by
        push_cast; omega
      rw [if_pos h2] at hrest
      rw [if_pos h3, h4, List.getD_cons_succ, ← hrest]
      cases slot with
      | none => simp [inputsFrom]
      | some b =>
        have h1 : ¬ (d0 : Int) = d := by omega
        rw [inputsFrom, List.count_append, count_inputs_slot, if_neg h1]
        simp
    · have h2 : ¬ ((d0 + 1 : Nat) : Int) ≤ d := by push_cast; omega
      have h3 : (d0 : Int) ≤ d := by omega
      have h4 : (d - (d0 : Int)).toNat = 0 := by omega
      rw [if_neg h2] at hrest
      rw [if_pos h3, h4, List.getD_cons_zero]
      cases slot with
      | none => rw [inputsFrom, hrest]
      | some b =>
        rw [inputsFrom, List.count_append, count_inputs_slot, if_pos h, hrest]
        simp
    · have h2 : ¬ ((d0 + 1 : Nat) : Int) ≤ d := by push_cast; omega
      have h3 : ¬ (d0 : Int) ≤ d := by omega
      rw [if_neg h2] at hrest
      rw [if_neg h3]
      cases slot with
      | none => rw [inputsFrom, hrest]
      | some b =>
        have h1 : ¬ (d0 : Int) = d := by omega
        rw [inputsFrom, List.count_append, count_inputs_slot, if_neg h1, hrest]

theorem count_of_keys_nodup (inputs : List (Int × Int)) (q s : Int)
    (h : (inputs.map Prod.fst).Nodup) :
    inputs.count (q, s) = if inputs.lookup q = some s then 1 else 0 := by
  induction inputs with
  | nil => simp
  | cons e l ih =>
    obtain ⟨k, v⟩ := e
    rw [List.map_cons, List.nodup_cons] at h
    rw [List.count_cons]
    by_cases hk : q = k
    · subst hk
      have hzero : l.count (q, s) = 0 :=
        List.count_eq_zero_of_not_mem (fun hm => h.1 (List.mem_map.2 ⟨(q, s), hm, rfl⟩))
      simp [List.lookup, hzero]
    · have hbeq : (q == k) = false := by simpa using hk
      have hne : ¬ (k = q ∧ v = s) := fun hh => hk hh.1.symm
      simp only [List.lookup, hbeq, ih h.2]
      simp [hne]

theorem mem_inputsFrom (l : List (Option Block)) (s d q : Int) (D : Block) (hd : 0 ≤ d)
    (hD : l[d.toNat]? = some (some D)) (hmem : (q, s) ∈ D.inputs) :
    (s, d, q) ∈ inputsFrom 0 l := by
  rw [← List.count_pos_iff, count_inputsFrom]
  simp only [Nat.cast_zero, sub_zero, hd, if_true, List.getD_eq_getElem?_getD, hD,
    Option.getD_some]
  exact List.count_pos_iff.2 hmem

theorem fanoutFrom_replicate (n : Nat) : ∀ s0, fanoutFrom s0 (List.replicate n []) = [] := by
  induction n with
  | zero => intro s0; rfl
  | succ n ih => intro s0; simp [List.replicate_succ, fanoutFrom, ih]

theorem inputsFrom_no_inputs (l : List (Option Block))
    (h : ∀ slot ∈ l, ∀ b ∈ slot, Block.inputs b = []) : ∀ d0, inputsFrom d0 l = [] := by
  induction l with
  | nil => intro d0; rfl
  | cons slot rest ih =>
    intro d0
    have hrest := ih (fun slot hs => h slot (List.mem_cons_of_mem _ hs)) (d0 + 1)
    cases slot with
    | none => rw [inputsFrom, hrest]
    | some b =>
      have := h (some b) (List.mem_cons_self _ _) b rfl
      rw [inputsFrom, hrest, this]
      rfl

theorem loadInv_init (g0 : Graph) (h0 : NoConnections g0) : LoadInv g0 [] g0 := by
  refine ⟨?_, fun _ => rfl, ?_, ?_, ?_⟩
  · rw [h0.1, List.length_replicate]
  · rw [h0.1, fanoutFrom_replicate]
  · rw [inputsFrom_no_inputs _ h0.2]
  · intro slot hs b hb
    rw [h0.2 slot hs b hb]
    exact List.nodup_nil

theorem blockAt_set_isSome (g : Graph) (outputs : List PortMap) (d : Int) (D D1 : Block)
    (hD : g.blockAt d = some D) (x : Int) :
    (Graph.blockAt { blockOutputs := outputs, blocks := g.blocks.set d.toNat (some D1) } x).isSome
      = (g.blockAt x).isSome := by
  obtain ⟨_, hget⟩ := (blockAt_eq_some g d D).1 hD
  have hlt : d.toNat < g.blocks.length := by
    rcases Nat.lt_or_ge d.toNat g.blocks.length with h | h
    · exact h
    · rw [List.getElem?_eq_none h] at hget
      cases hget
  unfold Graph.blockAt
  by_cases hx : x < 0
  · simp [hx]
  · simp only [hx, if_false, List.getD_eq_getElem?_getD, List.getElem?_set]
    by_cases hi : d.toNat = x.toNat
    · rw [if_pos hi, if_pos hlt, ← hi, hget]
      rfl
    · rw [if_neg hi]

theorem loadInv_record (g0 g g1 : Graph) (recorded : List (Int × Int × Int))
    (s sp d dp : Int) (S D : Block) (hinv : LoadInv g0 recorded g)
    (hS : g.blockAt s = some S) (hD : g.blockAt d = some D)
    (hfresh : (d, dp) ∉ recorded.map (fun e => e.2))
    (h : record g s sp d dp = .ok g1) : LoadInv g0 ((s, d, dp) :: recorded) g1 := by
  obtain ⟨hs0, hsget⟩ := (blockAt_eq_some g s S).1 hS
  obtain ⟨hd0, hdget⟩ := (blockAt_eq_some g d D).1 hD
  have hslt : s.toNat < g.blockOutputs.length := by
    rw [hinv.len]
    rcases Nat.lt_or_ge s.toNat g.blocks.length with h | h
    · exact h
    · rw [List.getElem?_eq_none h] at hsget
      cases hsget
  have hlookup : D.inputs.lookup dp = none := by
    cases hl : D.inputs.lookup dp with
    | none => rfl
    | some s1 =>
      exfalso
      apply hfresh
      have hm := mem_inputsFrom g.blocks s1 d dp D hd0 hdget (lookup_mem _ _ _ hl)
      exact List.mem_map.2 ⟨(s1, d, dp), (hinv.inp.mem_iff).1 hm, rfl⟩
  unfold record at h
  simp only [hS, hD] at h
  rw [if_neg (by omega)] at h
  simp only [Except.ok.injEq] at h
  subst h
  refine ⟨?_, ?_, ?_, ?_, ?_⟩
  · simp only [List.length_set]
    exact hinv.len
  · intro x
    exact (blockAt_set_isSome g _ d D _ hD x).trans (hinv.live x)
  · have := fanoutFrom_set sp (d, dp) g.blockOutputs 0 s.toNat hslt
    have hcast : ((0 + s.toNat : Nat) : Int) = s := by
      rw [Nat.zero_add]; omega
    rw [hcast] at this
    exact this.trans (List.Perm.cons _ hinv.fan)
  · have := inputsFrom_set s dp g.blocks 0 d.toNat D hdget hlookup
    have hcast : ((0 + d.toNat : Nat) : Int) = d := by
      rw [Nat.zero_add]; omega
    rw [hcast] at this
    exact this.trans (List.Perm.cons _ hinv.inp)
  · intro slot hslot b hb
    rcases List.mem_or_eq_of_mem_set hslot with hm | hm
    · exact hinv.keys slot hm b hb
    · subst hm
      simp only [Option.mem_def, Option.some.injEq] at hb
      subst hb
      exact assign_keys_nodup _ _ _
        (hinv.keys (some D) (List.mem_iff_getElem?.2 ⟨_, hdget⟩) D rfl)

theorem record_of_missing (g : Graph) (s sp d dp : Int)
    (h : ¬ ((g.blockAt s).isSome = true ∧ (g.blockAt d).isSome = true)) :
    record g s sp d dp = .ok g := by
  unfold record
  cases hs : g.blockAt s with
  | none => rfl
  | some S =>
    cases hd : g.blockAt d with
    | none => rfl
    | some D => simp [hs, hd] at h

theorem parseLines_inv (g0 : Graph) (lines : List (String × String)) :
    ∀ (g g1 : Graph) (recorded : List (Int × Int × Int)), LoadInv g0 recorded g →
      (recorded.map (fun e => e.2) ++ recordedDsts g0 lines).Nodup →
      parseLines lines g = .ok g1 → ∃ all, LoadInv g0 all g1 := by
  induction lines with
  | nil =>
    intro g g1 recorded hinv _ h
    simp only [parseLines, Except.ok.injEq] at h
    exact ⟨recorded, h ▸ hinv⟩
  | cons line rest ih =>
    intro g g1 recorded hinv hnd h
    rw [parseLines] at h
    cases hc : createConnection line.1 line.2 g with
    | error e => simp [hc] at h
    | ok g2 =>
      simp only [hc] at h
      unfold createConnection at hc
      cases hsrc : parseEndpoint line.1 with
      | error e => simp [hsrc] at hc
      | ok src =>
        cases hdst : parseEndpoint line.2 with
        | error e => simp [hsrc, hdst] at hc
        | ok dst =>
          simp only [hsrc, hdst] at hc
          by_cases hlive : (g.blockAt src.1).isSome = true ∧ (g.blockAt dst.1).isSome = true
          · have hlive0 : (g0.blockAt src.1).isSome = true ∧ (g0.blockAt dst.1).isSome = true := by
              rw [← hinv.live, ← hinv.live]; exact hlive
            have hrec : recordedDsts g0 (line :: rest) = (dst.1, dst.2) :: recordedDsts g0 rest := by
              simp [recordedDsts, recordedLine, hsrc, hdst, hlive0]
            rw [hrec] at hnd
            obtain ⟨S, hS⟩ := Option.isSome_iff_exists.1 hlive.1
            obtain ⟨D, hD⟩ := Option.isSome_iff_exists.1 hlive.2
            have hnd2 := (List.perm_middle.nodup_iff).1 hnd
            rw [List.nodup_cons] at hnd2
            have hfresh : (dst.1, dst.2) ∉ recorded.map (fun e => e.2) :=
              fun hm => hnd2.1 (List.mem_append_left _ hm)
            have hinv2 := loadInv_record g0 g g2 recorded src.1 src.2 dst.1 dst.2 S D hinv hS hD
              hfresh hc
            exact ih g2 g1 _ hinv2 (by
              rw [List.map_cons, List.cons_append]
              exact (List.perm_middle.nodup_iff).1 hnd) h
          · have hlive0 : ¬ ((g0.blockAt src.1).isSome = true ∧ (g0.blockAt dst.1).isSome = true) := by
              rw [← hinv.live, ← hinv.live]; exact hlive
            have hrec : recordedDsts g0 (line :: rest) = recordedDsts g0 rest := by
              simp [recordedDsts, recordedLine, hsrc, hdst, hlive0]
            rw [hrec] at hnd
            rw [record_of_missing g _ _ _ _ hlive] at hc
            simp only [Except.ok.injEq] at hc
            subst hc
            exact ih g g1 recorded hinv hnd h

theorem loadInv_counts (g0 g : Graph) (recorded : List (Int × Int × Int))
    (hinv : LoadInv g0 recorded g) (s d q : Int) :
    fanoutCount g s d q
      = match g.blockAt d with
        | some D => if D.inputs.lookup q = some s then 1 else 0
        | none => 0 := by
  have h : (fanoutFrom 0 g.blockOutputs).count (s, d, q)
      = (inputsFrom 0 g.blocks).count (s, d, q) :=
    (hinv.fan.trans hinv.inp.symm).countP_eq _
  rw [count_fanoutFrom, count_inputsFrom] at h
  simp only [Nat.cast_zero, sub_zero] at h
  have hleft : fanoutCount g s d q
      = if (0 : Int) ≤ s then
          ((g.blockOutputs.getD s.toNat []).flatMap (fun entry => entry.2)).count (d, q)
        else 0 := by
    unfold fanoutCount Graph.outputsAt
    by_cases hs : s < 0
    · rw [if_pos hs, if_neg (by omega)]
      rfl
    · rw [if_neg hs, if_pos (by omega)]
  rw [hleft, h]
  unfold Graph.blockAt
  by_cases hd : d < 0
  · rw [if_neg (by omega), if_pos hd]
  · rw [if_pos (by omega), if_neg hd]
    cases hD : g.blocks.getD d.toNat none with
    | none => rfl
    | some D =>
      simp only
      apply count_of_keys_nodup
      apply hinv.keys (some D) _ D rfl
      rw [List.getD_eq_getElem?_getD] at hD
      cases hget : g.blocks[d.toNat]? with
      | none => simp [hget] at hD
      | some slot =>
        simp only [hget, Option.getD_some] at hD
        subst hD
        exact List.mem_iff_getElem?.2 ⟨_, hget⟩

/-- C14 (amended): starting from a graph with blocks and no connections, when
the loader has recorded a sequence of lines in which no destination
`(block, port)` is recorded more than once, the fan-out table is the exact
inverse of the `inputs` maps: for all `s`, `d` and `q`, the pair `(d, q)` occurs
in the fan-out lists of `s` exactly once if `d` is a block whose `inputs` map
`q` to `s`, and not at all otherwise. -/
theorem parseLines_inverse (g0 g : Graph) (lines : List (String × String))
    (h0 : NoConnections g0) (hsingle : (recordedDsts g0 lines).Nodup)
    (hload : parseLines lines g0 = .ok g) :
    Consistent g ∧
      ∀ s d q : Int, fanoutCount g s d q
        = match g.blockAt d with
          | some D => if D.inputs.lookup q = some s then 1 else 0
          | none => 0 := by
  obtain ⟨all, hinv⟩ := parseLines_inv g0 lines g0 g [] (loadInv_init g0 h0)
    (by simpa using hsingle) hload
  exact ⟨hinv.fan.trans hinv.inp.symm, loadInv_counts g0 g all hinv⟩

theorem parseLines_inverse_witness :
    Consistent
        { blockOutputs := [[(1, [(2, 1)])], [], []],
          blocks := [some (Block.new 0 "a" "Inport"), some (Block.new 1 "b" "Inport"),
            some { Block.new 2 "g" "Gain" with inputs := [(1, 0)] }] } ∧
      ∀ s d q : Int, fanoutCount
          { blockOutputs := [[(1, [(2, 1)])], [], []],
            blocks := [some (Block.new 0 "a" "Inport"), some (Block.new 1 "b" "Inport"),
              some { Block.new 2 "g" "Gain" with inputs := [(1, 0)] }] } s d q
        = match Graph.blockAt
            { blockOutputs := [[(1, [(2, 1)])], [], []],
              blocks := [some (Block.new 0 "a" "Inport"), some (Block.new 1 "b" "Inport"),
                some { Block.new 2 "g" "Gain" with inputs := [(1, 0)] }] } d with
          | some D => if D.inputs.lookup q = some s then 1 else 0
          | none => 0 :=
  parseLines_inverse threeBlocks _ [("0#out:1", "2#in:1"), ("1#out:1", "7#in:1")]
    (by decide) (by decide) (by rfl)

/-- C14 (as stated) fails: after the two lines `0#out:1 -> 2#in:1` and
`1#out:1 -> 2#in:1` on three unconnected blocks, the pair `(2, 1)` occurs once
in the fan-out lists of block 0 although input port 1 of block 2 is mapped to
block 1, and the fan-out table is not the inverse of the `inputs` maps. -/
theorem parseLines_double_assignment :
    NoConnections threeBlocks ∧
      parseLines [("0#out:1", "2#in:1"), ("1#out:1", "2#in:1")] threeBlocks
        = .ok { blockOutputs := [[(1, [(2, 1)])], [(1, [(2, 1)])], []],
                blocks := [some (Block.new 0 "a" "Inport"), some (Block.new 1 "b" "Inport"),
                  some { Block.new 2 "g" "Gain" with inputs := [(1, 1)] }] } ∧
      ¬ Consistent
        { blockOutputs := [[(1, [(2, 1)])], [(1, [(2, 1)])], []],
          blocks := [some (Block.new 0 "a" "Inport"), some (Block.new 1 "b" "Inport"),
            some { Block.new 2 "g" "Gain" with inputs := [(1, 1)] }] } ∧
      Graph.blockAt
        { blockOutputs := [[(1, [(2, 1)])], [(1, [(2, 1)])], []],
          blocks := [some (Block.new 0 "a" "Inport"), some (Block.new 1 "b" "Inport"),
            some { Block.new 2 "g" "Gain" with inputs := [(1, 1)] }] } 2
        = some { Block.new 2 "g" "Gain" with inputs := [(1, 1)] } ∧
      fanoutCount
        { blockOutputs := [[(1, [(2, 1)])], [(1, [(2, 1)])], []],
          blocks := [some (Block.new 0 "a" "Inport"), some (Block.new 1 "b" "Inport"),
            some { Block.new 2 "g" "Gain" with inputs := [(1, 1)] }] } 0 2 1 = 1 :=
  ⟨by decide, by rfl, by decide, by rfl, by rfl⟩

/-! ## The storage slots that occur in a text -/

theorem slotsIn_cons_ne (c : Char) (t : List Char) (h : c ≠ 'n') :
    slotsIn (c :: t) = slotsIn t := by
  rw [slotsIn, if_neg]
  intro h6
  have := congrArg List.head? h6
  simp [slotPrefix] at this
  exact h this

theorem slotsIn_skip (a t : List Char) (h : 'n' ∉ a) : slotsIn (a ++ t) = slotsIn t := by
  induction a with
  | nil => rfl
  | cons c a ih =>
    simp only [List.mem_cons, not_or] at h
    rw [List.cons_append, slotsIn_cons_ne _ _ (fun hc => h.1 hc.symm), ih h.2]

theorem slotsIn_sign (c : Char) (t : List Char) :
    slotsIn (c :: ' ' :: t) = slotsIn (' ' :: t) := by
  rw [slotsIn, if_neg]
  intro h6
  have := congrArg (fun l => l[1]?) h6
  simp [slotPrefix] at this

theorem take_append_sep (A t : List Char) (d : Char) (hd : d ∉ slotPrefix)
    (h : (A ++ d :: t).take 6 = slotPrefix) : A.take 6 = slotPrefix := by
  rw [List.take_append_eq_append_take] at h
  cases hk : 6 - A.length with
  | zero => rw [hk] at h; simpa using h
  | succ k =>
    rw [hk, List.take_succ_cons] at h
    exfalso
    apply hd
    rw [← h]
    simp

theorem slotsIn_noSlot (A : List Char) (d : Char) (t : List Char) (hA : slotsIn A = [])
    (hd : d ∉ slotPrefix) : slotsIn (A ++ d :: t) = slotsIn (d :: t) := by
  induction A with
  | nil => rfl
  | cons c A ih =>
    rw [slotsIn] at hA
    split at hA
    · cases hA
    · rename_i hno
      rw [List.cons_append, slotsIn, if_neg, ih hA]
      intro h6
      exact hno (take_append_sep (c :: A) t d hd h6)

theorem dot_not_ident : isIdentChar '.' = false := by decide

theorem slotsIn_ident (X : List Char) (hX : ∀ c ∈ X, isIdentChar c = true) : slotsIn X = [] := by
  induction X with
  | nil => rfl
  | cons c X ih =>
    rw [slotsIn, if_neg, ih (fun x hx => hX x (List.mem_cons_of_mem _ hx))]
    intro h6
    have hmem : '.' ∈ (c :: X).take 6 := by rw [h6]; simp [slotPrefix]
    have := hX '.' (List.mem_of_mem_take hmem)
    rw [dot_not_ident] at this
    cases this

theorem takeWhile_ident (X : List Char) (d : Char) (t : List Char)
    (hX : ∀ c ∈ X, isIdentChar c = true) (hd : isIdentChar d = false) :
    (X ++ d :: t).takeWhile isIdentChar = X := by
  induction X with
  | nil => simp [List.takeWhile, hd]
  | cons c X ih =>
    rw [List.cons_append, List.takeWhile_cons, if_pos (hX c (List.mem_cons_self _ _)),
      ih (fun x hx => hX x (List.mem_cons_of_mem _ hx))]

theorem not_mem_slotPrefix (d : Char) (hd : isIdentChar d = false) (hdot : d ≠ '.') :
    d ∉ slotPrefix := by
  intro h
  simp only [slotPrefix, List.mem_cons, List.mem_singleton, List.not_mem_nil, or_false] at h
  rcases h with h | h | h | h | h | h
  · subst h; revert hd; decide
  · subst h; revert hd; decide
  · subst h; revert hd; decide
  · subst h; revert hd; decide
  · subst h; revert hd; decide
  · exact hdot h

theorem slotsIn_slot (X : String) (d : Char) (t : List Char)
    (hX : ∀ c ∈ X.data, isIdentChar c = true) (hd : isIdentChar d = false) (hdot : d ≠ '.') :
    slotsIn (slotPrefix ++ (X.data ++ d :: t)) = X :: slotsIn (d :: t) := by
  have hnot := not_mem_slotPrefix d hd hdot
  show slotsIn ('n' :: 'w' :: 'o' :: 'c' :: 'g' :: '.' :: (X.data ++ d :: t)) = _
  rw [slotsIn, if_pos (by rfl)]
  congr 1
  · show String.mk ((X.data ++ d :: t).takeWhile isIdentChar) = X
    rw [takeWhile_ident _ _ _ hX hd]
  · rw [slotsIn_cons_ne _ _ (by decide), slotsIn_cons_ne _ _ (by decide),
      slotsIn_cons_ne _ _ (by decide), slotsIn_cons_ne _ _ (by decide),
      slotsIn_cons_ne _ _ (by decide)]
    exact slotsIn_noSlot _ _ _ (slotsIn_ident _ hX) hnot

/-! ## The storage slots of the emitted lines -/

theorem slotsIn_assign (name : String) (R : List Char)
    (hX : ∀ c ∈ name.data, isIdentChar c = true) :
    slotsIn ("    nwocg.".data ++ (name.data ++ (" = ".data ++ R))) = name :: slotsIn R := by
  show slotsIn (' ' :: ' ' :: ' ' :: ' ' :: (slotPrefix ++ (name.data ++ ' ' :: '=' :: ' ' :: R)))
    = _
  rw [slotsIn_cons_ne _ _ (by decide), slotsIn_cons_ne _ _ (by decide),
    slotsIn_cons_ne _ _ (by decide), slotsIn_cons_ne _ _ (by decide),
    slotsIn_slot name ' ' _ hX (by decide) (by decide),
    slotsIn_cons_ne _ _ (by decide), slotsIn_cons_ne _ _ (by decide),
    slotsIn_cons_ne _ _ (by decide)]

theorem dropWhile_until (A t : List Char) (h : ∀ c ∈ A, c ≠ '=') :
    (A ++ '=' :: t).dropWhile (fun c => c != '=') = '=' :: t := by
  induction A with
  | nil => simp [List.dropWhile]
  | cons c A ih =>
    have hc : (c != '=') = true := by simpa using h c (List.mem_cons_self _ _)
    rw [List.cons_append, List.dropWhile_cons, if_pos hc]
    exact ih (fun x hx => h x (List.mem_cons_of_mem _ hx))

theorem rhs_assign (name : String) (R : List Char)
    (hX : ∀ c ∈ name.data, isIdentChar c = true) :
    rhs ("    nwocg.".data ++ (name.data ++ (" = ".data ++ R))) = ' ' :: R := by
  have hform : "    nwocg.".data ++ (name.data ++ (" = ".data ++ R))
      = ("    nwocg.".data ++ (name.data ++ [' '])) ++ '=' :: (' ' :: R) := by
    show _ = ("    nwocg.".data ++ (name.data ++ [' '])) ++ ([ '=' ] ++ ' ' :: R)
    simp only [List.append_assoc]
    rfl
  unfold rhs
  rw [hform, dropWhile_until]
  · rfl
  · intro c hc
    simp only [List.mem_append, List.mem_singleton] at hc
    rcases hc with hc | hc | hc
    · intro h; subst h; revert hc; decide
    · intro h; subst h
      have := hX _ hc
      revert this; decide
    · subst hc; decide

theorem slotsIn_operand (src : String) (d : Char) (t : List Char)
    (hX : ∀ c ∈ src.data, isIdentChar c = true) (hd : isIdentChar d = false) (hdot : d ≠ '.') :
    slotsIn ("nwocg.".data ++ (src.data ++ d :: t)) = src :: slotsIn (d :: t) :=
  slotsIn_slot src d t hX hd hdot

theorem sumTail_data (c : Char) (name : String) (rest : List (Char × String)) :
    (sumTail ((c, name) :: rest)).data
      = ' ' :: c :: ' ' :: (slotPrefix ++ (name.data ++ (sumTail rest).data)) := by
  simp only [sumTail, String.data_append, List.append_assoc]
  rfl

theorem sumTail_head (pairs : List (Char × String)) :
    ∃ d t, (sumTail pairs).data ++ [';'] = d :: t ∧ isIdentChar d = false ∧ d ≠ '.' := by
  cases pairs with
  | nil => exact ⟨';', [], rfl, by decide, by decide⟩
  | cons p rest =>
    obtain ⟨c, name⟩ := p
    rw [sumTail_data]
    exact ⟨' ', _, rfl, by decide, by decide⟩

theorem slotsIn_sumTail (pairs : List (Char × String))
    (hp : ∀ p ∈ pairs, ∀ c ∈ p.2.data, isIdentChar c = true) :
    slotsIn ((sumTail pairs).data ++ [';']) = pairs.map Prod.snd := by
  induction pairs with
  | nil => rfl
  | cons p rest ih =>
    obtain ⟨c, name⟩ := p
    obtain ⟨d, t, hdt, hd, hdot⟩ := sumTail_head rest
    rw [sumTail_data]
    show slotsIn (' ' :: c :: ' ' :: (slotPrefix ++ (name.data ++ (sumTail rest).data)) ++ [';'])
      = name :: rest.map Prod.snd
    simp only [List.cons_append, List.append_assoc]
    rw [slotsIn_cons_ne _ _ (by decide), slotsIn_sign, slotsIn_cons_ne _ _ (by decide), hdt,
      slotsIn_slot name d t (hp (c, name) (List.mem_cons_self _ _)) hd hdot, ← hdt,
      ih (fun p hp' => hp p (List.mem_cons_of_mem _ hp'))]

theorem slotsIn_sumExpr (first : String) (pairs : List (Char × String))
    (hf : ∀ c ∈ first.data, isIdentChar c = true)
    (hp : ∀ p ∈ pairs, ∀ c ∈ p.2.data, isIdentChar c = true) :
    slotsIn ("nwocg.".data ++ (first.data ++ ((sumTail pairs).data ++ ";".data)))
      = first :: pairs.map Prod.snd := by
  obtain ⟨d, t, hdt, hd, hdot⟩ := sumTail_head pairs
  show slotsIn (slotPrefix ++ (first.data ++ ((sumTail pairs).data ++ [';']))) = _
  rw [hdt, slotsIn_slot first d t hf hd hdot, ← hdt, slotsIn_sumTail pairs hp]

theorem slotsIn_gainExpr (src gain : String) (hs : ∀ c ∈ src.data, isIdentChar c = true)
    (hg : slotsIn gain.data = []) :
    slotsIn ("nwocg.".data ++ (src.data ++ (" * ".data ++ (gain.data ++ ";".data)))) = [src] := by
  show slotsIn (slotPrefix ++ (src.data ++ ' ' :: '*' :: ' ' :: (gain.data ++ [';']))) = _
  rw [slotsIn_slot src ' ' _ hs (by decide) (by decide), slotsIn_cons_ne _ _ (by decide),
    slotsIn_cons_ne _ _ (by decide), slotsIn_cons_ne _ _ (by decide),
    slotsIn_noSlot gain.data ';' [] hg (by decide)]
  rfl

theorem slotsIn_updateExpr (src : String) (hs : ∀ c ∈ src.data, isIdentChar c = true) :
    slotsIn ("nwocg.".data ++ (src.data ++ ";".data)) = [src] := by
  show slotsIn (slotPrefix ++ (src.data ++ [';'])) = _
  rw [slotsIn_slot src ';' [] hs (by decide) (by decide)]
  rfl

theorem slotsIn_entry (portName name : String) (tail : List Char)
    (hp : slotsIn portName.data = []) (hX : ∀ c ∈ name.data, isIdentChar c = true)
    (ht : 'n' ∉ tail) :
    slotsIn ("    \x7b \"".data ++ (portName.data ++ ("\", &nwocg.".data ++ (name.data ++ ',' :: tail))))
      = [name] := by
  show slotsIn (' ' :: ' ' :: ' ' :: ' ' :: '\x7b' :: ' ' :: '"' ::
    (portName.data ++ '"' :: ',' :: ' ' :: '&' :: (slotPrefix ++ (name.data ++ ',' :: tail)))) = _
  rw [slotsIn_cons_ne _ _ (by decide), slotsIn_cons_ne _ _ (by decide),
    slotsIn_cons_ne _ _ (by decide), slotsIn_cons_ne _ _ (by decide),
    slotsIn_cons_ne _ _ (by decide), slotsIn_cons_ne _ _ (by decide),
    slotsIn_cons_ne _ _ (by decide), slotsIn_noSlot portName.data '"' _ hp (by decide),
    slotsIn_cons_ne _ _ (by decide), slotsIn_cons_ne _ _ (by decide),
    slotsIn_cons_ne _ _ (by decide), slotsIn_cons_ne _ _ (by decide),
    slotsIn_slot name ',' _ hX (by decide) (by decide), slotsIn_cons_ne _ _ (by decide)]
  have := slotsIn_skip tail [] ht
  rw [List.append_nil] at this
  rw [this]
  rfl

theorem blockAt_mem (g : Graph) (x : Int) (b : Block) (h : g.blockAt x = some b) :
    some b ∈ g.blocks :=
  List.mem_iff_getElem?.2 ⟨_, ((blockAt_eq_some g x b).1 h).2⟩

theorem sumLoop_text (b : Block) (g : Graph) (cs : List Char) :
    ∀ (i : Nat) (expr r : String), sumLoop b g cs i expr = .ok r →
      ∃ pairs : List (Char × String), r = expr ++ sumTail pairs ∧
        ∀ p ∈ pairs, ∃ port s src, b.inputs.lookup port = some s ∧ g.blockAt s = some src ∧
          src.name = p.2 := by
  induction cs with
  | nil =>
    intro i expr r h
    simp only [sumLoop, Except.ok.injEq] at h
    exact ⟨[], by simp [sumTail, ← h], by simp⟩
  | cons c cs ih =>
    intro i expr r h
    rw [sumLoop] at h
    cases hv : b.getCInputVar ((i : Int) + 1) g with
    | error e => simp [hv] at h
    | ok v =>
      simp only [hv] at h
      obtain ⟨s, src, hlook, hsrc, hname⟩ := getCInputVar_ok b g _ v hv
      obtain ⟨pairs, hr, hp⟩ := ih _ _ _ h
      refine ⟨(c, src.name) :: pairs, ?_, ?_⟩
      · rw [hr, hname]
        simp only [sumTail]
        have : " nwocg." = " " ++ "nwocg." := by decide
        rw [this]
        simp only [String.append_assoc]
      · intro p hmem
        rcases List.mem_cons.1 hmem with h1 | h1
        · subst h1
          exact ⟨_, s, src, hlook, hsrc, rfl⟩
        · exact hp p h1

theorem computeLines_text (g : Graph) (b : Block) (line : String)
    (hnames : NamesAreIdentifiers g) (hgain : ParamHasNoSlot g "Gain")
    (hb : some b ∈ g.blocks) (h : computeLines b g = .ok [line]) :
    (b.type = "Sum" ∨ b.type = "Gain") ∧
    ∃ R, line.data = "    nwocg.".data ++ (b.name.data ++ (" = ".data ++ R)) ∧
      ∀ X ∈ slotsIn R, ∃ port s src, b.inputs.lookup port = some s ∧
        g.blockAt s = some src ∧ src.name = X := by
  have hident : ∀ x src, g.blockAt x = some src → ∀ c ∈ src.name.data, isIdentChar c = true :=
    fun x src hx => hnames (some src) (blockAt_mem g x src hx) src rfl
  rcases computeLines_ok b g [line] h with ⟨hsum, l, hl, hls⟩ | ⟨_, hg, l, hl, hls⟩ |
    ⟨_, _, hnil⟩
  · refine ⟨Or.inl hsum, ?_⟩
    simp only [List.cons.injEq, and_true] at hls
    subst hls
    obtain ⟨first, expr, hfirst, hloop, hline⟩ := sumLine_ok b g line hl
    obtain ⟨s1, src1, hlook1, hsrc1, hname1⟩ := getCInputVar_ok b g 1 first hfirst
    obtain ⟨pairs, hexpr, hpairs⟩ := sumLoop_text b g _ _ _ _ hloop
    refine ⟨"nwocg.".data ++ (src1.name.data ++ ((sumTail pairs).data ++ ";".data)), ?_, ?_⟩
    · rw [hline, hexpr, hname1]
      simp only [String.data_append, List.append_assoc]
    · rw [slotsIn_sumExpr src1.name pairs (hident s1 src1 hsrc1) (by
        intro p hp
        obtain ⟨port, s, src, _, hsrc, hname⟩ := hpairs p hp
        rw [← hname]
        exact hident s src hsrc)]
      intro X hX
      rcases List.mem_cons.1 hX with hX | hX
      · exact ⟨1, s1, src1, hlook1, hsrc1, hX.symm⟩
      · obtain ⟨p, hp, hpX⟩ := List.mem_map.1 hX
        obtain ⟨port, s, src, h1, h2, h3⟩ := hpairs p hp
        exact ⟨port, s, src, h1, h2, h3.trans hpX⟩
  · refine ⟨Or.inr hg, ?_⟩
    simp only [List.cons.injEq, and_true] at hls
    subst hls
    obtain ⟨v, hv, hline⟩ := gainLine_ok b g line hl
    obtain ⟨s, src, hlook, hsrc, hname⟩ := getCInputVar_ok b g 1 v hv
    have hgv : slotsIn ((b.params.lookup "Gain").getD "1.0").data = [] := by
      cases hp : b.params.lookup "Gain" with
      | none => rfl
      | some gv => exact hgain (some b) hb b rfl gv hp
    refine ⟨"nwocg.".data ++ (src.name.data ++ (" * ".data ++
      (((b.params.lookup "Gain").getD "1.0").data ++ ";".data))), ?_, ?_⟩
    · rw [hline, hname]
      simp only [String.data_append, List.append_assoc]
    · rw [slotsIn_gainExpr src.name _ (hident s src hsrc) hgv]
      intro X hX
      rw [List.mem_singleton] at hX
      exact ⟨1, s, src, hlook, hsrc, hX.symm⟩
  · cases hnil

theorem computePart_index (g : Graph) (ids : List Int) :
    ∀ (comp : List String) (i : Nat) (line : String), computePart g ids = .ok comp →
      comp[i]? = some line →
      ∃ pre k post b earlier later, ids = pre ++ k :: post ∧ g.blockAt k = some b ∧
        computePart g pre = .ok earlier ∧ earlier.length = i ∧
        computeLines b g = .ok [line] ∧ comp = earlier ++ line :: later := by
  induction ids with
  | nil =>
    intro comp i line h hi
    simp only [computePart, Except.ok.injEq] at h
    subst h
    simp at hi
  | cons k ids ih =>
    intro comp i line h hi
    obtain ⟨bk, ls, rest, hbk, hls, hrest, hcomp⟩ := computePart_cons_ok g k ids comp h
    have hcons : ∀ pre earlier, computePart g pre = .ok earlier →
        computePart g (k :: pre) = .ok (ls ++ earlier) := by
      intro pre earlier hpre
      simp only [computePart, hbk, hls, hpre]
    have hsingle : ls = [] ∨ ∃ l, ls = [l] := by
      rcases computeLines_ok bk g ls hls with ⟨_, l, _, h1⟩ | ⟨_, _, l, _, h1⟩ | ⟨_, _, h1⟩
      · exact Or.inr ⟨l, h1⟩
      · exact Or.inr ⟨l, h1⟩
      · exact Or.inl h1
    rcases hsingle with hnil | ⟨l, hl⟩
    · subst hnil
      rw [List.nil_append] at hcomp
      subst hcomp
      obtain ⟨pre, k', post, b, earlier, later, h1, h2, h3, h4, h5, h6⟩ := ih comp i line hrest hi
      exact ⟨k :: pre, k', post, b, earlier, later, by rw [h1]; rfl, h2,
        by simpa using hcons pre earlier h3, h4, h5, h6⟩
    · subst hl
      subst hcomp
      cases i with
      | zero =>
        simp only [List.singleton_append, List.getElem?_cons_zero, Option.some.injEq] at hi
        subst hi
        exact ⟨[], k, ids, bk, [], rest, rfl, hbk, rfl, rfl, hls, rfl⟩
      | succ i =>
        simp only [List.singleton_append, List.getElem?_cons_succ] at hi
        obtain ⟨pre, k', post, b, earlier, later, h1, h2, h3, h4, h5, h6⟩ :=
          ih rest i line hrest hi
        exact ⟨k :: pre, k', post, b, l :: earlier, later, by rw [h1]; rfl, h2,
          by simpa using hcons pre earlier h3, by simp [h4], h5, by rw [h6]; rfl⟩

theorem source_produced (g : Graph) (sortedBlockIds : List Int) (hid : IdsAreIndices g)
    (hcat : AllCatalogue g) (hc : Consistent g) (hout : NoOutportSource g)
    (hs : topologicalSort g = .ok sortedBlockIds) (pre post : List Int) (k : Int) (b : Block)
    (hsplit : sortedBlockIds = pre ++ k :: post) (hb : g.blockAt k = some b)
    (hty : b.type = "Sum" ∨ b.type = "Gain") (earlier : List String)
    (he : computePart g pre = .ok earlier) (port s : Int) (src : Block)
    (hlook : b.inputs.lookup port = some s) (hsrc : g.blockAt s = some src) :
    (some src ∈ g.blocks ∧ (src.type = "Inport" ∨ src.type = "UnitDelay")) ∨
      ∃ l ∈ earlier, AssignsSlot l ("nwocg." ++ src.name) := by
  have hnd : b.type ≠ "UnitDelay" := by
    rcases hty with h | h <;> rw [h] <;> decide
  obtain ⟨inDegree, inv⟩ := topologicalSort_inv g sortedBlockIds hid hc hs
  have hentry : (port, s) ∈ b.inputs := lookup_mem _ _ _ hlook
  have hspre : s ∈ pre := inv.order pre k post hsplit b hb hnd (port, s) hentry
  have hmem := blockAt_mem g s src hsrc
  have hkind := hcat (some src) hmem src rfl
  have hnot : src.type ≠ "Outport" :=
    hout (some b) (blockAt_mem g k b hb) b rfl (port, s) hentry src hsrc
  by_cases hsg : src.type = "Sum" ∨ src.type = "Gain"
  · right
    obtain ⟨ls, h1, h2⟩ := computePart_mem g pre earlier he s hspre src hsrc
    obtain ⟨l, hl1, hl2⟩ := computeLines_assigns src g ls h1 hsg
    subst hl1
    exact ⟨l, h2 l (List.mem_singleton_self _), hl2⟩
  · left
    refine ⟨hmem, ?_⟩
    simp only [List.mem_cons, List.mem_singleton, List.not_mem_nil, or_false] at hkind
    tauto

/-- C5 (amended): on a graph whose identifiers are the slot indices, whose
blocks all have a type of the catalogue and a name made of letters, digits and
underscores, whose fan-out table is the exact inverse of the `inputs` maps, in
which no `Outport` is the source of a connection and no `Gain` parameter
contains the text `nwocg.`, when `generate` succeeds every slot `nwocg.<X>`
that occurs on the right-hand side of a computation line of the emitted step
body belongs to an `Inport` or `UnitDelay` block, or is assigned by a
computation line that stands earlier in the step body. -/
theorem compute_reads_produced (g : Graph) (lines : List String)
    (hid : IdsAreIndices g) (hcat : AllCatalogue g) (hc : Consistent g)
    (hout : NoOutportSource g) (hnames : NamesAreIdentifiers g)
    (hgain : ParamHasNoSlot g "Gain") (hgen : generate g = .ok lines) :
    ∃ sortedBlockIds structLines initL comp upd portLines,
      topologicalSort g = .ok sortedBlockIds ∧
      computePart g sortedBlockIds = .ok comp ∧
      lines = genHeader ++ structLines ++ initL
        ++ (["void nwocg_generated_step()", "\x7b"] ++ comp
            ++ ["", "    // Update delay blocks state"] ++ upd ++ ["\x7d", ""])
        ++ portLines ∧
      ∀ (i : Nat) (line : String), comp[i]? = some line →
        ∀ X ∈ slotsIn (rhs line.data),
          (∃ b, some b ∈ g.blocks ∧ (b.type = "Inport" ∨ b.type = "UnitDelay") ∧ b.name = X) ∨
          ∃ j l, j < i ∧ comp[j]? = some l ∧ AssignsSlot l ("nwocg." ++ X) := by
  obtain ⟨sorted, delay, sl, il, stl, pl, h1, _, _, _, h5, _, hlines⟩ := generate_ok g lines hgen
  obtain ⟨comp, upd, hcomp, _, hstl⟩ := genStep_ok g sorted delay stl h5
  refine ⟨sorted, sl, il, comp, upd, pl, h1, hcomp, by rw [hlines, hstl], ?_⟩
  intro i line hi X hX
  obtain ⟨pre, k, post, b, earlier, later, hsplit, hb, he, hlen, hcl, hcomp2⟩ :=
    computePart_index g sorted comp i line hcomp hi
  obtain ⟨hty, R, hdata, hR⟩ :=
    computeLines_text g b line hnames hgain (blockAt_mem g k b hb) hcl
  rw [hdata, rhs_assign _ _ (hnames (some b) (blockAt_mem g k b hb) b rfl),
    slotsIn_cons_ne _ _ (by decide)] at hX
  obtain ⟨port, s, src, hlook, hsrc, hname⟩ := hR X hX
  rcases source_produced g sorted hid hcat hc hout h1 pre post k b hsplit hb hty earlier he
    port s src hlook hsrc with ⟨hmem, hkind⟩ | ⟨l, hl, hassign⟩
  · exact Or.inl ⟨src, hmem, hkind, hname⟩
  · right
    obtain ⟨j, hj⟩ := List.mem_iff_getElem?.1 hl
    have hjlt : j < earlier.length := by
      rcases Nat.lt_or_ge j earlier.length with h | h
      · exact h
      · rw [List.getElem?_eq_none h] at hj
        cases hj
    refine ⟨j, l, hlen ▸ hjlt, ?_, hname ▸ hassign⟩
    rw [hcomp2, List.getElem?_append_left hjlt]
    exact hj

theorem compute_reads_produced_witness :
    ∃ sortedBlockIds structLines initL comp upd portLines,
      topologicalSort scenario = .ok sortedBlockIds ∧
      computePart scenario sortedBlockIds = .ok comp ∧
      [ "#include \"nwocg_run.h\"",
        "",
        "#include <math.h>",
        "",
        "static struct",
        "\x7b",
        "    double setpoint;",
        "    double feedback;",
        "    double Unit_Delay1;",
        "    double Add1;",
        "    double I_gain;",
        "    double P_gain;",
        "    double Ts;",
        "    double Add2;",
        "    double Add3;",
        "\x7d nwocg;",
        "",
        "void nwocg_generated_init()",
        "\x7b",
        "    nwocg.Unit_Delay1 = 0.0;",
        "\x7d",
        "",
        "void nwocg_generated_step()",
        "\x7b",
        "    nwocg.Add1 = nwocg.setpoint - nwocg.feedback;",
        "    nwocg.I_gain = nwocg.Add1 * 2;",
        "    nwocg.P_gain = nwocg.Add1 * 3;",
        "    nwocg.Ts = nwocg.I_gain * 0.01;",
        "    nwocg.Add2 = nwocg.Ts + nwocg.Unit_Delay1;",
        "    nwocg.Add3 = nwocg.P_gain + nwocg.Add2;",
        "",
        "    // Update delay blocks state",
        "    nwocg.Unit_Delay1 = nwocg.Add2;",
        "\x7d",
        "",
        "static const nwocg_ExtPort ext_ports[] = \x7b",
        "    \x7b \"command\", &nwocg.Add3, 0 \x7d,",
        "    \x7b \"setpoint\", &nwocg.setpoint, 1 \x7d,",
        "    \x7b \"feedback\", &nwocg.feedback, 1 \x7d,",
        "    \x7b 0, 0, 0 \x7d",
        "\x7d;",
        "",
        "const nwocg_ExtPort* const nwocg_generated_ext_ports = ext_ports;",
        "const size_t nwocg_generated_ext_ports_size = sizeof(ext_ports);" ]
        = genHeader ++ structLines ++ initL
        ++ (["void nwocg_generated_step()", "\x7b"] ++ comp
            ++ ["", "    // Update delay blocks state"] ++ upd ++ ["\x7d", ""])
        ++ portLines ∧
      ∀ (i : Nat) (line : String), comp[i]? = some line →
        ∀ X ∈ slotsIn (rhs line.data),
          (∃ b, some b ∈ scenario.blocks ∧ (b.type = "Inport" ∨ b.type = "UnitDelay") ∧
            b.name = X) ∨
          ∃ j l, j < i ∧ comp[j]? = some l ∧ AssignsSlot l ("nwocg." ++ X) :=
  compute_reads_produced scenario
      [ "#include \"nwocg_run.h\"",
        "",
        "#include <math.h>",
        "",
        "static struct",
        "\x7b",
        "    double setpoint;",
        "    double feedback;",
        "    double Unit_Delay1;",
        "    double Add1;",
        "    double I_gain;",
        "    double P_gain;",
        "    double Ts;",
        "    double Add2;",
        "    double Add3;",
        "\x7d nwocg;",
        "",
        "void nwocg_generated_init()",
        "\x7b",
        "    nwocg.Unit_Delay1 = 0.0;",
        "\x7d",
        "",
        "void nwocg_generated_step()",
        "\x7b",
        "    nwocg.Add1 = nwocg.setpoint - nwocg.feedback;",
        "    nwocg.I_gain = nwocg.Add1 * 2;",
        "    nwocg.P_gain = nwocg.Add1 * 3;",
        "    nwocg.Ts = nwocg.I_gain * 0.01;",
        "    nwocg.Add2 = nwocg.Ts + nwocg.Unit_Delay1;",
        "    nwocg.Add3 = nwocg.P_gain + nwocg.Add2;",
        "",
        "    // Update delay blocks state",
        "    nwocg.Unit_Delay1 = nwocg.Add2;",
        "\x7d",
        "",
        "static const nwocg_ExtPort ext_ports[] = \x7b",
        "    \x7b \"command\", &nwocg.Add3, 0 \x7d,",
        "    \x7b \"setpoint\", &nwocg.setpoint, 1 \x7d,",
        "    \x7b \"feedback\", &nwocg.feedback, 1 \x7d,",
        "    \x7b 0, 0, 0 \x7d",
        "\x7d;",
        "",
        "const nwocg_ExtPort* const nwocg_generated_ext_ports = ext_ports;",
        "const size_t nwocg_generated_ext_ports_size = sizeof(ext_ports);" ]
    (by decide) (by decide) (by decide) (by decide) (by decide) (by decide) (by rfl)

/-- C5 (as stated) fails. In `outportSource` all blocks have a type of the
catalogue, the fan-out table is the exact inverse of the `inputs` maps and
`generate` succeeds, but the only computation line reads `nwocg.out`, which
belongs to no `Inport` or `UnitDelay` block and has no earlier line to assign
it. In `ghost` the same holds of `nwocg.ghost`, which the `Gain` parameter puts
on the right-hand side. -/
theorem gain_reads_outport_slot :
    (AllCatalogue outportSource ∧ Consistent outportSource ∧ IdsAreIndices outportSource ∧
      (∃ lines, generate outportSource = .ok lines ∧ "    nwocg.g = nwocg.out * 1.0;" ∈ lines) ∧
      topologicalSort outportSource = .ok [0, 1, 2] ∧
      computePart outportSource [0, 1, 2] = .ok ["    nwocg.g = nwocg.out * 1.0;"] ∧
      slotsIn (rhs "    nwocg.g = nwocg.out * 1.0;".data) = ["out"] ∧
      ∀ slot ∈ outportSource.blocks, ∀ b ∈ slot,
        Block.name b = "out" → ¬ (Block.type b = "Inport" ∨ Block.type b = "UnitDelay")) ∧
    (AllCatalogue ghost ∧ Consistent ghost ∧ IdsAreIndices ghost ∧ NoOutportSource ghost ∧
      (∃ lines, generate ghost = .ok lines ∧ "    nwocg.g = nwocg.in * nwocg.ghost;" ∈ lines) ∧
      topologicalSort ghost = .ok [0, 1, 2] ∧
      computePart ghost [0, 1, 2] = .ok ["    nwocg.g = nwocg.in * nwocg.ghost;"] ∧
      slotsIn (rhs "    nwocg.g = nwocg.in * nwocg.ghost;".data) = ["in", "ghost"] ∧
      ∀ slot ∈ ghost.blocks, ∀ b ∈ slot, Block.name b ≠ "ghost") := by
  refine ⟨⟨by decide, by decide, by decide, ⟨_, by rfl, ?_⟩, by rfl, by rfl, by rfl, by decide⟩,
    ⟨by decide, by decide, by decide, by decide, ⟨_, by rfl, ?_⟩, by rfl, by rfl, by rfl,
      by decide⟩⟩
  · decide
  · decide

theorem slotsIn_fixed_lines :
    ∀ l ∈ ["void nwocg_generated_init()", "\x7b", "\x7d", "", "void nwocg_generated_step()",
        "    // Update delay blocks state", "static const nwocg_ExtPort ext_ports[] = \x7b",
        "    \x7b 0, 0, 0 \x7d", "\x7d;",
        "const nwocg_ExtPort* const nwocg_generated_ext_ports = ext_ports;",
        "const size_t nwocg_generated_ext_ports_size = sizeof(ext_ports);"],
      slotsIn (String.data l) = [] := by
  decide

theorem initLines_mem (g : Graph) (ids : List Int) :
    ∀ body, initLines g ids = .ok body → ∀ l ∈ body, ∃ k ∈ ids, ∃ b, g.blockAt k = some b ∧
      l = "    nwocg." ++ b.name ++ " = 0.0;" := by
  induction ids with
  | nil =>
    intro body h l hl
    simp only [initLines, Except.ok.injEq] at h
    subst h
    simp at hl
  | cons k ids ih =>
    intro body h l hl
    rw [initLines] at h
    cases hk : g.blockAt k with
    | none => simp [hk] at h
    | some b =>
      cases hr : initLines g ids with
      | error e => simp [hk, hr] at h
      | ok rest =>
        simp only [hk, hr, Except.ok.injEq] at h
        subst h
        rcases List.mem_cons.1 hl with h1 | h1
        · exact ⟨k, List.mem_cons_self _ _, b, hk, h1⟩
        · obtain ⟨k', hk', b', hb', hl'⟩ := ih rest hr l h1
          exact ⟨k', List.mem_cons_of_mem _ hk', b', hb', hl'⟩

theorem forall₂_mem_right {α β : Type} (R : α → β → Prop) (as : List α) (bs : List β)
    (h : List.Forall₂ R as bs) : ∀ b ∈ bs, ∃ a ∈ as, R a b := by
  induction h with
  | nil => intro b hb; simp at hb
  | cons hab _ ih =>
    intro b hb
    rcases List.mem_cons.1 hb with h1 | h1
    · subst h1
      exact ⟨_, List.mem_cons_self _ _, hab⟩
    · obtain ⟨a, ha, hr⟩ := ih b h1
      exact ⟨a, List.mem_cons_of_mem _ ha, hr⟩

theorem genInit_ok (g : Graph) (delayBlocks : List Int) (initL : List String)
    (h : genInit g delayBlocks = .ok initL) :
    ∃ body, initLines g delayBlocks = .ok body ∧
      initL = ["void nwocg_generated_init()", "\x7b"] ++ body ++ ["\x7d", ""] := by
  unfold genInit at h
  cases hb : initLines g delayBlocks with
  | error e => simp [hb] at h
  | ok body =>
    simp only [hb, Except.ok.injEq] at h
    exact ⟨body, rfl, h.symm⟩

theorem genExtPorts_ok (g : Graph) (portLines : List String)
    (h : genExtPorts g = .ok portLines) :
    (∀ p ∈ slotsOfType "Outport" 0 g.blocks,
      ∃ s src, p.2.inputs.lookup 1 = some s ∧ g.blockAt s = some src) ∧
    portLines = ["static const nwocg_ExtPort ext_ports[] = \x7b"]
      ++ (slotsOfType "Outport" 0 g.blocks).map (fun p => outportEntry g p.2)
      ++ (slotsOfType "Inport" 0 g.blocks).map (fun p => inportEntry p.2)
      ++ ["    \x7b 0, 0, 0 \x7d", "\x7d;", "",
          "const nwocg_ExtPort* const nwocg_generated_ext_ports = ext_ports;",
          "const size_t nwocg_generated_ext_ports_size = sizeof(ext_ports);"] := by
  unfold genExtPorts at h
  cases hr : extPortsLoop g g.blocks [] [] with
  | error e => simp [hr] at h
  | ok r =>
    obtain ⟨o, n⟩ := r
    simp only [hr, Except.ok.injEq] at h
    obtain ⟨h1, h2, h3⟩ := extPortsLoop_ok g g.blocks 0 [] [] (o, n) hr
    simp only [List.nil_append] at h1 h2
    refine ⟨h3, ?_⟩
    rw [← h, h1, h2]

theorem slotsIn_initLine (name : String) (hX : ∀ c ∈ name.data, isIdentChar c = true) :
    slotsIn ("    nwocg." ++ name ++ " = 0.0;").data = [name] := by
  have : ("    nwocg." ++ name ++ " = 0.0;").data
      = "    nwocg.".data ++ (name.data ++ (" = ".data ++ ['0', '.', '0', ';'])) := by
    simp only [String.data_append, List.append_assoc]
    rfl
  rw [this, slotsIn_assign _ _ hX]
  rfl

theorem slotsIn_updateLine (name src : String) (hX : ∀ c ∈ name.data, isIdentChar c = true)
    (hs : ∀ c ∈ src.data, isIdentChar c = true) :
    slotsIn ("    nwocg." ++ name ++ " = nwocg." ++ src ++ ";").data = [name, src] := by
  have : ("    nwocg." ++ name ++ " = nwocg." ++ src ++ ";").data
      = "    nwocg.".data ++ (name.data ++ (" = ".data ++ ("nwocg.".data ++ (src.data ++ ";".data)))) := by
    simp only [String.data_append, List.append_assoc]
    rfl
  rw [this, slotsIn_assign _ _ hX, slotsIn_updateExpr _ hs]

theorem slotsIn_outportEntry (g : Graph) (b src : Block) (s : Int)
    (hb : ∀ c ∈ b.name.data, isIdentChar c = true)
    (hsn : ∀ c ∈ src.name.data, isIdentChar c = true)
    (hlook : b.inputs.lookup 1 = some s) (hsrc : g.blockAt s = some src) :
    slotsIn (outportEntry g b).data = [src.name] := by
  have hf : feederName g b = some src.name := by
    simp [feederName, hlook, hsrc]
  have : (outportEntry g b).data
      = "    \x7b \"".data ++ (b.name.data ++ ("\", &nwocg.".data ++
          (src.name.data ++ ',' :: [' ', '0', ' ', '\x7d', ','])))  := by
    simp only [outportEntry, hf, Option.getD_some, String.data_append, List.append_assoc]
  rw [this]
  exact slotsIn_entry b.name src.name _ (slotsIn_ident _ hb) hsn (by decide)

theorem slotsIn_inportEntry (b : Block) (hb : ∀ c ∈ b.name.data, isIdentChar c = true)
    (hp : ∀ v, b.params.lookup "PortName" = some v → slotsIn v.data = []) :
    slotsIn (inportEntry b).data = [b.name] := by
  cases hl : b.params.lookup "PortName" with
  | none =>
    have : (inportEntry b).data
        = "    \x7b \"".data ++ (b.name.data ++ ("\", &nwocg.".data ++
            (b.name.data ++ ',' :: [' ', '1', ' ', '\x7d', ','])))  := by
      simp only [inportEntry, hl, String.data_append, List.append_assoc]
    rw [this]
    exact slotsIn_entry b.name b.name _ (slotsIn_ident _ hb) hb (by decide)
  | some v =>
    have : (inportEntry b).data
        = "    \x7b \"".data ++ (v.data ++ ("\", &nwocg.".data ++
            (b.name.data ++ ',' :: [' ', '1', ' ', '\x7d', ','])))  := by
      simp only [inportEntry, hl, String.data_append, List.append_assoc]
    rw [this]
    exact slotsIn_entry v b.name _ (hp v hl) hb (by decide)

theorem emitted_slots_are_blocks (g : Graph) (hout : NoOutportSource g)
    (hnames : NamesAreIdentifiers g) (hgain : ParamHasNoSlot g "Gain")
    (hport : ParamHasNoSlot g "PortName") (sortedBlockIds delayBlocks : List Int)
    (initL stepLines portLines : List String)
    (hdelay : collectDelayBlocks g sortedBlockIds = .ok delayBlocks)
    (hil : genInit g delayBlocks = .ok initL)
    (hstl : genStep g sortedBlockIds delayBlocks = .ok stepLines)
    (hpl : genExtPorts g = .ok portLines) :
    ∀ line ∈ initL ++ stepLines ++ portLines, ∀ X ∈ slotsIn line.data,
      ∃ b, some b ∈ g.blocks ∧ b.type ≠ "Outport" ∧ b.name = X := by
  have hident : ∀ b, some b ∈ g.blocks → ∀ c ∈ b.name.data, isIdentChar c = true :=
    fun b hb => hnames (some b) hb b rfl
  have hsource : ∀ (b : Block) (port s : Int) (src : Block), some b ∈ g.blocks →
      b.inputs.lookup port = some s → g.blockAt s = some src →
      some src ∈ g.blocks ∧ src.type ≠ "Outport" := by
    intro b port s src hb hlook hsrc
    exact ⟨blockAt_mem g s src hsrc,
      hout (some b) hb b rfl (port, s) (lookup_mem _ _ _ hlook) src hsrc⟩
  have hdelayBlock : ∀ k ∈ delayBlocks, ∀ b, g.blockAt k = some b → b.type = "UnitDelay" := by
    intro k hk b hb
    rw [(collectDelayBlocks_eq g sortedBlockIds delayBlocks hdelay).1] at hk
    have := (List.mem_filter.1 hk).2
    simpa only [isDelayAt, hb, decide_eq_true_eq] using this
  have hfixed := slotsIn_fixed_lines
  obtain ⟨body, hbody, hil2⟩ := genInit_ok g delayBlocks initL hil
  obtain ⟨comp, upd, hcomp, hupd, hstl2⟩ := genStep_ok g sortedBlockIds delayBlocks stepLines hstl
  obtain ⟨houts, hpl2⟩ := genExtPorts_ok g portLines hpl
  intro line hline X hX
  have hcases : line ∈ ["void nwocg_generated_init()", "\x7b", "\x7d", "",
        "void nwocg_generated_step()", "    // Update delay blocks state",
        "static const nwocg_ExtPort ext_ports[] = \x7b", "    \x7b 0, 0, 0 \x7d", "\x7d;",
        "const nwocg_ExtPort* const nwocg_generated_ext_ports = ext_ports;",
        "const size_t nwocg_generated_ext_ports_size = sizeof(ext_ports);"] ∨
      line ∈ body ∨ line ∈ comp ∨ line ∈ upd ∨
      line ∈ (slotsOfType "Outport" 0 g.blocks).map (fun p => outportEntry g p.2) ∨
      line ∈ (slotsOfType "Inport" 0 g.blocks).map (fun p => inportEntry p.2) := by
    rw [hil2, hstl2, hpl2] at hline
    simp only [List.mem_append, List.mem_cons, List.mem_singleton, List.not_mem_nil,
      or_false] at hline ⊢
    tauto
  rcases hcases with h | h | h | h | h | h
  · rw [hfixed line h] at hX
    simp at hX
  · obtain ⟨k, hk, b, hb, hl⟩ := initLines_mem g delayBlocks body hbody line h
    have hbm := blockAt_mem g k b hb
    rw [hl, slotsIn_initLine _ (hident b hbm), List.mem_singleton] at hX
    exact ⟨b, hbm, by rw [hdelayBlock k hk b hb]; decide, hX.symm⟩
  · obtain ⟨i, hi⟩ := List.mem_iff_getElem?.1 h
    obtain ⟨pre, k, post, b, earlier, later, _, hb, _, _, hcl, _⟩ :=
      computePart_index g sortedBlockIds comp i line hcomp hi
    have hbm := blockAt_mem g k b hb
    obtain ⟨hty, R, hdata, hR⟩ := computeLines_text g b line hnames hgain hbm hcl
    rw [hdata, slotsIn_assign _ _ (hident b hbm)] at hX
    rcases List.mem_cons.1 hX with hX | hX
    · refine ⟨b, hbm, ?_, hX.symm⟩
      rcases hty with h' | h' <;> rw [h'] <;> decide
    · obtain ⟨port, s, src, hlook, hsrc, hname⟩ := hR X hX
      obtain ⟨h1, h2⟩ := hsource b port s src hbm hlook hsrc
      exact ⟨src, h1, h2, hname⟩
  · obtain ⟨k, hk, b, s, src, hb, hlook, hsrc, hl⟩ :=
      forall₂_mem_right _ _ _ (updatePart_ok g delayBlocks upd hupd) line h
    have hbm := blockAt_mem g k b hb
    obtain ⟨h1, h2⟩ := hsource b 1 s src hbm hlook hsrc
    rw [hl, slotsIn_updateLine _ _ (hident b hbm) (hident src h1)] at hX
    simp only [List.mem_cons, List.mem_singleton, List.not_mem_nil, or_false] at hX
    rcases hX with hX | hX
    · exact ⟨b, hbm, by rw [hdelayBlock k hk b hb]; decide, hX.symm⟩
    · exact ⟨src, h1, h2, hX.symm⟩
  · obtain ⟨p, hp, hl⟩ := List.mem_map.1 h
    obtain ⟨n, b⟩ := p
    obtain ⟨_, hget, _⟩ := (mem_slotsOfType "Outport" g.blocks 0 n b).1 hp
    have hbm : some b ∈ g.blocks := List.mem_iff_getElem?.2 ⟨_, hget⟩
    obtain ⟨s, src, hlook, hsrc⟩ := houts (n, b) hp
    obtain ⟨h1, h2⟩ := hsource b 1 s src hbm hlook hsrc
    rw [← hl, slotsIn_outportEntry g b src s (hident b hbm) (hident src h1) hlook hsrc,
      List.mem_singleton] at hX
    exact ⟨src, h1, h2, hX.symm⟩
  · obtain ⟨p, hp, hl⟩ := List.mem_map.1 h
    obtain ⟨n, b⟩ := p
    obtain ⟨_, hget, hty⟩ := (mem_slotsOfType "Inport" g.blocks 0 n b).1 hp
    have hbm : some b ∈ g.blocks := List.mem_iff_getElem?.2 ⟨_, hget⟩
    rw [← hl, slotsIn_inportEntry b (hident b hbm) (fun v hv => hport (some b) hbm b rfl v hv),
      List.mem_singleton] at hX
    exact ⟨b, hbm, by rw [hty]; decide, hX.symm⟩

/-- C20 (amended): on a graph whose identifiers are the slot indices, whose
blocks all have a type of the catalogue and a name made of letters, digits and
underscores, whose fan-out table is the exact inverse of the `inputs` maps, in
which every recorded source is a non-empty slot, no `Outport` is the source of
a connection, the connections into blocks other than `UnitDelay` form no cycle
and no `Gain` or `PortName` parameter contains the text `nwocg.`, when
`generate` succeeds every slot `nwocg.<X>` that occurs in a line of the emitted
initializer, step body or external-port table has its field line
`    double <X>;` in the emitted struct. -/
theorem used_slots_declared (g : Graph) (lines : List String)
    (hid : IdsAreIndices g) (hcat : AllCatalogue g) (hc : Consistent g)
    (hsrc : SourcesExist g) (hout : NoOutportSource g) (hac : Acyclic g)
    (hnames : NamesAreIdentifiers g) (hgain : ParamHasNoSlot g "Gain")
    (hport : ParamHasNoSlot g "PortName") (hgen : generate g = .ok lines) :
    ∃ sortedBlockIds delayBlocks structLines initL stepLines portLines,
      topologicalSort g = .ok sortedBlockIds ∧
      collectDelayBlocks g sortedBlockIds = .ok delayBlocks ∧
      genStruct g sortedBlockIds = .ok structLines ∧
      genInit g delayBlocks = .ok initL ∧
      genStep g sortedBlockIds delayBlocks = .ok stepLines ∧
      genExtPorts g = .ok portLines ∧
      lines = genHeader ++ structLines ++ initL ++ stepLines ++ portLines ∧
      ∀ line ∈ initL ++ stepLines ++ portLines, ∀ X ∈ slotsIn line.data,
        ("    double " ++ X ++ ";") ∈ structLines := by
  have _ := hcat
  obtain ⟨sorted, delay, sl, il, stl, pl, h1, h2, h3, h4, h5, h6, hlines⟩ :=
    generate_ok g lines hgen
  obtain ⟨seq, hseq, _, hmem, _⟩ := schedules_all g hid hc hsrc hac
  rw [h1] at hseq
  cases hseq
  refine ⟨sorted, delay, sl, il, stl, pl, h1, h2, h3, h4, h5, h6, hlines, ?_⟩
  intro line hline X hX
  obtain ⟨b, hb, hty, hname⟩ :=
    emitted_slots_are_blocks g hout hnames hgain hport sorted delay il stl pl h2 h4 h5 h6
      line hline X hX
  unfold genStruct at h3
  cases hf : structFields g sorted with
  | error e => simp [hf] at h3
  | ok fields =>
    simp only [hf, Except.ok.injEq] at h3
    have := structFields_mem g sorted fields hf b.id (hmem b hb) b
      (blockAt_of_mem g hid b hb) hty
    rw [← h3, ← hname]
    simp [this]

theorem used_slots_declared_witness :
    ∃ sortedBlockIds delayBlocks structLines initL stepLines portLines,
      topologicalSort scenario = .ok sortedBlockIds ∧
      collectDelayBlocks scenario sortedBlockIds = .ok delayBlocks ∧
      genStruct scenario sortedBlockIds = .ok structLines ∧
      genInit scenario delayBlocks = .ok initL ∧
      genStep scenario sortedBlockIds delayBlocks = .ok stepLines ∧
      genExtPorts scenario = .ok portLines ∧
      [ "#include \"nwocg_run.h\"",
        "",
        "#include <math.h>",
        "",
        "static struct",
        "\x7b",
        "    double setpoint;",
        "    double feedback;",
        "    double Unit_Delay1;",
        "    double Add1;",
        "    double I_gain;",
        "    double P_gain;",
        "    double Ts;",
        "    double Add2;",
        "    double Add3;",
        "\x7d nwocg;",
        "",
        "void nwocg_generated_init()",
        "\x7b",
        "    nwocg.Unit_Delay1 = 0.0;",
        "\x7d",
        "",
        "void nwocg_generated_step()",
        "\x7b",
        "    nwocg.Add1 = nwocg.setpoint - nwocg.feedback;",
        "    nwocg.I_gain = nwocg.Add1 * 2;",
        "    nwocg.P_gain = nwocg.Add1 * 3;",
        "    nwocg.Ts = nwocg.I_gain * 0.01;",
        "    nwocg.Add2 = nwocg.Ts + nwocg.Unit_Delay1;",
        "    nwocg.Add3 = nwocg.P_gain + nwocg.Add2;",
        "",
        "    // Update delay blocks state",
        "    nwocg.Unit_Delay1 = nwocg.Add2;",
        "\x7d",
        "",
        "static const nwocg_ExtPort ext_ports[] = \x7b",
        "    \x7b \"command\", &nwocg.Add3, 0 \x7d,",
        "    \x7b \"setpoint\", &nwocg.setpoint, 1 \x7d,",
        "    \x7b \"feedback\", &nwocg.feedback, 1 \x7d,",
        "    \x7b 0, 0, 0 \x7d",
        "\x7d;",
        "",
        "const nwocg_ExtPort* const nwocg_generated_ext_ports = ext_ports;",
        "const size_t nwocg_generated_ext_ports_size = sizeof(ext_ports);" ]
        = genHeader ++ structLines ++ initL ++ stepLines ++ portLines ∧
      ∀ line ∈ initL ++ stepLines ++ portLines, ∀ X ∈ slotsIn line.data,
        ("    double " ++ X ++ ";") ∈ structLines :=
  used_slots_declared scenario
      [ "#include \"nwocg_run.h\"",
        "",
        "#include <math.h>",
        "",
        "static struct",
        "\x7b",
        "    double setpoint;",
        "    double feedback;",
        "    double Unit_Delay1;",
        "    double Add1;",
        "    double I_gain;",
        "    double P_gain;",
        "    double Ts;",
        "    double Add2;",
        "    double Add3;",
        "\x7d nwocg;",
        "",
        "void nwocg_generated_init()",
        "\x7b",
        "    nwocg.Unit_Delay1 = 0.0;",
        "\x7d",
        "",
        "void nwocg_generated_step()",
        "\x7b",
        "    nwocg.Add1 = nwocg.setpoint - nwocg.feedback;",
        "    nwocg.I_gain = nwocg.Add1 * 2;",
        "    nwocg.P_gain = nwocg.Add1 * 3;",
        "    nwocg.Ts = nwocg.I_gain * 0.01;",
        "    nwocg.Add2 = nwocg.Ts + nwocg.Unit_Delay1;",
        "    nwocg.Add3 = nwocg.P_gain + nwocg.Add2;",
        "",
        "    // Update delay blocks state",
        "    nwocg.Unit_Delay1 = nwocg.Add2;",
        "\x7d",
        "",
        "static const nwocg_ExtPort ext_ports[] = \x7b",
        "    \x7b \"command\", &nwocg.Add3, 0 \x7d,",
        "    \x7b \"setpoint\", &nwocg.setpoint, 1 \x7d,",
        "    \x7b \"feedback\", &nwocg.feedback, 1 \x7d,",
        "    \x7b 0, 0, 0 \x7d",
        "\x7d;",
        "",
        "const nwocg_ExtPort* const nwocg_generated_ext_ports = ext_ports;",
        "const size_t nwocg_generated_ext_ports_size = sizeof(ext_ports);" ]
    (by decide) (by decide) (by decide) (by decide) (by decide)
    (acyclic_of_rank scenario Int.toNat (by decide)) (by decide) (by decide) (by decide) (by rfl)

/-- C20 (as stated) fails. In `outportSource` all blocks have a type of the
catalogue, the fan-out table is the exact inverse of the `inputs` maps and
`generate` succeeds, but the step body holds the slot `nwocg.out` and the
struct has the fields `in` and `g` only. In `ghost` the same holds of
`nwocg.ghost`, which the `Gain` parameter puts into the step body. -/
theorem outport_slot_undeclared :
    (AllCatalogue outportSource ∧ Consistent outportSource ∧
      (∃ lines, generate outportSource = .ok lines ∧
        "    nwocg.g = nwocg.out * 1.0;" ∈ lines ∧ "    double out;" ∉ lines) ∧
      genStep outportSource [0, 1, 2] []
        = .ok ["void nwocg_generated_step()", "\x7b", "    nwocg.g = nwocg.out * 1.0;", "",
               "    // Update delay blocks state", "\x7d", ""] ∧
      genStruct outportSource [0, 1, 2]
        = .ok ["static struct", "\x7b", "    double in;", "    double g;", "\x7d nwocg;", ""] ∧
      "out" ∈ slotsIn "    nwocg.g = nwocg.out * 1.0;".data) ∧
    (AllCatalogue ghost ∧ Consistent ghost ∧
      (∃ lines, generate ghost = .ok lines ∧
        "    nwocg.g = nwocg.in * nwocg.ghost;" ∈ lines ∧ "    double ghost;" ∉ lines) ∧
      genStep ghost [0, 1, 2] []
        = .ok ["void nwocg_generated_step()", "\x7b", "    nwocg.g = nwocg.in * nwocg.ghost;",
               "", "    // Update delay blocks state", "\x7d", ""] ∧
      genStruct ghost [0, 1, 2]
        = .ok ["static struct", "\x7b", "    double in;", "    double g;", "\x7d nwocg;", ""] ∧
      "ghost" ∈ slotsIn "    nwocg.g = nwocg.in * nwocg.ghost;".data) := by
  refine ⟨⟨by decide, by decide, ⟨_, by rfl, ?_, ?_⟩, by rfl, by rfl, by decide⟩,
    ⟨by decide, by decide, ⟨_, by rfl, ?_, ?_⟩, by rfl, by rfl, by decide⟩⟩
  · decide
  · decide
  · decide
  · decide

/-- C16 (as stated) fails: `2147483648#a:1` has the form `<b>#<segment>:<p>`
with `b` and `p` decimal integers, and `parseEndpoint` raises the
`std::out_of_range` of `std::stoi` instead of yielding `b = 2147483648`. -/
theorem parseEndpoint_out_of_range :
    "2147483648#a:1".data = ['2', '1', '4', '7', '4', '8', '3', '6', '4', '8'] ++ '#' :: (['a'] ++ ':' :: ['1']) ∧
      decimal ['2', '1', '4', '7', '4', '8', '3', '6', '4', '8'] = some 2147483648 ∧
      decimal ['1'] = some 1 ∧ '#' ∉ ['a'] ∧ ':' ∉ ['a'] ∧
      parseEndpoint "2147483648#a:1" = .error .outOfRange :=
  ⟨by rfl, by rfl, by rfl, by decide, by decide, by rfl⟩

end Generator
